import Mathlib

/-!
Shallow embedding of the `godel` repository (Gödel numbering of strings of a
small formal language, after Nagel & Newman) and verification of its
specification claims.

Sources embedded:
  - src/util/arithmetic.py : `prod`
  - src/util/ntheory.py    : `sieve`, `factor`
  - src/util/bijection.py  : `Bijection`
  - src/godel.py           : configuration, `Lexer`, `State`, `encode`, `decode`

Modelling conventions:
  - Python strings are `List Char`; Python ints are `Int` (arbitrary precision);
    list indices, lengths and fuel counters are `Nat`.
  - Python `while` loops are modelled with an explicit fuel argument chosen
    large enough (proved sufficient below); `for x in range(...)` loops are
    folds over `List.range`/`List.range'`, which is exactly Python's semantics.
  - Python dicts are association lists in insertion order (Python 3.7+ dicts
    preserve insertion order); `dict.get` is `List.lookup`.
  - Exceptions are modelled with `Except`: an exception constructor carries the
    data of the corresponding Python exception.  A function that can raise
    returns `Except E A`; "no partial result" is inherent in this model.
-/

set_option maxRecDepth 4000

/-- Decidable equality of `Except` values, used to state concrete evaluations
of `encode` and `decode`. -/
instance {ε α : Type} [DecidableEq ε] [DecidableEq α] : DecidableEq (Except ε α) := fun x y =>
  match x, y with
  | .ok a, .ok b => decidable_of_iff (a = b) (by simp)
  | .error e, .error f => decidable_of_iff (e = f) (by simp)
  | .ok _, .error _ => isFalse (by simp)
  | .error _, .ok _ => isFalse (by simp)

/-! ## util/arithmetic.py -/

/-- `prod(iterable)`: left fold of multiplication starting from 1. -/
def prod (l : List Int) : Int := l.foldl (fun a b => a * b) 1

/-! ## util/ntheory.py -/

/-- Floor of the square root of a natural number; models Python's
`int(sqrt(n))` (exact for the arguments the program uses). Implemented so that
the kernel can evaluate it: the candidates are scanned lazily via
`List.range'`. -/
def intSqrt (n : Nat) : Nat :=
  ((List.range' 0 (n + 1)).takeWhile (fun k => k * k ≤ n)).length - 1

/-- The index list of the inner loop of `sieve` for outer index `i`:
`range((i*(i+3)<<1)+3, lng, (i<<1)+3)` (Python `range(start, stop, step)` is
`List.range' start len step` with `len = ⌈(stop - start)/step⌉`). -/
def sieveMark (lng i : Nat) : List Nat :=
  List.range' ((i * (i + 3)) <<< 1 + 3)
    ((lng - ((i * (i + 3)) <<< 1 + 3) + ((i <<< 1) + 3) - 1) / ((i <<< 1) + 3))
    ((i <<< 1) + 3)

/-- The body of the outer loop of `sieve`: skip an already unmarked index
(`if not sieve[i]: continue`), otherwise unmark all of `sieveMark lng i`
(`sieve[j] = False` is `List.set`). -/
def sieveF (lng : Nat) (s : List Bool) (i : Nat) : List Bool :=
  if s.getD i true then (sieveMark lng i).foldl (fun s j => s.set j false) s
  else s

/-- `sieve(n)` from util/ntheory.py: odd-only sieve of Eratosthenes, returning
`[2] + [odd surviving candidates 2*i+3]`.  `lng` models
`int((n / 2) - 1 + n % 2)` (exact real division), and the two `for` loops are
folds (over `List.range`, and over `sieveMark` inside `sieveF`). -/
def sieve (n : Int) : List Int :=
  if n < 2 then [] else
  let lng : Nat := (n.toNat + 1) / 2 - 1
  let s := (List.range (intSqrt n.toNat >>> 1)).foldl (sieveF lng)
    (List.replicate (lng + 1) true)
  2 :: (List.range lng).filterMap (fun i =>
    if s.getD i true then some ((2 * (i : Int)) + 3) else none)

/-- One iteration of `factor`'s `while factor <= n` loop, with fuel.  Each
iteration either divides `n` by `factor` (emitting `factor`) or advances
`factor`; the fuel `2 * n.toNat + 1` given to it by `factor` below is proved
sufficient (`factorLoop_fuel_irrelevant`). -/
def factorLoop : Nat → Int → Int → List Int
  | 0, _, _ => []
  | fuel + 1, f, n =>
    if f ≤ n then
      if n % f = 0 then f :: factorLoop fuel f (n / f)
      else factorLoop fuel (f + 1) n
    else []

/-- `factor(n)` from util/ntheory.py: trial division from 2 upward.  Note the
Python loop never raises: for `n < 2` (including all `n < 1`) the guard
`factor <= n` fails immediately and the empty list is returned. -/
def factor (n : Int) : List Int := factorLoop (2 * n.toNat + 1) 2 n

/-! ## util/bijection.py -/

/-- The two dictionaries stored by a constructed `Bijection`. -/
structure Bijection (α β : Type) where
  mapping : List (α × β)
  inverse : List (β × α)
deriving DecidableEq

/-- The constructor loop of `Bijection.__init__`: builds the inverse map,
raising `ValueError` on a duplicate value. -/
def Bijection.buildInverse [BEq β] : List (α × β) → List (β × α) →
    Except (List Char) (List (β × α))
  | [], inv => .ok inv
  | (k, v) :: rest, inv =>
    if (inv.lookup v).isSome then .error "duplicate key found".data
    else Bijection.buildInverse rest (inv ++ [(v, k)])

/-- `Bijection(mapping)`: models `Bijection.__init__`.  The argument stands for
a Python dict, so callers are interested in inputs whose keys are distinct. -/
def Bijection.init [BEq β] (m : List (α × β)) : Except (List Char) (Bijection α β) :=
  (Bijection.buildInverse m []).map (fun inv => ⟨m, inv⟩)

/-! ## godel.py : configuration -/

def UPPERBOUND_OF_PRIMES : Int := 10000

/-- The tick character `` ` `` (backquote, code point 96). -/
def TICK : Char := Char.ofNat 96

def NUMERICAL_VARIABLES : List Char := ['x', 'y', 'z']

def SENTNTIAL_VARIABLES : List Char := ['p', 'q', 'r']

def PREDICATE_VARIABLES : List Char := ['P', 'Q', 'R']

/-- The dict literal passed to `Bijection` for `CONSTANT_SIGNS`. -/
def CONSTANT_SIGNS_MAPPING : List (Char × Int) :=
  [('~', 1), ('∨', 2), ('⊃', 3), ('∃', 4), ('=', 5), ('0', 6),
   ('s', 7), ('(', 8), (')', 9), (',', 10), ('+', 11), ('×', 12)]

/-- `CONSTANT_SIGNS = Bijection({...})`.  Construction succeeds (proved by
`CONSTANT_SIGNS_def` below), so the module-load-time exception path is dead;
the default is never used. -/
def CONSTANT_SIGNS : Bijection Char Int :=
  (Bijection.init CONSTANT_SIGNS_MAPPING).toOption.getD ⟨[], []⟩

/-- `PRIME = sieve(UPPERBOUND_OF_PRIMES)`. -/
def PRIME : List Int := sieve UPPERBOUND_OF_PRIMES

/-- `MAX = max(CONSTANT_SIGNS.mapping.values())`. -/
def MAX : Int := ((CONSTANT_SIGNS.mapping.map Prod.snd).max?).getD 0

/-- `PRIME_OFFSET = len(list(takewhile(lambda x: x < MAX, PRIME)))`. -/
def PRIME_OFFSET : Nat := (PRIME.takeWhile (fun x => decide (x < MAX))).length

/-! ## godel.py : Lexer -/

/-- The four token classes (`Lexer.constant_type` "C", `numerical_type` "N",
`sentntial_type` "S", `predicate_type` "P"). -/
inductive TokenType where
  | constant
  | numerical
  | sentntial
  | predicate
deriving DecidableEq

/-- A scanned token: its class and its lexeme. -/
abbrev Token := TokenType × List Char

/-- Whether a character is one of the constant signs (the scanner's first
regex is a character class built from `CONSTANT_SIGNS.mapping.keys()`). -/
def isConstantSign (c : Char) : Bool := (CONSTANT_SIGNS.mapping.lookup c).isSome

/-- Greedily split a run of leading TICK marks from the rest, modelling the
regex suffix `` `* `` of the three variable patterns. -/
def takeTicks : List Char → List Char × List Char
  | [] => ([], [])
  | c :: r =>
    if c = TICK then
      let (t, r') := takeTicks r
      (c :: t, r')
    else ([], c :: r)

/-- The scanning loop of `re.Scanner`: at each position try, in order, the
constant-sign class and the three variable classes (one pool letter plus a
greedy run of ticks); stop at the first unmatched position and return the
tokens so far together with the remainder.  The alphabets are disjoint, so
this is exactly the behaviour of the regex alternation.  `fuel` only needs to
be at least the input length (each step consumes at least one character). -/
def scanAux : Nat → List Char → List Token × List Char
  | _, [] => ([], [])
  | 0, l => ([], l)
  | fuel + 1, c :: rest =>
    if isConstantSign c then
      let (ts, rem) := scanAux fuel rest
      ((.constant, [c]) :: ts, rem)
    else if c ∈ NUMERICAL_VARIABLES then
      let (t, rest') := takeTicks rest
      let (ts, rem) := scanAux fuel rest'
      ((.numerical, c :: t) :: ts, rem)
    else if c ∈ SENTNTIAL_VARIABLES then
      let (t, rest') := takeTicks rest
      let (ts, rem) := scanAux fuel rest'
      ((.sentntial, c :: t) :: ts, rem)
    else if c ∈ PREDICATE_VARIABLES then
      let (t, rest') := takeTicks rest
      let (ts, rem) := scanAux fuel rest'
      ((.predicate, c :: t) :: ts, rem)
    else ([], c :: rest)

/-- The data carried by the exceptions `encode` can raise.
`lexical p` is `LexicalException("Error lexing input near <p>...")` where `p`
is the remainder truncated to at most 10 characters; `indexError` is Python's
`IndexError` from an out-of-range `PRIME[...]`; `typeError` is the latent
`TypeError` of the dead branch where a constant lexeme misses the table. -/
inductive EncodeError where
  | lexical (preview : List Char)
  | indexError
  | typeError
deriving DecidableEq

/-- `Lexer.scan(string)`: tokenize the whole input; if a remainder is left,
raise `LexicalException` carrying the remainder truncated to 10 characters. -/
def Lexer.scan (string : List Char) : Except EncodeError (List Token) :=
  let (tokens, remainder) := scanAux string.length string
  if remainder = [] then .ok tokens
  else .error (.lexical (if remainder.length > 10 then remainder.take 10 else remainder))

/-! ## godel.py : State (encode direction)

The Python class `State` holds `encoding` and one dict per variable class.
Within one session the dicts are used in a single direction (lexeme → code
while encoding, code → lexeme while decoding), so the two directions are
modelled by two structures. -/

structure State where
  encoding : List Int := []
  numerical_variables : List (List Char × Int) := []
  sentntial_variables : List (List Char × Int) := []
  predicate_variables : List (List Char × Int) := []
deriving DecidableEq

/-- `State.encode_constant_sign`: pure lookup in `CONSTANT_SIGNS.mapping`
(`dict.get` returns `None` on a miss). -/
def State.encode_constant_sign (_st : State) (symbol : Char) : Option Int :=
  CONSTANT_SIGNS.mapping.lookup symbol

/-- `State.encode_numerical_variable` with the globals `PRIME` and
`PRIME_OFFSET` abstracted as the parameters `PR` and `off` (the `W` variants
exist so that proofs can substitute an equal, lazily evaluable prime list;
the unsuffixed definitions below instantiate them at the real globals):
return the cached code for `symbol`, or assign `PR[off +
len(numerical_variables)]` and store it.  `none` models the `IndexError` when
the prime pool is exhausted.  (Stored codes are nonzero primes, so Python's
truthiness test `if gnum:` agrees with the `Option` match.) -/
def State.encode_numerical_variableW (PR : List Int) (off : Nat) (st : State)
    (symbol : List Char) : Option (Int × State) :=
  match st.numerical_variables.lookup symbol with
  | some gnum => some (gnum, st)
  | none =>
    (PR.get? (off + st.numerical_variables.length)).map fun p =>
      (p, { st with numerical_variables := st.numerical_variables ++ [(symbol, p)] })

/-- `State.encode_numerical_variable`. -/
def State.encode_numerical_variable : State → List Char → Option (Int × State) :=
  State.encode_numerical_variableW PRIME PRIME_OFFSET

/-- `State.encode_sentntial_variable` (parameterized as above): as numerical,
but the code is the square of the fresh prime. -/
def State.encode_sentntial_variableW (PR : List Int) (off : Nat) (st : State)
    (symbol : List Char) : Option (Int × State) :=
  match st.sentntial_variables.lookup symbol with
  | some gnum => some (gnum, st)
  | none =>
    (PR.get? (off + st.sentntial_variables.length)).map fun p =>
      (p ^ 2, { st with sentntial_variables := st.sentntial_variables ++ [(symbol, p ^ 2)] })

/-- `State.encode_sentntial_variable`. -/
def State.encode_sentntial_variable : State → List Char → Option (Int × State) :=
  State.encode_sentntial_variableW PRIME PRIME_OFFSET

/-- `State.encode_predicate_variable` (parameterized as above), as written in
the source: it reads `self.sentntial_variables`, uses that map's size for the
prime offset, and stores the cube there; `self.predicate_variables` is never
touched. -/
def State.encode_predicate_variableW (PR : List Int) (off : Nat) (st : State)
    (symbol : List Char) : Option (Int × State) :=
  match st.sentntial_variables.lookup symbol with
  | some gnum => some (gnum, st)
  | none =>
    (PR.get? (off + st.sentntial_variables.length)).map fun p =>
      (p ^ 3, { st with sentntial_variables := st.sentntial_variables ++ [(symbol, p ^ 3)] })

/-- `State.encode_predicate_variable`. -/
def State.encode_predicate_variable : State → List Char → Option (Int × State) :=
  State.encode_predicate_variableW PRIME PRIME_OFFSET

/-! ## godel.py : State (decode direction) -/

structure DecodeState where
  numerical_variables : List (Int × List Char) := []
  sentntial_variables : List (Int × List Char) := []
  predicate_variables : List (Int × List Char) := []
deriving DecidableEq

/-- `State.next_var_name(assigned, pool)`: the `len(assigned)`-th name drawn
from `pool`: base letter `pool[count % len(pool)]` followed by
`count // len(pool)` tick marks. -/
def next_var_name (count : Nat) (pool : List Char) : List Char :=
  pool.getD (count % pool.length) TICK :: List.replicate (count / pool.length) TICK

/-- `State.decode_numerical_variable(gnum)`: cached lexeme for `gnum`, or the
next fresh numerical name (generated names are nonempty, so Python's
truthiness test agrees with the `Option` match). -/
def DecodeState.decode_numerical_variable (st : DecodeState) (gnum : Int) :
    List Char × DecodeState :=
  match st.numerical_variables.lookup gnum with
  | some symbol => (symbol, st)
  | none =>
    let symbol := next_var_name st.numerical_variables.length NUMERICAL_VARIABLES
    (symbol, { st with numerical_variables := st.numerical_variables ++ [(gnum, symbol)] })

/-- `State.decode_sentential_variable(gnum)`. -/
def DecodeState.decode_sentential_variable (st : DecodeState) (gnum : Int) :
    List Char × DecodeState :=
  match st.sentntial_variables.lookup gnum with
  | some symbol => (symbol, st)
  | none =>
    let symbol := next_var_name st.sentntial_variables.length SENTNTIAL_VARIABLES
    (symbol, { st with sentntial_variables := st.sentntial_variables ++ [(gnum, symbol)] })

/-- `State.decode_predicate_variable(gnum)`. -/
def DecodeState.decode_predicate_variable (st : DecodeState) (gnum : Int) :
    List Char × DecodeState :=
  match st.predicate_variables.lookup gnum with
  | some symbol => (symbol, st)
  | none =>
    let symbol := next_var_name st.predicate_variables.length PREDICATE_VARIABLES
    (symbol, { st with predicate_variables := st.predicate_variables ++ [(gnum, symbol)] })

/-! ## godel.py : encode -/

/-- The dispatch `lexmap[token_type](lexeme)` for one token, returning the
code and the updated state.  A constant lexeme is a single character looked up
in the table; the impossible miss is `typeError` (Python would append `None`
and fail with `TypeError` in the final product), and a `none` from a variable
encoder is the `IndexError` of an exhausted prime pool. -/
def encodeTokenW (PR : List Int) (off : Nat) (st : State) (t : Token) :
    Except EncodeError (Int × State) :=
  match t.1 with
  | .constant =>
    match t.2 with
    | [c] =>
      match st.encode_constant_sign c with
      | some gnum => .ok (gnum, st)
      | none => .error .typeError
    | _ => .error .typeError
  | .numerical =>
    match State.encode_numerical_variableW PR off st t.2 with
    | some r => .ok r
    | none => .error .indexError
  | .sentntial =>
    match State.encode_sentntial_variableW PR off st t.2 with
    | some r => .ok r
    | none => .error .indexError
  | .predicate =>
    match State.encode_predicate_variableW PR off st t.2 with
    | some r => .ok r
    | none => .error .indexError

/-- The token dispatch with the real globals. -/
def encodeToken : State → Token → Except EncodeError (Int × State) :=
  encodeTokenW PRIME PRIME_OFFSET

/-- The token loop of `encode`: look up each token's code and append it to
`state.encoding`. -/
def encodeLoopW (PR : List Int) (off : Nat) (st : State) :
    List Token → Except EncodeError State
  | [] => .ok st
  | t :: ts => do
    let (gnum, st') ← encodeTokenW PR off st t
    encodeLoopW PR off { st' with encoding := st'.encoding ++ [gnum] } ts

/-- The token loop with the real globals. -/
def encodeLoop : State → List Token → Except EncodeError State :=
  encodeLoopW PRIME PRIME_OFFSET

/-- `encode(string)` from godel.py: empty input encodes to 0; otherwise scan,
assign codes, and return `prod(PRIME[idx]**gnum for idx, gnum in
enumerate(state.encoding))`.  (The exponents are the assigned codes, all
positive, so `**` is natural-number exponentiation.) -/
def encodeW (PR : List Int) (off : Nat) (string : List Char) :
    Except EncodeError Int :=
  if string = [] then .ok 0 else do
  let tokens ← Lexer.scan string
  let st ← encodeLoopW PR off {} tokens
  let powers ← st.encoding.enum.mapM (fun ig =>
    match PR.get? ig.1 with
    | some p => Except.ok (p ^ ig.2.toNat)
    | none => Except.error EncodeError.indexError)
  return prod powers

/-- `encode(string)` with the real globals. -/
def encode : List Char → Except EncodeError Int :=
  encodeW PRIME PRIME_OFFSET

/-! ## godel.py : decode -/

/-- The data of the `ValueError`s raised by `decode`: a factorization whose
`i`-th distinct prime is not `PRIME[i]`, or a per-position code that is
neither a constant code, a bare prime, a prime squared nor a prime cubed.
`indexError` models `PRIME[i]` going out of range. -/
inductive DecodeError where
  | primeMismatch (i : Nat) (found expected : Int)
  | badCode (gnum : Int)
  | indexError
deriving DecidableEq

/-- `groupby(factor(number))` with `(k, len(list(v)))`: run-length encoding of
consecutive equal factors.  The multiplicity is the Gödel code, a Python int. -/
def groupConsec : List Int → List (Int × Int)
  | [] => []
  | a :: t =>
    match groupConsec t with
    | [] => [(a, 1)]
    | (b, k) :: r => if a = b then (b, k + 1) :: r else (a, 1) :: (b, k) :: r

/-- The position loop of `decode`: for position `i` with run `(f, gnum)`,
require `PRIME[i] == f`, then classify the code `gnum`: a constant-table code,
a bare prime (numerical variable), a prime squared (sentential) or a prime
cubed (predicate); anything else raises `ValueError`. -/
def decodeLoopW (PR : List Int) (st : DecodeState) (i : Nat) :
    List (Int × Int) → Except DecodeError (List (List Char))
  | [] => .ok []
  | (f, gnum) :: rest =>
    match PR.get? i with
    | none => .error .indexError
    | some p =>
      if p ≠ f then .error (.primeMismatch i f p)
      else
        match CONSTANT_SIGNS.inverse.lookup gnum with
        | some symbol => (decodeLoopW PR st (i + 1) rest).map (fun syms => [symbol] :: syms)
        | none =>
          if PR.contains gnum then
            let (symbol, st') := st.decode_numerical_variable gnum
            (decodeLoopW PR st' (i + 1) rest).map (fun syms => symbol :: syms)
          else
            let factors := factor gnum
            if factors.dedup.length ≠ 1 then .error (.badCode gnum)
            else if factors.length = 2 ∧ PR.contains (factors.headD 0) then
              let (symbol, st') := st.decode_sentential_variable gnum
              (decodeLoopW PR st' (i + 1) rest).map (fun syms => symbol :: syms)
            else if factors.length = 3 ∧ PR.contains (factors.headD 0) then
              let (symbol, st') := st.decode_predicate_variable gnum
              (decodeLoopW PR st' (i + 1) rest).map (fun syms => symbol :: syms)
            else .error (.badCode gnum)

/-- The position loop with the real global `PRIME`. -/
def decodeLoop : DecodeState → Nat → List (Int × Int) → Except DecodeError (List (List Char)) :=
  decodeLoopW PRIME

/-- `decode(number)` from godel.py: 0 decodes to the empty string; otherwise
factor, group into (prime, multiplicity) runs, decode each position and join
the recovered symbols. -/
def decodeW (PR : List Int) (number : Int) : Except DecodeError (List Char) :=
  if number = 0 then .ok [] else
  (decodeLoopW PR {} 0 (groupConsec (factor number))).map List.flatten

/-- `decode(number)` with the real global `PRIME`. -/
def decode : Int → Except DecodeError (List Char) :=
  decodeW PRIME

/-! ## Characterization of `factor` -/

/-- The trial-division loop computes the prime factor list: as long as no
integer in `[2, f)` divides `n`, running the loop with enough fuel yields
exactly `n.toNat.primeFactorsList`. -/
theorem factorLoop_spec (fuel : Nat) : ∀ (f n : Int), 2 ≤ f → 1 ≤ n →
    (∀ d : Int, 2 ≤ d → d < f → ¬ d ∣ n) →
    n.toNat + (n + 1 - f).toNat ≤ fuel →
    factorLoop fuel f n = (n.toNat.primeFactorsList).map (fun m : Nat => (m : Int)) := by
  induction fuel with
  | zero =>
    intro f n _ hn _ hfuel
    omega
  | succ fuel ih =>
    intro f n hf hn hinv hfuel
    obtain ⟨N, rfl⟩ : ∃ N : Nat, n = (N : Int) :=
      ⟨n.toNat, (Int.toNat_of_nonneg (by omega)).symm⟩
    obtain ⟨F, rfl⟩ : ∃ F : Nat, f = (F : Int) :=
      ⟨f.toNat, (Int.toNat_of_nonneg (by omega)).symm⟩
    simp only [factorLoop]
    split
    case isTrue hle =>
      have hFN : F ≤ N := by exact_mod_cast hle
      have hF2 : 2 ≤ F := by exact_mod_cast hf
      split
      case isTrue hmod =>
        have hdvd : F ∣ N := by
          have : (F : Int) ∣ (N : Int) := Int.dvd_of_emod_eq_zero hmod
          exact_mod_cast this
        have hN2 : 2 ≤ N := le_trans hF2 hFN
        -- `F` is the least divisor of `N` that is at least 2, hence its least prime factor.
        have hminFac : N.minFac = F := by
          have h1 : N.minFac ≤ F := Nat.minFac_le_of_dvd hF2 hdvd
          have h2 : ¬ N.minFac < F := by
            intro hlt
            have hpm : 2 ≤ N.minFac := (Nat.minFac_prime (by omega)).two_le
            exact hinv (N.minFac : Int) (by exact_mod_cast hpm) (by exact_mod_cast hlt)
              (by exact_mod_cast N.minFac_dvd)
          omega
        obtain ⟨M, hM⟩ := hdvd
        have hdivNat : N / F = M := by rw [hM]; exact Nat.mul_div_cancel_left M (by omega)
        have hdivInt : (N : Int) / (F : Int) = (M : Int) := by
          rw [← Int.natCast_div, hdivNat]
        have hM1 : 1 ≤ M :=
          Nat.pos_of_ne_zero (fun h0 => by rw [h0, Nat.mul_zero] at hM; omega)
        have hNM2 : 2 * M ≤ N := by
          rw [hM]; exact Nat.mul_le_mul_right M hF2
        have hfl : Nat.primeFactorsList N = F :: Nat.primeFactorsList M := by
          obtain ⟨K, rfl⟩ : ∃ K, N = K + 2 := ⟨N - 2, by omega⟩
          rw [Nat.primeFactorsList_add_two, hminFac, hdivNat]
        rw [hdivInt]
        simp only [Int.toNat_natCast] at hfuel ⊢
        rw [hfl, List.map_cons]
        have hrec := ih (F : Int) (M : Int) hf (by exact_mod_cast hM1)
          (fun d h2d hdF hdM => hinv d h2d hdF (by
            rw [hM]
            exact Dvd.dvd.mul_left hdM F))
          (by omega)
        simpa using hrec
      case isFalse hmod =>
        have hrec := ih (F + 1 : Int) (N : Int) (by omega) hn
          (fun d h2d hdF1 hdN => by
            rcases lt_or_eq_of_le (by omega : d ≤ (F : Int)) with hlt | heq
            · exact hinv d h2d hlt hdN
            · subst heq
              exact hmod (Int.emod_eq_zero_of_dvd hdN))
          (by omega)
        simpa using hrec
    case isFalse hle =>
      have hNF : N < F := by
        have : ¬ (F : Int) ≤ (N : Int) := hle
        omega
      have hN1 : N = 1 := by
        by_contra hne
        have hN2 : 2 ≤ N := by omega
        exact hinv (N : Int) (by exact_mod_cast hN2) (by exact_mod_cast hNF) dvd_rfl
      subst hN1
      simp [Nat.primeFactorsList_one]

/-- For any `n < 2` — in particular every `n < 1` — `factor` returns `[]`
without raising. -/
theorem factor_of_lt_two (n : Int) (h : n < 2) : factor n = [] := by
  unfold factor
  obtain ⟨fuel, hf⟩ : ∃ fuel, 2 * n.toNat + 1 = fuel + 1 := ⟨2 * n.toNat, rfl⟩
  rw [hf]
  simp only [factorLoop]
  rw [if_neg (by omega)]

/-- `factor(n)` for `n ≥ 2` is the sorted list of prime factors of `n` with
multiplicity. -/
theorem factor_spec (n : Int) (h : 2 ≤ n) :
    factor n = (n.toNat.primeFactorsList).map (fun m : Nat => (m : Int)) := by
  unfold factor
  exact factorLoop_spec _ 2 n le_rfl (by omega)
    (fun d h2 hd => absurd (lt_of_le_of_lt h2 hd) (by omega)) (by omega)

/-! ## Characterization of `sieve 10000`

The marking phase is verified abstractly: position `j` survives iff `2*j+3`
is prime.  The result is stated with the executable primality test `isPrimeB`
and the lazily evaluable `List.range'`, so that finite prefixes of `PRIME`
can later be computed without evaluating the whole sieve. -/

/-- Kernel-evaluable primality test (trial division over `[2, m)`). -/
def isPrimeB (m : Nat) : Bool :=
  decide (2 ≤ m) && (List.range' 2 (m - 2)).all (fun d => decide (¬ d ∣ m))

theorem isPrimeB_iff (m : Nat) : isPrimeB m = true ↔ Nat.Prime m := by
  rw [Nat.prime_def_lt']
  simp only [isPrimeB, Bool.and_eq_true, decide_eq_true_eq, List.all_eq_true,
    List.mem_range'_1]
  constructor
  · rintro ⟨h2, hall⟩
    exact ⟨h2, fun d hd2 hdlt => hall d ⟨hd2, by omega⟩⟩
  · rintro ⟨h2, hall⟩
    exact ⟨h2, fun d hd => hall d hd.1 (by omega)⟩

theorem length_foldl_set (L : List Nat) (s : List Bool) :
    (L.foldl (fun s j => s.set j false) s).length = s.length := by
  induction L generalizing s with
  | nil => rfl
  | cons a L ih => simpa [List.length_set] using ih (s.set a false)

theorem getD_foldl_set (L : List Nat) (s : List Bool) (j : Nat) :
    (L.foldl (fun s j => s.set j false) s).getD j true =
      if j ∈ L ∧ j < s.length then false else s.getD j true := by
  induction L generalizing s with
  | nil => simp
  | cons a L ih =>
    simp only [List.foldl_cons]
    rw [ih]
    simp only [List.length_set, List.mem_cons, List.getD_eq_getElem?_getD,
      List.getElem?_set]
    rcases Decidable.em (j < s.length) with hlen | hlen
    · rcases Decidable.em (j ∈ L) with hjL | hjL
      · simp [hjL, hlen]
      · rcases Decidable.em (a = j) with haj | haj
        · simp [hjL, hlen, haj]
        · simp [hjL, hlen, haj, Ne.symm haj]
    · have hnone : s[j]? = none := List.getElem?_eq_none (by omega)
      rcases Decidable.em (a = j) with haj | haj
      · subst haj
        simp [hlen, hnone]
      · simp [hlen, haj, hnone]

/-- The candidate value `2*j+3` is an odd multiple of `p = 2*i+3` that is at
least `p^2`, with `j` inside the sieve array (`lng = 4999` for the program's
`sieve(10000)`). -/
def MarkedBy (i j : Nat) : Prop :=
  (2 * i + 3) ∣ (2 * j + 3) ∧ (2 * i + 3) ^ 2 ≤ 2 * j + 3 ∧ j < 4999

instance (i j : Nat) : Decidable (MarkedBy i j) := by unfold MarkedBy; infer_instance

/-- Membership in the inner marking range is exactly `MarkedBy`. -/
theorem mem_sieveMark (i j : Nat) : j ∈ sieveMark 4999 i ↔ MarkedBy i j := by
  have hstart : (i * (i + 3)) <<< 1 + 3 = 2 * (i * i) + 6 * i + 3 := by
    simp only [Nat.shiftLeft_eq, pow_one]
    ring
  have hstep : (i <<< 1) + 3 = 2 * i + 3 := by
    simp only [Nat.shiftLeft_eq, pow_one]
    ring
  unfold sieveMark MarkedBy
  rw [hstart, hstep, List.mem_range']
  set p := 2 * i + 3 with hp
  set start := 2 * (i * i) + 6 * i + 3 with hstart'
  have hp0 : 0 < p := by omega
  have hpp : p * p = 2 * start + 3 := by rw [hp, hstart']; ring
  constructor
  · rintro ⟨k, hk, rfl⟩
    have hkp : (k + 1) * p ≤ 4999 - start + p - 1 :=
      (Nat.le_div_iff_mul_le hp0).mp hk
    have hkp' : k * p + p ≤ 4999 - start + p - 1 := by
      have : (k + 1) * p = k * p + p := by ring
      omega
    have hval : 2 * (start + p * k) + 3 = p * (p + 2 * k) := by
      have : p * (p + 2 * k) = p * p + 2 * (p * k) := by ring
      have hpk : p * k = k * p := by ring
      omega
    refine ⟨⟨p + 2 * k, hval⟩, ?_, ?_⟩
    · have : p * (p + 2 * k) = p * p + 2 * (p * k) := by ring
      have h2 : p ^ 2 = p * p := by ring
      omega
    · have hpk : p * k = k * p := by ring
      omega
  · rintro ⟨⟨m, hm⟩, hsq, hj⟩
    have hpm : p ≤ m := by
      have h1 : p * p ≤ p * m := by
        have : p ^ 2 = p * p := by ring
        omega
      exact Nat.le_of_mul_le_mul_left h1 hp0
    have hmodd : m % 2 = 1 := by
      rcases Nat.even_or_odd m with ⟨t, ht⟩ | ⟨t, ht⟩
      · exfalso
        have : p * m = 2 * (p * t) := by rw [ht]; ring
        omega
      · omega
    obtain ⟨k, hk⟩ : ∃ k, m = p + 2 * k := ⟨(m - p) / 2, by omega⟩
    have hval : p * m = p * p + 2 * (p * k) := by rw [hk]; ring
    have hjk : j = start + p * k := by omega
    have hkcnt : k < (4999 - start + p - 1) / p := by
      have h1 : (k + 1) * p ≤ 4999 - start + p - 1 := by
        have h2 : (k + 1) * p = p * k + p := by ring
        omega
      exact (Nat.le_div_iff_mul_le hp0).mpr h1
    exact ⟨k, hkcnt, by omega⟩

/-- Invariant of the outer loop of `sieve(10000)` after processing outer
indices `< b`: exactly the sieve positions with a small prime witness have
been unmarked. -/
def sieveInv (s : List Bool) (b : Nat) : Prop :=
  s.length = 5000 ∧ ∀ j, j < 4999 →
    (s.getD j true = false ↔ ∃ i, i < b ∧ Nat.Prime (2 * i + 3) ∧ MarkedBy i j)

/-- An odd composite candidate has a smaller odd prime factor whose square
does not exceed it, i.e. is `MarkedBy` some earlier index. -/
theorem composite_marked (b : Nat) (hb : b < 4999) (hnp : ¬ Nat.Prime (2 * b + 3)) :
    ∃ i, 2 * i + 3 < 2 * b + 3 ∧ Nat.Prime (2 * i + 3) ∧ MarkedBy i b := by
  set c := 2 * b + 3 with hc
  have hq := Nat.minFac_prime (show c ≠ 1 by omega)
  have hqd := Nat.minFac_dvd c
  have hqsq : c.minFac ^ 2 ≤ c := Nat.minFac_sq_le_self (by omega) hnp
  have hqodd : c.minFac % 2 = 1 := by
    rcases Nat.Prime.eq_two_or_odd hq with h2 | hodd
    · exfalso
      obtain ⟨t, ht⟩ := hqd
      rw [h2] at ht
      omega
    · exact hodd
  have hq3 : 3 ≤ c.minFac := by
    have := hq.two_le
    omega
  obtain ⟨i, hi⟩ : ∃ i, c.minFac = 2 * i + 3 := ⟨(c.minFac - 3) / 2, by omega⟩
  have hpow : c.minFac ^ 2 = c.minFac * c.minFac := by ring
  have hqc : c.minFac < c := by
    have h1 : c.minFac * 3 ≤ c.minFac * c.minFac := Nat.mul_le_mul_left _ hq3
    omega
  refine ⟨i, by omega, by rw [← hi]; exact hq, ?_, ?_, by omega⟩
  · rw [← hi]; exact hqd
  · rw [← hi]; omega

/-- A prime position never acquires a `MarkedBy` witness. -/
theorem prime_not_marked {i j : Nat} (hpc : Nat.Prime (2 * j + 3))
    (_hpi : Nat.Prime (2 * i + 3)) (hm : MarkedBy i j) : False := by
  obtain ⟨hdvd, hsq, _⟩ := hm
  rcases hpc.eq_one_or_self_of_dvd _ hdvd with h1 | hself
  · omega
  · have hpow : (2 * i + 3) ^ 2 = (2 * i + 3) * (2 * i + 3) := by ring
    have h3 : (2 * i + 3) * (2 * i + 3) ≤ (2 * i + 3) * 1 := by omega
    have := Nat.le_of_mul_le_mul_left h3 (by omega)
    omega

/-- One outer iteration preserves the invariant. -/
theorem sieveInv_step (s : List Bool) (b : Nat) (h : sieveInv s b) (hb : b < 50) :
    sieveInv (sieveF 4999 s b) (b + 1) := by
  obtain ⟨hlen, hchar⟩ := h
  by_cases hprime : Nat.Prime (2 * b + 3)
  · have hb' : s.getD b true = true := by
      rcases Bool.eq_false_or_eq_true (s.getD b true) with ht | hf
      · exact ht
      · exfalso
        obtain ⟨i, _, hpi, hmi⟩ := (hchar b (by omega)).mp hf
        exact prime_not_marked hprime hpi hmi
    unfold sieveF
    rw [hb']
    simp only [if_true]
    refine ⟨by rw [length_foldl_set]; exact hlen, ?_⟩
    intro j hj
    rw [getD_foldl_set]
    rcases Decidable.em (MarkedBy b j) with hm | hm
    · rw [if_pos ⟨(mem_sieveMark b j).mpr hm, by omega⟩]
      simp only [true_iff]
      exact ⟨b, by omega, hprime, hm⟩
    · rw [if_neg (fun hh => hm ((mem_sieveMark b j).mp hh.1))]
      rw [hchar j hj]
      constructor
      · rintro ⟨i, hib, hpi, hmi⟩
        exact ⟨i, by omega, hpi, hmi⟩
      · rintro ⟨i, hib1, hpi, hmi⟩
        refine ⟨i, ?_, hpi, hmi⟩
        rcases Nat.lt_succ_iff_lt_or_eq.mp hib1 with hlt | heq
        · exact hlt
        · exact absurd hmi (heq ▸ hm)
  · have hbm : s.getD b true = false := by
      apply (hchar b (by omega)).mpr
      obtain ⟨i, hic, hpi, hmi⟩ := composite_marked b (by omega) hprime
      exact ⟨i, by omega, hpi, hmi⟩
    unfold sieveF
    rw [hbm]
    simp only [Bool.false_eq_true, if_false]
    refine ⟨hlen, ?_⟩
    intro j hj
    rw [hchar j hj]
    constructor
    · rintro ⟨i, hib, hpi, hmi⟩
      exact ⟨i, by omega, hpi, hmi⟩
    · rintro ⟨i, hib1, hpi, hmi⟩
      refine ⟨i, ?_, hpi, hmi⟩
      rcases Nat.lt_succ_iff_lt_or_eq.mp hib1 with hlt | heq
      · exact hlt
      · exact absurd hpi (heq ▸ hprime)

/-- Folding the outer body over a block of indices preserves the invariant. -/
theorem sieveInv_fold (cnt : Nat) : ∀ (b : Nat) (s : List Bool), sieveInv s b →
    b + cnt ≤ 50 → sieveInv ((List.range' b cnt).foldl (sieveF 4999) s) (b + cnt) := by
  induction cnt with
  | zero =>
    intro b s h _
    simpa using h
  | succ cnt ih =>
    intro b s h hb
    rw [List.range'_succ]
    simp only [List.foldl_cons]
    have hrec := ih (b + 1) (sieveF 4999 s b) (sieveInv_step s b h (by omega)) (by omega)
    have heq : b + (cnt + 1) = (b + 1) + cnt := by omega
    rw [heq]
    exact hrec

/-- After the last outer iteration, position `j` survives iff `2*j+3` is
prime. -/
theorem sieve_final_char (s : List Bool) (h : sieveInv s 50) (j : Nat)
    (hj : j < 4999) : s.getD j true = isPrimeB (2 * j + 3) := by
  obtain ⟨hlen, hchar⟩ := h
  rw [Bool.eq_iff_iff, isPrimeB_iff]
  constructor
  · intro ht
    by_contra hnp
    obtain ⟨i, hic, hpi, hmi⟩ := composite_marked j hj hnp
    have hi50 : i < 50 := by
      obtain ⟨_, hsq, _⟩ := hmi
      have hpow : (2 * i + 3) ^ 2 = (2 * i + 3) * (2 * i + 3) := by ring
      by_contra hge
      have h100 : 100 ≤ 2 * i + 3 := by omega
      have := Nat.mul_le_mul h100 h100
      omega
    have := (hchar j hj).mpr ⟨i, hi50, hpi, hmi⟩
    rw [ht] at this
    exact Bool.noConfusion this
  · intro hpc
    rcases Bool.eq_false_or_eq_true (s.getD j true) with ht | hf
    · exact ht
    · exfalso
      obtain ⟨i, _, hpi, hmi⟩ := (hchar j hj).mp hf
      exact prime_not_marked hpc hpi hmi

/-- The characterization of the program's prime table: `sieve 10000` is `2`
followed by the odd primes below 10000, presented lazily. -/
theorem sieve_10000 :
    sieve 10000 = 2 :: ((List.range' 0 4999).filterMap (fun i =>
      if isPrimeB (2 * i + 3) then some ((2 * (i : Int)) + 3) else none)) := by
  have hsq100 : intSqrt 10000 = 100 := by decide
  have hinv0 : sieveInv (List.replicate 5000 true) 0 := by
    refine ⟨by rw [List.length_replicate], ?_⟩
    intro j hj
    constructor
    · intro hf
      exfalso
      rw [List.getD_eq_getElem?_getD, List.getElem?_replicate] at hf
      rcases Decidable.em (j < 5000) with hlt | hlt
      · rw [if_pos hlt] at hf
        simp at hf
      · rw [if_neg hlt] at hf
        simp at hf
    · rintro ⟨i, hi, _⟩
      omega
  have h50 : (100 : Nat) >>> 1 = 50 := by decide
  have hfold := sieveInv_fold 50 0 (List.replicate 5000 true) hinv0 (by omega)
  have hfold' : sieveInv (List.foldl (sieveF 4999) (List.replicate 5000 true)
      (List.range' 0 50)) 50 := by
    have h050 : (0 : Nat) + 50 = 50 := rfl
    rw [h050] at hfold
    exact hfold
  have htn : Int.toNat 10000 = 10000 := rfl
  simp only [sieve, hsq100, htn, h50]
  rw [if_neg (by norm_num)]
  norm_num only
  simp only [List.range_eq_range']
  refine congrArg (List.cons 2) (List.filterMap_congr ?_)
  intro i hi
  have hi' : i < 4999 := by
    have := List.mem_range'_1.mp hi
    omega
  rw [sieve_final_char _ hfold' i hi']

/-! ## Basic sanity checks (PRIME-free evaluations) -/

example : factor 360 = [2, 2, 2, 3, 3, 5] := by decide
example : factor 1 = [] := by decide
example : factor 0 = [] := by decide
example : sieve 30 = [2, 3, 5, 7, 11, 13, 17, 19, 23, 29] := by decide
example : sieve 3 = [2, 3] := by decide
example : sieve 2 = [2] := by decide
example :
    Lexer.scan "0=0".data =
      .ok [(.constant, ['0']), (.constant, ['=']), (.constant, ['0'])] := by decide
example :
    Lexer.scan "0=0#".data = .error (.lexical ['#']) := by decide
example : CONSTANT_SIGNS.mapping.lookup '0' = some 6 := by decide

/-! ## Facts about `PRIME`, `MAX` and `PRIME_OFFSET` -/

/-- The program's prime table, in lazily evaluable form. -/
theorem PRIME_eq : PRIME = 2 :: ((List.range' 0 4999).filterMap (fun i =>
    if isPrimeB (2 * i + 3) then some ((2 * (i : Int)) + 3) else none)) := by
  unfold PRIME UPPERBOUND_OF_PRIMES
  exact sieve_10000

/-- Every entry of `PRIME` is (the cast of) a prime number. -/
theorem PRIME_prime {x : Int} (hx : x ∈ PRIME) :
    ∃ p : Nat, Nat.Prime p ∧ x = (p : Int) := by
  rw [PRIME_eq] at hx
  rcases List.mem_cons.mp hx with rfl | hx'
  · exact ⟨2, Nat.prime_two, rfl⟩
  · obtain ⟨i, _, hf⟩ := List.mem_filterMap.mp hx'
    rcases Decidable.em (isPrimeB (2 * i + 3) = true) with hp | hp
    · rw [if_pos hp] at hf
      refine ⟨2 * i + 3, (isPrimeB_iff _).mp hp, ?_⟩
      rw [← Option.some_inj.mp hf]
      push_cast
      ring
    · rw [if_neg hp] at hf
      exact absurd hf (by simp)

/-- `PRIME` is strictly increasing. -/
theorem PRIME_pairwise : List.Pairwise (· < ·) PRIME := by
  rw [PRIME_eq]
  refine List.Pairwise.cons ?_ ?_
  · intro x hx
    obtain ⟨i, _, hf⟩ := List.mem_filterMap.mp hx
    rcases Decidable.em (isPrimeB (2 * i + 3) = true) with hp | hp
    · rw [if_pos hp] at hf
      rw [← Option.some_inj.mp hf]
      have : (0 : Int) ≤ 2 * (i : Int) := by positivity
      omega
    · rw [if_neg hp] at hf
      exact absurd hf (by simp)
  · refine List.Pairwise.filterMap _ ?_ (List.pairwise_lt_range' 0 4999)
    intro a b hab x hx y hy
    rcases Decidable.em (isPrimeB (2 * a + 3) = true) with hp | hp
    · rw [if_pos hp, Option.mem_def, Option.some_inj] at hx
      rcases Decidable.em (isPrimeB (2 * b + 3) = true) with hq | hq
      · rw [if_pos hq, Option.mem_def, Option.some_inj] at hy
        subst hx
        subst hy
        have : (a : Int) < (b : Int) := by exact_mod_cast hab
        omega
      · rw [if_neg hq] at hy
        exact absurd hy (by simp)
    · rw [if_neg hp] at hx
      exact absurd hx (by simp)

theorem PRIME_take8 : PRIME.take 8 = [2, 3, 5, 7, 11, 13, 17, 19] := by
  rw [PRIME_eq]
  decide

theorem PRIME_get?_lt8 (k : Nat) (h : k < 8) :
    PRIME.get? k = ([2, 3, 5, 7, 11, 13, 17, 19] : List Int).get? k := by
  rw [List.get?_eq_getElem?, List.get?_eq_getElem?, ← PRIME_take8,
    List.getElem?_take_of_lt h]

theorem MAX_eq : MAX = 12 := by decide

theorem PRIME_OFFSET_eq : PRIME_OFFSET = 5 := by
  unfold PRIME_OFFSET
  have h : PRIME = [2, 3, 5, 7, 11, 13, 17, 19] ++ PRIME.drop 8 := by
    rw [← PRIME_take8]
    exact (List.take_append_drop 8 PRIME).symm
  rw [h, MAX_eq]
  simp only [List.cons_append, List.nil_append, List.takeWhile_cons]
  norm_num

/-! ## Characterization of the scanner -/

/-- A variable lexeme: one pool letter followed by tick marks only. -/
def IsVarLexeme (pool : List Char) (lx : List Char) : Prop :=
  ∃ c t, lx = c :: t ∧ c ∈ pool ∧ (∀ d ∈ t, d = TICK)

/-- Well-formedness of a scanned token (what `re.Scanner`'s patterns can
produce). -/
def TokenWF : Token → Prop
  | (.constant, lx) => ∃ c, lx = [c] ∧ isConstantSign c = true
  | (.numerical, lx) => IsVarLexeme NUMERICAL_VARIABLES lx
  | (.sentntial, lx) => IsVarLexeme SENTNTIAL_VARIABLES lx
  | (.predicate, lx) => IsVarLexeme PREDICATE_VARIABLES lx

theorem takeTicks_append : ∀ r : List Char, (takeTicks r).1 ++ (takeTicks r).2 = r := by
  intro r
  induction r with
  | nil => rfl
  | cons c rest ih =>
    simp only [takeTicks]
    rcases Decidable.em (c = TICK) with h | h
    · rw [if_pos h]
      simpa using ih
    · rw [if_neg h]
      rfl

theorem takeTicks_all_tick : ∀ r : List Char, ∀ d ∈ (takeTicks r).1, d = TICK := by
  intro r
  induction r with
  | nil => simp [takeTicks]
  | cons c rest ih =>
    simp only [takeTicks]
    rcases Decidable.em (c = TICK) with h | h
    · rw [if_pos h]
      intro d hd
      rcases List.mem_cons.mp hd with rfl | hd'
      · exact h
      · exact ih d hd'
    · rw [if_neg h]
      intro d hd
      exact absurd hd (List.not_mem_nil d)

theorem takeTicks_snd_length (r : List Char) : (takeTicks r).2.length ≤ r.length := by
  have h := takeTicks_append r
  have := congrArg List.length h
  rw [List.length_append] at this
  omega

/-- The scanned tokens' lexemes concatenate (with the remainder) back to the
input: tokenization covers the input exactly. -/
theorem scanAux_flatten (fuel : Nat) : ∀ (l : List Char) ts rem, l.length ≤ fuel →
    scanAux fuel l = (ts, rem) → (ts.map Prod.snd).flatten ++ rem = l := by
  induction fuel with
  | zero =>
    intro l ts rem hlen hscan
    have hl : l = [] := List.length_eq_zero.mp (by omega)
    subst hl
    simp only [scanAux] at hscan
    injection hscan with h1 h2
    subst h1
    subst h2
    simp
  | succ fuel ih =>
    intro l ts rem hlen hscan
    match l with
    | [] =>
      simp only [scanAux] at hscan
      injection hscan with h1 h2
      subst h1
      subst h2
      simp
    | c :: rest =>
      simp only [scanAux] at hscan
      by_cases h1 : isConstantSign c
      · rw [if_pos h1] at hscan
        obtain ⟨ts', rem', hscan'⟩ : ∃ ts' rem', scanAux fuel rest = (ts', rem') :=
          ⟨_, _, rfl⟩
        rw [hscan'] at hscan
        injection hscan with ha hb
        subst ha
        subst hb
        have hrec := ih rest ts' rem' (by simp at hlen; omega) hscan'
        simpa using hrec
      · rw [if_neg h1] at hscan
        by_cases h2 : c ∈ NUMERICAL_VARIABLES
        · rw [if_pos h2] at hscan
          obtain ⟨ts', rem', hscan'⟩ : ∃ ts' rem',
              scanAux fuel (takeTicks rest).2 = (ts', rem') := ⟨_, _, rfl⟩
          rw [hscan'] at hscan
          injection hscan with ha hb
          subst ha
          subst hb
          have hlen' : (takeTicks rest).2.length ≤ fuel :=
            le_trans (takeTicks_snd_length rest) (by simp at hlen; omega)
          have hrec := ih _ ts' rem' hlen' hscan'
          simp only [List.map_cons, List.flatten_cons, List.cons_append, List.append_assoc]
          rw [hrec, takeTicks_append]
        · rw [if_neg h2] at hscan
          by_cases h3 : c ∈ SENTNTIAL_VARIABLES
          · rw [if_pos h3] at hscan
            obtain ⟨ts', rem', hscan'⟩ : ∃ ts' rem',
                scanAux fuel (takeTicks rest).2 = (ts', rem') := ⟨_, _, rfl⟩
            rw [hscan'] at hscan
            injection hscan with ha hb
            subst ha
            subst hb
            have hlen' : (takeTicks rest).2.length ≤ fuel :=
              le_trans (takeTicks_snd_length rest) (by simp at hlen; omega)
            have hrec := ih _ ts' rem' hlen' hscan'
            simp only [List.map_cons, List.flatten_cons, List.cons_append, List.append_assoc]
            rw [hrec, takeTicks_append]
          · rw [if_neg h3] at hscan
            by_cases h4 : c ∈ PREDICATE_VARIABLES
            · rw [if_pos h4] at hscan
              obtain ⟨ts', rem', hscan'⟩ : ∃ ts' rem',
                  scanAux fuel (takeTicks rest).2 = (ts', rem') := ⟨_, _, rfl⟩
              rw [hscan'] at hscan
              injection hscan with ha hb
              subst ha
              subst hb
              have hlen' : (takeTicks rest).2.length ≤ fuel :=
                le_trans (takeTicks_snd_length rest) (by simp at hlen; omega)
              have hrec := ih _ ts' rem' hlen' hscan'
              simp only [List.map_cons, List.flatten_cons, List.cons_append, List.append_assoc]
              rw [hrec, takeTicks_append]
            · rw [if_neg h4] at hscan
              injection hscan with ha hb
              subst ha
              subst hb
              simp

/-- Every token the scanner produces is well-formed. -/
theorem scanAux_shapes (fuel : Nat) : ∀ (l : List Char) ts rem,
    scanAux fuel l = (ts, rem) → ∀ t ∈ ts, TokenWF t := by
  induction fuel with
  | zero =>
    intro l ts rem hscan t ht
    match l with
    | [] =>
      simp only [scanAux] at hscan
      injection hscan with h1 _
      subst h1
      exact absurd ht (List.not_mem_nil t)
    | c :: rest =>
      simp only [scanAux] at hscan
      injection hscan with h1 _
      subst h1
      exact absurd ht (List.not_mem_nil t)
  | succ fuel ih =>
    intro l ts rem hscan t ht
    match l with
    | [] =>
      simp only [scanAux] at hscan
      injection hscan with h1 _
      subst h1
      exact absurd ht (List.not_mem_nil t)
    | c :: rest =>
      simp only [scanAux] at hscan
      by_cases h1 : isConstantSign c
      · rw [if_pos h1] at hscan
        obtain ⟨ts', rem', hscan'⟩ : ∃ ts' rem', scanAux fuel rest = (ts', rem') :=
          ⟨_, _, rfl⟩
        rw [hscan'] at hscan
        injection hscan with ha hb
        subst ha
        rcases List.mem_cons.mp ht with rfl | ht'
        · exact ⟨c, rfl, h1⟩
        · exact ih rest ts' rem' hscan' t ht'
      · rw [if_neg h1] at hscan
        by_cases h2 : c ∈ NUMERICAL_VARIABLES
        · rw [if_pos h2] at hscan
          obtain ⟨ts', rem', hscan'⟩ : ∃ ts' rem',
              scanAux fuel (takeTicks rest).2 = (ts', rem') := ⟨_, _, rfl⟩
          rw [hscan'] at hscan
          injection hscan with ha hb
          subst ha
          rcases List.mem_cons.mp ht with rfl | ht'
          · exact ⟨c, (takeTicks rest).1, rfl, h2, takeTicks_all_tick rest⟩
          · exact ih _ ts' rem' hscan' t ht'
        · rw [if_neg h2] at hscan
          by_cases h3 : c ∈ SENTNTIAL_VARIABLES
          · rw [if_pos h3] at hscan
            obtain ⟨ts', rem', hscan'⟩ : ∃ ts' rem',
                scanAux fuel (takeTicks rest).2 = (ts', rem') := ⟨_, _, rfl⟩
            rw [hscan'] at hscan
            injection hscan with ha hb
            subst ha
            rcases List.mem_cons.mp ht with rfl | ht'
            · exact ⟨c, (takeTicks rest).1, rfl, h3, takeTicks_all_tick rest⟩
            · exact ih _ ts' rem' hscan' t ht'
          · rw [if_neg h3] at hscan
            by_cases h4 : c ∈ PREDICATE_VARIABLES
            · rw [if_pos h4] at hscan
              obtain ⟨ts', rem', hscan'⟩ : ∃ ts' rem',
                  scanAux fuel (takeTicks rest).2 = (ts', rem') := ⟨_, _, rfl⟩
              rw [hscan'] at hscan
              injection hscan with ha hb
              subst ha
              rcases List.mem_cons.mp ht with rfl | ht'
              · exact ⟨c, (takeTicks rest).1, rfl, h4, takeTicks_all_tick rest⟩
              · exact ih _ ts' rem' hscan' t ht'
            · rw [if_neg h4] at hscan
              injection hscan with ha hb
              subst ha
              exact absurd ht (List.not_mem_nil t)

/-! ## Association-list lemmas (Python dict lookups) -/

theorem lookup_mem {α β : Type} [BEq α] [LawfulBEq α] :
    ∀ {l : List (α × β)} {k : α} {v : β}, l.lookup k = some v → (k, v) ∈ l := by
  intro l
  induction l with
  | nil => intro k v h; simp [List.lookup] at h
  | cons e rest ih =>
    intro k v h
    rw [List.lookup_cons] at h
    rcases hbe : k == e.1 with _ | _
    · rw [hbe] at h
      exact List.mem_cons_of_mem _ (ih h)
    · rw [hbe] at h
      injection h with h'
      subst h'
      have : k = e.1 := eq_of_beq hbe
      subst this
      exact List.mem_cons_self _ _

theorem lookup_eq_none_iff {α β : Type} [BEq α] [LawfulBEq α] :
    ∀ {l : List (α × β)} {k : α}, l.lookup k = none ↔ k ∉ l.map Prod.fst := by
  intro l
  induction l with
  | nil => intro k; simp [List.lookup]
  | cons e rest ih =>
    intro k
    rw [List.lookup_cons]
    rcases hbe : k == e.1 with _ | _
    · have hne : k ≠ e.1 := fun hh => by simp [hh] at hbe
      rw [ih]
      simp [hne]
    · have heq : k = e.1 := eq_of_beq hbe
      subst heq
      simp

theorem lookup_append {α β : Type} [BEq α] :
    ∀ (l₁ l₂ : List (α × β)) (k : α),
      (l₁ ++ l₂).lookup k =
        match l₁.lookup k with
        | some v => some v
        | none => l₂.lookup k := by
  intro l₁
  induction l₁ with
  | nil => intro l₂ k; simp [List.lookup]
  | cons e rest ih =>
    intro l₂ k
    rw [List.cons_append, List.lookup_cons, List.lookup_cons]
    rcases hbe : k == e.1 with _ | _
    · exact ih l₂ k
    · rfl

/-! ## Claim C5: all-or-nothing tokenization and lexical errors -/

/-- C5: if scanning leaves a nonempty unmatched remainder, `encode` raises
the lexical error carrying the remainder truncated to at most 10 characters;
the error is raised before any code assignment (no partial encoding
exists). -/
theorem encode_lexical (s : List Char) (ts : List Token) (rem : List Char)
    (hscan : scanAux s.length s = (ts, rem)) (hrem : rem ≠ []) :
    encode s = .error (.lexical (if rem.length > 10 then rem.take 10 else rem)) ∧
    (if rem.length > 10 then rem.take 10 else rem).length ≤ 10 := by
  constructor
  · have hs : s ≠ [] := by
      rintro rfl
      simp only [scanAux] at hscan
      injection hscan with _ h2
      exact hrem h2.symm
    simp only [encode, encodeW, Lexer.scan, hscan]
    rw [if_neg hs, if_neg hrem]
    rfl
  · rcases Decidable.em (rem.length > 10) with h | h
    · rw [if_pos h]
      simp [List.length_take]
    · rw [if_neg h]
      omega

/-! ## Claim C9: the `Bijection` constructor -/

theorem buildInverse_ok_val {α β : Type} [BEq β] [LawfulBEq β] :
    ∀ (m : List (α × β)) (inv : List (β × α)) (r : List (β × α)),
      Bijection.buildInverse m inv = .ok r → r = inv ++ m.map Prod.swap := by
  intro m
  induction m with
  | nil =>
    intro inv r h
    simp only [Bijection.buildInverse] at h
    injection h with h'
    simp [h'.symm]
  | cons e rest ih =>
    intro inv r h
    obtain ⟨k, v⟩ := e
    simp only [Bijection.buildInverse] at h
    rcases Decidable.em ((inv.lookup v).isSome = true) with hl | hl
    · rw [if_pos hl] at h
      exact absurd h (by simp)
    · rw [if_neg hl] at h
      have := ih (inv ++ [(v, k)]) r h
      rw [this]
      simp [Prod.swap]

theorem buildInverse_ok_iff {α β : Type} [BEq β] [LawfulBEq β] :
    ∀ (m : List (α × β)) (inv : List (β × α)),
      (∃ r, Bijection.buildInverse m inv = .ok r) ↔
        ((m.map Prod.snd).Nodup ∧ ∀ v ∈ m.map Prod.snd, inv.lookup v = none) := by
  intro m
  induction m with
  | nil =>
    intro inv
    simp [Bijection.buildInverse]
  | cons e rest ih =>
    intro inv
    obtain ⟨k, v⟩ := e
    simp only [Bijection.buildInverse]
    rcases Decidable.em ((inv.lookup v).isSome = true) with hl | hl
    · rw [if_pos hl]
      constructor
      · rintro ⟨r, hr⟩
        exact absurd hr (by simp)
      · rintro ⟨_, hall⟩
        have := hall v (by simp)
        rw [this] at hl
        simp at hl
    · rw [if_neg hl]
      rw [ih (inv ++ [(v, k)])]
      have hvnone : inv.lookup v = none := by
        rcases hlv : inv.lookup v with _ | w
        · rfl
        · rw [hlv] at hl
          simp at hl
      constructor
      · rintro ⟨hnd, hall⟩
        refine ⟨?_, ?_⟩
        · simp only [List.map_cons, List.nodup_cons]
          refine ⟨?_, hnd⟩
          intro hvmem
          have := hall v hvmem
          rw [lookup_append] at this
          rw [hvnone] at this
          simp [List.lookup_cons] at this
        · intro w hw
          rcases List.mem_cons.mp hw with rfl | hw'
          · exact hvnone
          · have := hall w hw'
            rw [lookup_append] at this
            rcases hlw : inv.lookup w with _ | u
            · rfl
            · rw [hlw] at this
              exact this
      · rintro ⟨hnd, hall⟩
        simp only [List.map_cons, List.nodup_cons] at hnd
        refine ⟨hnd.2, ?_⟩
        intro w hw
        rw [lookup_append]
        rw [hall w (List.mem_cons_of_mem _ hw)]
        rw [List.lookup_cons]
        rcases hbe : w == v with _ | _
        · rfl
        · exact absurd (eq_of_beq hbe) (fun hh => hnd.1 (hh ▸ hw))

theorem lookup_cons_eq {α β : Type} [BEq α] (a : α) (b : β)
    (rest : List (α × β)) (k : α) :
    ((a, b) :: rest).lookup k = if k == a then some b else rest.lookup k := by
  rw [List.lookup_cons]
  rcases hbe : k == a with _ | _ <;> simp [hbe]

theorem lookup_map_swap {α β : Type} [BEq α] [LawfulBEq α] [BEq β] [LawfulBEq β] :
    ∀ (m : List (α × β)), (m.map Prod.fst).Nodup → (m.map Prod.snd).Nodup →
      ∀ (k : α) (v : β), (m.lookup k = some v ↔ (m.map Prod.swap).lookup v = some k) := by
  intro m
  induction m with
  | nil => intro _ _ k v; simp [List.lookup]
  | cons e rest ih =>
    rintro hk hv k v
    obtain ⟨a, b⟩ := e
    simp only [List.map_cons, List.nodup_cons] at hk hv
    have hswap : (((a, b) :: rest).map Prod.swap) = (b, a) :: rest.map Prod.swap := by
      simp [Prod.swap]
    rw [hswap, lookup_cons_eq, lookup_cons_eq]
    rcases hka : k == a with _ | _
    · have hka' : ¬ k = a := ne_of_beq_false hka
      rw [if_neg (by simp [hka])]
      rcases hvb : v == b with _ | _
      · rw [if_neg (by simp [hvb])]
        exact ih hk.2 hv.2 k v
      · have hvb' : v = b := eq_of_beq hvb
        subst hvb'
        rw [if_pos (by simp)]
        constructor
        · intro hsome
          exact absurd (List.mem_map_of_mem Prod.snd (lookup_mem hsome)) hv.1
        · intro hsome
          injection hsome with hh
          exact absurd hh.symm hka'
    · have hka' : k = a := eq_of_beq hka
      subst hka'
      rw [if_pos (by simp)]
      rcases hvb : v == b with _ | _
      · have hvb' : ¬ v = b := ne_of_beq_false hvb
        rw [if_neg (by simp [hvb])]
        constructor
        · intro hsome
          injection hsome with hh
          exact absurd hh.symm hvb'
        · intro hsome
          exfalso
          have hmem := lookup_mem hsome
          obtain ⟨x, hx, hxe⟩ := List.mem_map.mp hmem
          have hxk : x.1 = k := by
            have := congrArg Prod.snd hxe
            simpa [Prod.swap] using this
          exact hk.1 (hxk ▸ List.mem_map_of_mem Prod.fst hx)
      · have hvb' : v = b := eq_of_beq hvb
        subst hvb'
        rw [if_pos (by simp)]
        simp

/-- C9: constructing a `Bijection` from a dict (distinct keys): it succeeds
iff the codes are pairwise distinct (a repeated code raises the construction
error), and on success forward lookup and inverse lookup are mutual
inverses. -/
theorem Bijection_init_spec {α β : Type} [DecidableEq α] [DecidableEq β]
    (m : List (α × β)) (hkeys : (m.map Prod.fst).Nodup) :
    ((∃ b, Bijection.init m = .ok b) ↔ (m.map Prod.snd).Nodup) ∧
    (¬ (m.map Prod.snd).Nodup → ∃ msg, Bijection.init m = .error msg) ∧
    (∀ b, Bijection.init m = .ok b →
      ∀ k v, (b.mapping.lookup k = some v ↔ b.inverse.lookup v = some k)) := by
  have hmain : (∃ b, Bijection.init m = .ok b) ↔ (m.map Prod.snd).Nodup := by
    unfold Bijection.init
    rcases hbi : Bijection.buildInverse m ([] : List (β × α)) with msg | r
    · constructor
      · rintro ⟨b, hb⟩
        exact absurd hb (by simp [Except.map])
      · intro hnd
        exfalso
        have := (buildInverse_ok_iff m []).mpr ⟨hnd, fun v _ => rfl⟩
        obtain ⟨r, hr⟩ := this
        rw [hbi] at hr
        exact absurd hr (by simp)
    · constructor
      · rintro ⟨b, _⟩
        have := (buildInverse_ok_iff m []).mp ⟨r, hbi⟩
        exact this.1
      · intro _
        exact ⟨⟨m, r⟩, rfl⟩
  refine ⟨hmain, ?_, ?_⟩
  · intro hnnd
    rcases hbi : Bijection.init m with msg | b
    · exact ⟨msg, rfl⟩
    · exact absurd (hmain.mp ⟨b, hbi⟩) hnnd
  · intro b hb k v
    have hvals : (m.map Prod.snd).Nodup := hmain.mp ⟨b, hb⟩
    unfold Bijection.init at hb
    rcases hbi : Bijection.buildInverse m ([] : List (β × α)) with msg | r
    · rw [hbi] at hb
      exact absurd hb (by simp [Except.map])
    · rw [hbi] at hb
      have hbval : b = ⟨m, r⟩ := by
        simp only [Except.map] at hb
        injection hb with hh
        exact hh.symm
      have hr : r = [] ++ m.map Prod.swap := buildInverse_ok_val m [] r hbi
      subst hbval
      simp only [List.nil_append] at hr
      subst hr
      exact lookup_map_swap m hkeys hvals k v

/-! ## Claim C4: structural errors on malformed numbers -/

/-- The `ValueError`s of `decode` (the structural errors of the spec), as
opposed to a pool-exhaustion `IndexError`. -/
def DecodeError.structural : DecodeError → Prop
  | .primeMismatch _ _ _ => True
  | .badCode _ => True
  | .indexError => False

/-- If some position within the run list disagrees with the prime table, the
decode loop raises a structural error (it can stop earlier, but always with a
`ValueError`). -/
theorem decodeLoopW_error (PR : List Int) :
    ∀ (pairs : List (Int × Int)) (st : DecodeState) (i k : Nat) (p : Int)
      (fm : Int × Int), PR.get? (i + k) = some p → pairs.get? k = some fm →
      p ≠ fm.1 → ∃ e, decodeLoopW PR st i pairs = .error e ∧ e.structural := by
  intro pairs
  induction pairs with
  | nil =>
    intro st i k p fm _ hfm _
    simp [List.get?] at hfm
  | cons hd rest ih =>
    intro st i k p fm hp hfm hne
    obtain ⟨f, gnum⟩ := hd
    match k with
    | 0 =>
      have hfm' : fm = (f, gnum) := by
        simp [List.get?] at hfm
        exact hfm.symm
      subst hfm'
      have hne' : p ≠ f := by simpa using hne
      have hp' : PR.get? i = some p := by simpa using hp
      simp only [decodeLoopW, hp']
      rw [if_pos hne']
      exact ⟨_, rfl, trivial⟩
    | k + 1 =>
      have hfm' : rest.get? k = some fm := by simpa [List.get?] using hfm
      obtain ⟨q, hq⟩ : ∃ q, PR.get? i = some q := by
        rcases hqq : PR.get? i with _ | q
        · exfalso
          have h1 : PR.length ≤ i := List.get?_eq_none.mp hqq
          have h2 : PR.length ≤ i + (k + 1) := by omega
          rw [List.get?_eq_none.mpr h2] at hp
          exact Option.noConfusion hp
        · exact ⟨q, rfl⟩
      have hshift : PR.get? ((i + 1) + k) = some p := by
        have heq : (i + 1) + k = i + (k + 1) := by omega
        rw [heq]
        exact hp
      simp only [decodeLoopW, hq]
      rcases Decidable.em (q ≠ f) with hqf | hqf
      · rw [if_pos hqf]
        exact ⟨_, rfl, trivial⟩
      · rw [if_neg hqf]
        rcases hlk : CONSTANT_SIGNS.inverse.lookup gnum with _ | symbol
        · rcases hct : PR.contains gnum with _ | _
          · rw [if_neg (by simp)]
            by_cases hd1 : (factor gnum).dedup.length ≠ 1
            · rw [if_pos hd1]
              exact ⟨_, rfl, trivial⟩
            · rw [if_neg hd1]
              by_cases hs2 : (factor gnum).length = 2 ∧
                  PR.contains ((factor gnum).headD 0) = true
              · rw [if_pos hs2]
                obtain ⟨e, he, hs⟩ :=
                  ih (st.decode_sentential_variable gnum).2 (i + 1) k p fm hshift hfm' hne
                rw [he]
                exact ⟨e, rfl, hs⟩
              · rw [if_neg hs2]
                by_cases hs3 : (factor gnum).length = 3 ∧
                    PR.contains ((factor gnum).headD 0) = true
                · rw [if_pos hs3]
                  obtain ⟨e, he, hs⟩ :=
                    ih (st.decode_predicate_variable gnum).2 (i + 1) k p fm hshift hfm' hne
                  rw [he]
                  exact ⟨e, rfl, hs⟩
                · rw [if_neg hs3]
                  exact ⟨_, rfl, trivial⟩
          · rw [if_pos rfl]
            obtain ⟨e, he, hs⟩ :=
              ih (st.decode_numerical_variable gnum).2 (i + 1) k p fm hshift hfm' hne
            rw [he]
            exact ⟨e, rfl, hs⟩
        · obtain ⟨e, he, hs⟩ := ih st (i + 1) k p fm hshift hfm' hne
          rw [he]
          exact ⟨e, rfl, hs⟩

/-- C4: if the grouped factorization of `n ≥ 1` disagrees with the prime
table at some position, `decode n` raises a structural error (`ValueError`)
and returns no partial output. -/
theorem decode_structural (n : Int) (hn : 1 ≤ n)
    (h : ∃ i p fm, PRIME.get? i = some p ∧
      (groupConsec (factor n)).get? i = some fm ∧ p ≠ fm.1) :
    ∃ e, decode n = .error e ∧ e.structural := by
  obtain ⟨i, p, fm, hp, hfm, hne⟩ := h
  have hn0 : ¬ n = 0 := by omega
  simp only [decode, decodeW]
  rw [if_neg hn0]
  obtain ⟨e, he, hs⟩ :=
    decodeLoopW_error PRIME (groupConsec (factor n)) {} 0 i p fm (by simpa using hp) hfm hne
  rw [he]
  exact ⟨e, rfl, hs⟩

/-- Witness for C4 at the concrete malformed number 9 (smallest prime factor
3 instead of 2). -/
theorem decode_structural_witness :
    (1 : Int) ≤ 9 ∧ ∃ e, decode 9 = .error e ∧ e.structural :=
  ⟨by norm_num, decode_structural 9 (by norm_num)
    ⟨0, 2, (3, 2), by rw [PRIME_get?_lt8 0 (by omega)]; rfl, by decide, by decide⟩⟩

/-! ## Claims C6/C7: the factorizer -/

/-- C6: for `n ≥ 2`, `factor n` is the non-decreasing sequence of prime
factors with multiplicity (every element prime, product `n`); `factor 1` is
empty; and `factor 360 = [2,2,2,3,3,5]`. -/
theorem factor_claim :
    (∀ n : Int, 2 ≤ n → (factor n).Sorted (· ≤ ·) ∧
      (∀ p ∈ factor n, Prime p) ∧ (factor n).prod = n) ∧
    factor 1 = [] ∧ factor 360 = [2, 2, 2, 3, 3, 5] := by
  refine ⟨?_, by decide, by decide⟩
  intro n hn
  rw [factor_spec n hn]
  refine ⟨?_, ?_, ?_⟩
  · rw [List.Sorted, List.pairwise_map]
    exact (Nat.primeFactorsList_sorted n.toNat).imp (fun h => by exact_mod_cast h)
  · intro p hp
    obtain ⟨q, hq, rfl⟩ := List.mem_map.mp hp
    exact Int.prime_iff_natAbs_prime.mpr
      (by simpa using Nat.prime_of_mem_primeFactorsList hq)
  · have hne : n.toNat ≠ 0 := by omega
    rw [← Nat.cast_list_prod, Nat.prod_primeFactorsList hne]
    exact Int.toNat_of_nonneg (by omega)

/-- Witness for C6 at 360. -/
theorem factor_claim_witness :
    (2 : Int) ≤ 360 ∧ (factor 360).Sorted (· ≤ ·) ∧
      (∀ p ∈ factor 360, Prime p) ∧ (factor 360).prod = 360 :=
  ⟨by norm_num, factor_claim.1 360 (by norm_num)⟩

/-- Counterexample to C7: `factor` raises nothing for `n < 1`; it returns the
empty list normally (the loop guard `factor <= n` is immediately false), the
same value as `factor 1`. -/
theorem factor_no_domain_error : factor 0 = [] ∧ factor (-5) = [] := by
  exact ⟨by decide, by decide⟩

/-- C7 as amended: for every integer `n < 1`, `factor n` returns `[]` without
raising any error. -/
theorem factor_lt_one (n : Int) (h : n < 1) : factor n = [] :=
  factor_of_lt_two n (by omega)

/-- Witness for the amended C7. -/
theorem factor_lt_one_witness : (-5 : Int) < 1 ∧ factor (-5) = [] :=
  ⟨by norm_num, factor_lt_one (-5) (by norm_num)⟩

/-! ## Claim C8: what `sieve` actually returns -/

/-- C8: `sieve` is *not* "all primes strictly below n" for every `n` (the
code's own docstring notwithstanding): for odd `n` the candidate range
reaches `n` itself, so `sieve 3 = [2, 3]`, and `sieve 2 = [2]`; the claim's
`primes_below(30)` example does hold. -/
theorem sieve_values : sieve 3 = [2, 3] ∧ sieve 2 = [2] ∧
    sieve 30 = [2, 3, 5, 7, 11, 13, 17, 19, 23, 29] :=
  ⟨by decide, by decide, by decide⟩

/-! ## Claim C3: the `0=0` example -/

/-- C3: `encode("0=0")` is exactly `2^6 * 3^5 * 5^6` and decoding that value
returns `"0=0"`. -/
theorem encode_decode_zero_eq_zero :
    encode "0=0".data = .ok (2 ^ 6 * 3 ^ 5 * 5 ^ 6) ∧
    decode (2 ^ 6 * 3 ^ 5 * 5 ^ 6) = .ok "0=0".data := by
  constructor
  · simp only [encode]
    rw [PRIME_eq, PRIME_OFFSET_eq]
    decide
  · simp only [decode]
    rw [PRIME_eq]
    decide

/-! ## Claim C2: `encode_predicate_variable` uses the sentential map -/

/-- C2 (code bug): on a session whose sentential map already holds one entry
(`'p' ↦ 169`) and whose predicate map is empty, encoding the fresh predicate
lexeme `'P'` consults the *sentential* map, assigns
`PRIME[OFFSET + 1]^3 = 17^3` (the sentential map's count, not the predicate
map's own count, which would give `13^3`), and stores the entry in the
sentential map, leaving the predicate map untouched. -/
theorem encode_predicate_uses_sentential :
    State.encode_predicate_variable { sentntial_variables := [(['p'], 169)] } ['P'] =
      some (17 ^ 3, { sentntial_variables := [(['p'], 169), (['P'], 17 ^ 3)] }) ∧
    PRIME.get? (PRIME_OFFSET + 0) = some 13 := by
  constructor
  · simp only [State.encode_predicate_variable]
    rw [PRIME_eq, PRIME_OFFSET_eq]
    decide
  · rw [PRIME_OFFSET_eq, PRIME_get?_lt8 (5 + 0) (by omega)]
    rfl

/-- Witness for C5 at the concrete input `"0=0#"`: the scanner stops at `#`
and `encode` raises the lexical error identifying it. -/
theorem encode_lexical_witness :
    scanAux "0=0#".data.length "0=0#".data =
      ([(TokenType.constant, ['0']), (TokenType.constant, ['=']),
        (TokenType.constant, ['0'])], ['#']) ∧
    (['#'] : List Char) ≠ [] ∧
    encode "0=0#".data = .error (.lexical ['#']) ∧ (['#'] : List Char).length ≤ 10 := by
  have h := encode_lexical "0=0#".data
    [(TokenType.constant, ['0']), (TokenType.constant, ['=']), (TokenType.constant, ['0'])]
    ['#'] (by decide) (by decide)
  refine ⟨by decide, by decide, ?_, by decide⟩
  simpa using h.1

/-- Witness for C9 on a concrete two-symbols-one-code mapping. -/
theorem Bijection_init_spec_witness :
    ((([(('a' : Char), (1 : Int)), ('b', 1)]).map Prod.fst).Nodup) ∧
    (((∃ b, Bijection.init [(('a' : Char), (1 : Int)), ('b', 1)] = .ok b) ↔
        (([(('a' : Char), (1 : Int)), ('b', 1)]).map Prod.snd).Nodup) ∧
      (¬ ((([(('a' : Char), (1 : Int)), ('b', 1)]).map Prod.snd).Nodup) →
        ∃ msg, Bijection.init [(('a' : Char), (1 : Int)), ('b', 1)] = .error msg) ∧
      (∀ b, Bijection.init [(('a' : Char), (1 : Int)), ('b', 1)] = .ok b →
        ∀ k v, (b.mapping.lookup k = some v ↔ b.inverse.lookup v = some k))) :=
  ⟨by decide, Bijection_init_spec _ (by decide)⟩

/-! ## Round-trip machinery: explicit contents of the per-session maps

Under the canonical-naming hypothesis of the round-trip claims, the contents
of the encoder's maps are a function of how many distinct variables of each
class have been seen.  `numMap nn` is the numerical map after `nn` distinct
numerical lexemes; since `encode_sentntial_variable` and
`encode_predicate_variable` both use `sentntial_variables`, that shared map is
`mixMap σ` for a tag list `σ` (one `Bool` per distinct lexeme inserted there:
`true` for sentential, `false` for predicate).  `sentPartAux`/`predPartAux`
are its two per-class sublists, whose swaps are the decoder's maps. -/

def primeAt (k : Nat) : Int := (PRIME.get? k).getD 0

def numName (m : Nat) : List Char := next_var_name m NUMERICAL_VARIABLES

def sentName (m : Nat) : List Char := next_var_name m SENTNTIAL_VARIABLES

def predName (m : Nat) : List Char := next_var_name m PREDICATE_VARIABLES

def numMap (nn : Nat) : List (List Char × Int) :=
  (List.range nn).map fun k => (numName k, primeAt (PRIME_OFFSET + k))

def ctTrue (σ : List Bool) : Nat := (σ.filter (fun b => b)).length

def ctFalse (σ : List Bool) : Nat := (σ.filter (fun b => !b)).length

def mixMapAux (k sm pm : Nat) : List Bool → List (List Char × Int)
  | [] => []
  | true :: σ =>
    (sentName sm, primeAt (PRIME_OFFSET + k) ^ 2) :: mixMapAux (k + 1) (sm + 1) pm σ
  | false :: σ =>
    (predName pm, primeAt (PRIME_OFFSET + k) ^ 3) :: mixMapAux (k + 1) sm (pm + 1) σ

def mixMap (σ : List Bool) : List (List Char × Int) := mixMapAux 0 0 0 σ

def sentPartAux (k sm : Nat) : List Bool → List (List Char × Int)
  | [] => []
  | true :: σ =>
    (sentName sm, primeAt (PRIME_OFFSET + k) ^ 2) :: sentPartAux (k + 1) (sm + 1) σ
  | false :: σ => sentPartAux (k + 1) sm σ

def predPartAux (k pm : Nat) : List Bool → List (List Char × Int)
  | [] => []
  | true :: σ => predPartAux (k + 1) pm σ
  | false :: σ =>
    (predName pm, primeAt (PRIME_OFFSET + k) ^ 3) :: predPartAux (k + 1) (pm + 1) σ

theorem ctTrue_cons_true (σ : List Bool) : ctTrue (true :: σ) = ctTrue σ + 1 := by
  simp [ctTrue, List.filter_cons]

theorem ctTrue_cons_false (σ : List Bool) : ctTrue (false :: σ) = ctTrue σ := by
  simp [ctTrue, List.filter_cons]

theorem ctFalse_cons_true (σ : List Bool) : ctFalse (true :: σ) = ctFalse σ := by
  simp [ctFalse, List.filter_cons]

theorem ctFalse_cons_false (σ : List Bool) : ctFalse (false :: σ) = ctFalse σ + 1 := by
  simp [ctFalse, List.filter_cons]

theorem mixMapAux_append_true : ∀ (σ : List Bool) (k sm pm : Nat),
    mixMapAux k sm pm (σ ++ [true]) = mixMapAux k sm pm σ ++
      [(sentName (sm + ctTrue σ), primeAt (PRIME_OFFSET + k + σ.length) ^ 2)] := by
  intro σ
  induction σ with
  | nil => intro k sm pm; simp [mixMapAux, ctTrue]
  | cons b σ ih =>
    intro k sm pm
    cases b
    · simp only [List.cons_append, List.append_eq, mixMapAux, ih, List.length_cons]
      rw [ctTrue_cons_false,
        show PRIME_OFFSET + k + (σ.length + 1) = PRIME_OFFSET + (k + 1) + σ.length from by omega]
    · simp only [List.cons_append, List.append_eq, mixMapAux, ih, List.length_cons]
      rw [ctTrue_cons_true,
        show sm + (ctTrue σ + 1) = sm + 1 + ctTrue σ from by omega,
        show PRIME_OFFSET + k + (σ.length + 1) = PRIME_OFFSET + (k + 1) + σ.length from by omega]

theorem mixMapAux_append_false : ∀ (σ : List Bool) (k sm pm : Nat),
    mixMapAux k sm pm (σ ++ [false]) = mixMapAux k sm pm σ ++
      [(predName (pm + ctFalse σ), primeAt (PRIME_OFFSET + k + σ.length) ^ 3)] := by
  intro σ
  induction σ with
  | nil => intro k sm pm; simp [mixMapAux, ctFalse]
  | cons b σ ih =>
    intro k sm pm
    cases b
    · simp only [List.cons_append, List.append_eq, mixMapAux, ih, List.length_cons]
      rw [ctFalse_cons_false,
        show pm + (ctFalse σ + 1) = pm + 1 + ctFalse σ from by omega,
        show PRIME_OFFSET + k + (σ.length + 1) = PRIME_OFFSET + (k + 1) + σ.length from by omega]
    · simp only [List.cons_append, List.append_eq, mixMapAux, ih, List.length_cons]
      rw [ctFalse_cons_true,
        show PRIME_OFFSET + k + (σ.length + 1) = PRIME_OFFSET + (k + 1) + σ.length from by omega]

theorem sentPartAux_append_true : ∀ (σ : List Bool) (k sm : Nat),
    sentPartAux k sm (σ ++ [true]) = sentPartAux k sm σ ++
      [(sentName (sm + ctTrue σ), primeAt (PRIME_OFFSET + k + σ.length) ^ 2)] := by
  intro σ
  induction σ with
  | nil => intro k sm; simp [sentPartAux, ctTrue]
  | cons b σ ih =>
    intro k sm
    cases b
    · simp only [List.cons_append, List.append_eq, sentPartAux, ih, List.length_cons]
      rw [ctTrue_cons_false,
        show PRIME_OFFSET + k + (σ.length + 1) = PRIME_OFFSET + (k + 1) + σ.length from by omega]
    · simp only [List.cons_append, List.append_eq, sentPartAux, ih, List.length_cons]
      rw [ctTrue_cons_true,
        show sm + (ctTrue σ + 1) = sm + 1 + ctTrue σ from by omega,
        show PRIME_OFFSET + k + (σ.length + 1) = PRIME_OFFSET + (k + 1) + σ.length from by omega]

theorem sentPartAux_append_false : ∀ (σ : List Bool) (k sm : Nat),
    sentPartAux k sm (σ ++ [false]) = sentPartAux k sm σ := by
  intro σ
  induction σ with
  | nil => intro k sm; simp [sentPartAux]
  | cons b σ ih =>
    intro k sm
    cases b <;> simp only [List.cons_append, List.append_eq, sentPartAux, ih]

theorem predPartAux_append_false : ∀ (σ : List Bool) (k pm : Nat),
    predPartAux k pm (σ ++ [false]) = predPartAux k pm σ ++
      [(predName (pm + ctFalse σ), primeAt (PRIME_OFFSET + k + σ.length) ^ 3)] := by
  intro σ
  induction σ with
  | nil => intro k pm; simp [predPartAux, ctFalse]
  | cons b σ ih =>
    intro k pm
    cases b
    · simp only [List.cons_append, List.append_eq, predPartAux, ih, List.length_cons]
      rw [ctFalse_cons_false,
        show pm + (ctFalse σ + 1) = pm + 1 + ctFalse σ from by omega,
        show PRIME_OFFSET + k + (σ.length + 1) = PRIME_OFFSET + (k + 1) + σ.length from by omega]
    · simp only [List.cons_append, List.append_eq, predPartAux, ih, List.length_cons]
      rw [ctFalse_cons_true,
        show PRIME_OFFSET + k + (σ.length + 1) = PRIME_OFFSET + (k + 1) + σ.length from by omega]

theorem predPartAux_append_true : ∀ (σ : List Bool) (k pm : Nat),
    predPartAux k pm (σ ++ [true]) = predPartAux k pm σ := by
  intro σ
  induction σ with
  | nil => intro k pm; simp [predPartAux]
  | cons b σ ih =>
    intro k pm
    cases b <;> simp only [List.cons_append, List.append_eq, predPartAux, ih]

theorem sentPartAux_length : ∀ (σ : List Bool) (k sm : Nat),
    (sentPartAux k sm σ).length = ctTrue σ := by
  intro σ
  induction σ with
  | nil => intro k sm; simp [sentPartAux, ctTrue]
  | cons b σ ih =>
    intro k sm
    cases b
    · simp only [sentPartAux, ih, ctTrue_cons_false]
    · simp only [sentPartAux, List.length_cons, ih, ctTrue_cons_true]

theorem predPartAux_length : ∀ (σ : List Bool) (k pm : Nat),
    (predPartAux k pm σ).length = ctFalse σ := by
  intro σ
  induction σ with
  | nil => intro k pm; simp [predPartAux, ctFalse]
  | cons b σ ih =>
    intro k pm
    cases b
    · simp only [predPartAux, List.length_cons, ih, ctFalse_cons_false]
    · simp only [predPartAux, ih, ctFalse_cons_true]

theorem numMap_length (nn : Nat) : (numMap nn).length = nn := by
  simp [numMap]

theorem numMap_succ (nn : Nat) :
    numMap (nn + 1) = numMap nn ++ [(numName nn, primeAt (PRIME_OFFSET + nn))] := by
  simp [numMap, List.range_succ]

/-! ## Facts about `primeAt` and the constant table -/

theorem PRIME_length_ge8 : 8 ≤ PRIME.length := by
  have h := congrArg List.length PRIME_take8
  simp [List.length_take] at h
  omega

theorem primeAt_eq_getElem {k : Nat} (h : k < PRIME.length) : primeAt k = PRIME[k] := by
  rw [primeAt, List.get?_eq_getElem?, List.getElem?_eq_getElem h]
  rfl

theorem PRIME_get?_eq {k : Nat} (h : k < PRIME.length) :
    PRIME.get? k = some (primeAt k) := by
  rw [primeAt_eq_getElem h, List.get?_eq_getElem?, List.getElem?_eq_getElem h]

theorem primeAt_mem {k : Nat} (h : k < PRIME.length) : primeAt k ∈ PRIME := by
  rw [primeAt_eq_getElem h]
  exact List.getElem_mem h

theorem primeAt_lt_primeAt {a b : Nat} (hab : a < b) (hb : b < PRIME.length) :
    primeAt a < primeAt b := by
  have ha : a < PRIME.length := lt_trans hab hb
  rw [primeAt_eq_getElem ha, primeAt_eq_getElem hb]
  exact List.pairwise_iff_getElem.mp PRIME_pairwise a b ha hb hab

theorem primeAt_prime {k : Nat} (h : k < PRIME.length) :
    ∃ p : Nat, Nat.Prime p ∧ primeAt k = (p : Int) :=
  PRIME_prime (primeAt_mem h)

theorem primeAt_two_le {k : Nat} (h : k < PRIME.length) : 2 ≤ primeAt k := by
  obtain ⟨p, hp, he⟩ := primeAt_prime h
  rw [he]
  exact_mod_cast hp.two_le

theorem primeAt_five : primeAt 5 = 13 := by
  rw [primeAt, PRIME_get?_lt8 5 (by omega)]
  rfl

theorem primeAt_ge_13 {k : Nat} (h5 : 5 ≤ k) (hk : k < PRIME.length) : 13 ≤ primeAt k := by
  rcases Nat.eq_or_lt_of_le h5 with h | h
  · rw [← h, primeAt_five]
  · have := primeAt_lt_primeAt h hk
    rw [primeAt_five] at this
    omega

/-- The natural number underlying `primeAt` (`primeAt` is a positive prime at
every in-range index). -/
def primeNat (k : Nat) : Nat := (primeAt k).toNat

theorem primeAt_eq_cast {k : Nat} (h : k < PRIME.length) :
    primeAt k = (primeNat k : Int) := by
  rw [primeNat, Int.toNat_of_nonneg (by have := primeAt_two_le h; omega)]

theorem primeNat_prime {k : Nat} (h : k < PRIME.length) : Nat.Prime (primeNat k) := by
  obtain ⟨p, hp, he⟩ := primeAt_prime h
  have : primeNat k = p := by
    have := primeAt_eq_cast h
    rw [he] at this
    exact_mod_cast this.symm
  rw [this]
  exact hp

attribute [irreducible] primeAt

theorem contains_iff_mem (l : List Int) (x : Int) : l.contains x = true ↔ x ∈ l := by
  induction l with
  | nil => simp [List.contains, List.elem]
  | cons a t ih =>
    simp only [List.contains, List.elem] at *
    rcases hbe : x == a with _ | _
    · have hne : x ≠ a := ne_of_beq_false hbe
      simp only [List.mem_cons]
      rw [ih]
      constructor
      · exact Or.inr
      · rintro (rfl | h)
        · exact absurd rfl hne
        · exact h
    · have heq : x = a := eq_of_beq hbe
      subst heq
      simp

theorem sq_not_mem_PRIME {qn : Nat} (hqn : Nat.Prime qn) :
    ((qn : Int)) ^ 2 ∉ PRIME := by
  intro hmem
  obtain ⟨p, hp, he⟩ := PRIME_prime hmem
  have hcast : ((qn ^ 2 : Nat) : Int) = (p : Int) := by push_cast; exact he
  have hpq : p = qn ^ 2 := by exact_mod_cast hcast.symm
  rw [hpq] at hp
  have h2 := hqn.two_le
  have hqq : qn ^ 2 = qn * qn := by ring
  rw [hqq] at hp
  rcases Nat.prime_mul_iff.mp hp with ⟨_, h1⟩ | ⟨_, h1⟩ <;> omega

theorem cube_not_mem_PRIME {qn : Nat} (hqn : Nat.Prime qn) :
    ((qn : Int)) ^ 3 ∉ PRIME := by
  intro hmem
  obtain ⟨p, hp, he⟩ := PRIME_prime hmem
  have hcast : ((qn ^ 3 : Nat) : Int) = (p : Int) := by push_cast; exact he
  have hpq : p = qn ^ 3 := by exact_mod_cast hcast.symm
  rw [hpq] at hp
  have h2 := hqn.two_le
  have hqq : qn ^ 3 = qn * (qn * qn) := by ring
  rw [hqq] at hp
  have h4 : 4 ≤ qn * qn := Nat.mul_le_mul h2 h2
  rcases Nat.prime_mul_iff.mp hp with ⟨_, h1⟩ | ⟨_, h1⟩ <;> omega

theorem const_mapping_eq : CONSTANT_SIGNS.mapping = CONSTANT_SIGNS_MAPPING := by decide

/-- Everything the constant table maps to lies in `1..12`, and the inverse
direction recovers the sign. -/
theorem const_table {c : Char} {v : Int}
    (h : CONSTANT_SIGNS.mapping.lookup c = some v) :
    1 ≤ v ∧ v ≤ 12 ∧ CONSTANT_SIGNS.inverse.lookup v = some c := by
  have hm := lookup_mem h
  rw [const_mapping_eq] at hm
  simp [CONSTANT_SIGNS_MAPPING, Prod.ext_iff] at hm
  rcases hm with hcv | hcv | hcv | hcv | hcv | hcv | hcv | hcv | hcv | hcv | hcv | hcv <;>
    obtain ⟨rfl, rfl⟩ := hcv <;>
    exact ⟨by decide, by decide, by decide⟩

theorem const_inverse_none {v : Int} (hv : 12 < v) :
    CONSTANT_SIGNS.inverse.lookup v = none := by
  apply lookup_eq_none_iff.mpr
  intro hmem
  have hinv : CONSTANT_SIGNS.inverse.map Prod.fst =
      ([1, 2, 3, 4, 5, 6, 7, 8, 9, 10, 11, 12] : List Int) := by decide
  rw [hinv] at hmem
  simp at hmem
  omega

/-! ## Facts about generated variable names -/

theorem next_var_name_inj_of (pool : List Char) (hlen : pool.length = 3)
    (h01 : pool.getD 0 TICK ≠ pool.getD 1 TICK)
    (h02 : pool.getD 0 TICK ≠ pool.getD 2 TICK)
    (h12 : pool.getD 1 TICK ≠ pool.getD 2 TICK) :
    ∀ a b : Nat, next_var_name a pool = next_var_name b pool → a = b := by
  intro a b h
  simp only [next_var_name, hlen] at h
  injection h with h1 h2
  have h2' : a / 3 = b / 3 := by
    have := congrArg List.length h2
    simpa using this
  have ha : a % 3 = 0 ∨ a % 3 = 1 ∨ a % 3 = 2 := by omega
  have hb : b % 3 = 0 ∨ b % 3 = 1 ∨ b % 3 = 2 := by omega
  have h1' : a % 3 = b % 3 := by
    rcases ha with h0 | h0 | h0 <;> rcases hb with h0' | h0' | h0' <;>
      rw [h0, h0'] at h1 <;>
      first
        | omega
        | exact absurd h1 h01
        | exact absurd h1 h02
        | exact absurd h1 h12
        | exact absurd h1.symm h01
        | exact absurd h1.symm h02
        | exact absurd h1.symm h12
  omega

theorem numName_inj : ∀ a b : Nat, numName a = numName b → a = b :=
  next_var_name_inj_of NUMERICAL_VARIABLES rfl (by decide) (by decide) (by decide)

theorem sentName_inj : ∀ a b : Nat, sentName a = sentName b → a = b :=
  next_var_name_inj_of SENTNTIAL_VARIABLES rfl (by decide) (by decide) (by decide)

theorem predName_inj : ∀ a b : Nat, predName a = predName b → a = b :=
  next_var_name_inj_of PREDICATE_VARIABLES rfl (by decide) (by decide) (by decide)

theorem next_var_name_ne_of_pools (pool1 pool2 : List Char)
    (hl1 : pool1.length = 3) (hl2 : pool2.length = 3)
    (hdisj : ∀ i, i < 3 → ∀ j, j < 3 → pool1.getD i TICK ≠ pool2.getD j TICK) :
    ∀ a b : Nat, next_var_name a pool1 ≠ next_var_name b pool2 := by
  intro a b h
  simp only [next_var_name, hl1, hl2] at h
  injection h with h1 _
  exact hdisj _ (Nat.mod_lt _ (by omega)) _ (Nat.mod_lt _ (by omega)) h1

theorem sentName_ne_predName (a b : Nat) : sentName a ≠ predName b :=
  next_var_name_ne_of_pools SENTNTIAL_VARIABLES PREDICATE_VARIABLES rfl rfl (by decide) a b

theorem predName_ne_sentName (a b : Nat) : predName a ≠ sentName b :=
  next_var_name_ne_of_pools PREDICATE_VARIABLES SENTNTIAL_VARIABLES rfl rfl (by decide) a b

theorem getD_mem_of_lt {pool : List Char} {i : Nat} (h : i < pool.length) :
    pool.getD i TICK ∈ pool := by
  rw [List.getD_eq_getElem pool TICK h]
  exact List.getElem_mem h

theorem sent_shaped_ne_predName {lx : List Char}
    (h : IsVarLexeme SENTNTIAL_VARIABLES lx) : ∀ m : Nat, lx ≠ predName m := by
  obtain ⟨c, t, rfl, hc, _⟩ := h
  intro m he
  simp only [predName, next_var_name] at he
  injection he with h1 _
  have hmem : PREDICATE_VARIABLES.getD (m % PREDICATE_VARIABLES.length) TICK ∈
      PREDICATE_VARIABLES := getD_mem_of_lt (Nat.mod_lt _ (by decide))
  rw [← h1] at hmem
  simp [SENTNTIAL_VARIABLES] at hc
  simp [PREDICATE_VARIABLES] at hmem
  rcases hc with rfl | rfl | rfl <;> revert hmem <;> decide

theorem pred_shaped_ne_sentName {lx : List Char}
    (h : IsVarLexeme PREDICATE_VARIABLES lx) : ∀ m : Nat, lx ≠ sentName m := by
  obtain ⟨c, t, rfl, hc, _⟩ := h
  intro m he
  simp only [sentName, next_var_name] at he
  injection he with h1 _
  have hmem : SENTNTIAL_VARIABLES.getD (m % SENTNTIAL_VARIABLES.length) TICK ∈
      SENTNTIAL_VARIABLES := getD_mem_of_lt (Nat.mod_lt _ (by decide))
  rw [← h1] at hmem
  simp [PREDICATE_VARIABLES] at hc
  simp [SENTNTIAL_VARIABLES] at hmem
  rcases hc with rfl | rfl | rfl <;> revert hmem <;> decide

/-! ## Lookup characterizations of the session maps -/

theorem mixMapAux_length : ∀ (σ : List Bool) (k sm pm : Nat),
    (mixMapAux k sm pm σ).length = σ.length := by
  intro σ
  induction σ with
  | nil => intro k sm pm; rfl
  | cons b σ ih => intro k sm pm; cases b <;> simp [mixMapAux, ih]

theorem primeAt_pow_ne {a b : Nat} (hab : a < b) (hb : b < PRIME.length)
    (n : Nat) (hn : n ≠ 0) : primeAt a ^ n ≠ primeAt b ^ n := by
  have h1 := primeAt_lt_primeAt hab hb
  have h0 : 0 ≤ primeAt a := by have := primeAt_two_le (lt_trans hab hb); omega
  exact ne_of_lt (pow_lt_pow_left₀ h1 h0 hn)

theorem numMap_mem {nn : Nat} {e : List Char × Int} (h : e ∈ numMap nn) :
    ∃ m, m < nn ∧ e = (numName m, primeAt (PRIME_OFFSET + m)) := by
  simp only [numMap, List.mem_map, List.mem_range] at h
  obtain ⟨m, hm, he⟩ := h
  exact ⟨m, hm, he.symm⟩

theorem numMap_lookup_some {nn : Nat} {lx : List Char} {v : Int}
    (h : (numMap nn).lookup lx = some v) :
    ∃ m, m < nn ∧ lx = numName m ∧ v = primeAt (PRIME_OFFSET + m) := by
  obtain ⟨m, hm, he⟩ := numMap_mem (lookup_mem h)
  rw [Prod.mk.injEq] at he
  exact ⟨m, hm, he.1, he.2⟩

theorem numMap_lookup_name {nn m : Nat} (hm : m < nn) :
    (numMap nn).lookup (numName m) = some (primeAt (PRIME_OFFSET + m)) := by
  induction nn with
  | zero => omega
  | succ n ih =>
    rw [numMap_succ, lookup_append]
    rcases Nat.lt_or_ge m n with h | h
    · rw [ih h]
    · have hm' : m = n := by omega
      subst hm'
      have hnone : (numMap m).lookup (numName m) = none := by
        apply lookup_eq_none_iff.mpr
        intro hmem
        obtain ⟨e, hemem, hefst⟩ := List.mem_map.mp hmem
        obtain ⟨j, hj, rfl⟩ := numMap_mem hemem
        exact absurd (numName_inj j m hefst) (by omega)
      rw [hnone]
      simp [lookup_cons_eq]

theorem numSwap_lookup_code {nn m : Nat} (hm : m < nn)
    (hb : PRIME_OFFSET + nn ≤ PRIME.length) :
    ((numMap nn).map Prod.swap).lookup (primeAt (PRIME_OFFSET + m)) =
      some (numName m) := by
  induction nn with
  | zero => omega
  | succ n ih =>
    rw [numMap_succ, List.map_append, lookup_append]
    rcases Nat.lt_or_ge m n with h | h
    · rw [ih h (by omega)]
    · have hm' : m = n := by omega
      subst hm'
      have hnone : ((numMap m).map Prod.swap).lookup (primeAt (PRIME_OFFSET + m)) =
          none := by
        apply lookup_eq_none_iff.mpr
        intro hmem
        obtain ⟨e, hemem, hfe⟩ := List.mem_map.mp hmem
        obtain ⟨e', he'mem, rfl⟩ := List.mem_map.mp hemem
        obtain ⟨j, hj, rfl⟩ := numMap_mem he'mem
        have hfe' : primeAt (PRIME_OFFSET + j) = primeAt (PRIME_OFFSET + m) := hfe
        exact absurd hfe' (ne_of_lt (primeAt_lt_primeAt (by omega) (by omega)))
      rw [hnone]
      simp [Prod.swap, lookup_cons_eq]

theorem numSwap_lookup_fresh {nn : Nat} (hb : PRIME_OFFSET + nn < PRIME.length) :
    ((numMap nn).map Prod.swap).lookup (primeAt (PRIME_OFFSET + nn)) = none := by
  apply lookup_eq_none_iff.mpr
  intro hmem
  obtain ⟨e, hemem, hfe⟩ := List.mem_map.mp hmem
  obtain ⟨e', he'mem, rfl⟩ := List.mem_map.mp hemem
  obtain ⟨j, hj, rfl⟩ := numMap_mem he'mem
  have hfe' : primeAt (PRIME_OFFSET + j) = primeAt (PRIME_OFFSET + nn) := hfe
  exact absurd hfe' (ne_of_lt (primeAt_lt_primeAt (by omega) (by omega)))

theorem sentPart_mem : ∀ (σ : List Bool) (k sm : Nat) (e : List Char × Int),
    e ∈ sentPartAux k sm σ → ∃ m j, m < ctTrue σ ∧ j < σ.length ∧
      e = (sentName (sm + m), primeAt (PRIME_OFFSET + (k + j)) ^ 2) := by
  intro σ
  induction σ with
  | nil => intro k sm e h; exact absurd h (List.not_mem_nil e)
  | cons b σ ih =>
    intro k sm e h
    cases b
    · simp only [sentPartAux] at h
      obtain ⟨m, j, hm, hj, he⟩ := ih (k + 1) sm e h
      refine ⟨m, j + 1, ?_, by simp only [List.length_cons]; omega, ?_⟩
      · rw [ctTrue_cons_false]; exact hm
      · rw [he, show k + 1 + j = k + (j + 1) from by omega]
    · simp only [sentPartAux] at h
      rcases List.mem_cons.mp h with rfl | h'
      · exact ⟨0, 0, by rw [ctTrue_cons_true]; omega,
          by simp only [List.length_cons]; omega, by simp⟩
      · obtain ⟨m, j, hm, hj, he⟩ := ih (k + 1) (sm + 1) e h'
        refine ⟨m + 1, j + 1, by rw [ctTrue_cons_true]; omega,
          by simp only [List.length_cons]; omega, ?_⟩
        rw [he, show sm + 1 + m = sm + (m + 1) from by omega,
          show k + 1 + j = k + (j + 1) from by omega]

theorem sentPart_lookup_some {σ : List Bool} {k sm : Nat} {lx : List Char} {v : Int}
    (h : (sentPartAux k sm σ).lookup lx = some v) :
    ∃ m j, m < ctTrue σ ∧ j < σ.length ∧ lx = sentName (sm + m) ∧
      v = primeAt (PRIME_OFFSET + (k + j)) ^ 2 := by
  obtain ⟨m, j, hm, hj, he⟩ := sentPart_mem σ k sm _ (lookup_mem h)
  rw [Prod.mk.injEq] at he
  exact ⟨m, j, hm, hj, he.1, he.2⟩

theorem sentPart_lookup_name_none (σ : List Bool) (k sm : Nat) :
    (sentPartAux k sm σ).lookup (sentName (sm + ctTrue σ)) = none := by
  apply lookup_eq_none_iff.mpr
  intro hmem
  obtain ⟨e, hemem, hfe⟩ := List.mem_map.mp hmem
  obtain ⟨m, j, hm, hj, rfl⟩ := sentPart_mem σ k sm e hemem
  have := sentName_inj _ _ hfe
  omega

theorem sentSwap_lookup_fresh (σ : List Bool) (k sm : Nat)
    (hbnd : PRIME_OFFSET + (k + σ.length) < PRIME.length) :
    ((sentPartAux k sm σ).map Prod.swap).lookup
      (primeAt (PRIME_OFFSET + (k + σ.length)) ^ 2) = none := by
  apply lookup_eq_none_iff.mpr
  intro hmem
  obtain ⟨e, hemem, hfe⟩ := List.mem_map.mp hmem
  obtain ⟨e', he'mem, rfl⟩ := List.mem_map.mp hemem
  obtain ⟨m, j, hm, hj, rfl⟩ := sentPart_mem σ k sm e' he'mem
  exact absurd hfe (primeAt_pow_ne (by omega) (by omega) 2 (by omega))

theorem predPart_mem : ∀ (σ : List Bool) (k pm : Nat) (e : List Char × Int),
    e ∈ predPartAux k pm σ → ∃ m j, m < ctFalse σ ∧ j < σ.length ∧
      e = (predName (pm + m), primeAt (PRIME_OFFSET + (k + j)) ^ 3) := by
  intro σ
  induction σ with
  | nil => intro k pm e h; exact absurd h (List.not_mem_nil e)
  | cons b σ ih =>
    intro k pm e h
    cases b
    · simp only [predPartAux] at h
      rcases List.mem_cons.mp h with rfl | h'
      · exact ⟨0, 0, by rw [ctFalse_cons_false]; omega,
          by simp only [List.length_cons]; omega, by simp⟩
      · obtain ⟨m, j, hm, hj, he⟩ := ih (k + 1) (pm + 1) e h'
        refine ⟨m + 1, j + 1, by rw [ctFalse_cons_false]; omega,
          by simp only [List.length_cons]; omega, ?_⟩
        rw [he, show pm + 1 + m = pm + (m + 1) from by omega,
          show k + 1 + j = k + (j + 1) from by omega]
    · simp only [predPartAux] at h
      obtain ⟨m, j, hm, hj, he⟩ := ih (k + 1) pm e h
      refine ⟨m, j + 1, ?_, by simp only [List.length_cons]; omega, ?_⟩
      · rw [ctFalse_cons_true]; exact hm
      · rw [he, show k + 1 + j = k + (j + 1) from by omega]

theorem predPart_lookup_some {σ : List Bool} {k pm : Nat} {lx : List Char} {v : Int}
    (h : (predPartAux k pm σ).lookup lx = some v) :
    ∃ m j, m < ctFalse σ ∧ j < σ.length ∧ lx = predName (pm + m) ∧
      v = primeAt (PRIME_OFFSET + (k + j)) ^ 3 := by
  obtain ⟨m, j, hm, hj, he⟩ := predPart_mem σ k pm _ (lookup_mem h)
  rw [Prod.mk.injEq] at he
  exact ⟨m, j, hm, hj, he.1, he.2⟩

theorem predPart_lookup_name_none (σ : List Bool) (k pm : Nat) :
    (predPartAux k pm σ).lookup (predName (pm + ctFalse σ)) = none := by
  apply lookup_eq_none_iff.mpr
  intro hmem
  obtain ⟨e, hemem, hfe⟩ := List.mem_map.mp hmem
  obtain ⟨m, j, hm, hj, rfl⟩ := predPart_mem σ k pm e hemem
  have := predName_inj _ _ hfe
  omega

theorem predSwap_lookup_fresh (σ : List Bool) (k pm : Nat)
    (hbnd : PRIME_OFFSET + (k + σ.length) < PRIME.length) :
    ((predPartAux k pm σ).map Prod.swap).lookup
      (primeAt (PRIME_OFFSET + (k + σ.length)) ^ 3) = none := by
  apply lookup_eq_none_iff.mpr
  intro hmem
  obtain ⟨e, hemem, hfe⟩ := List.mem_map.mp hmem
  obtain ⟨e', he'mem, rfl⟩ := List.mem_map.mp hemem
  obtain ⟨m, j, hm, hj, rfl⟩ := predPart_mem σ k pm e' he'mem
  exact absurd hfe (primeAt_pow_ne (by omega) (by omega) 3 (by omega))

theorem sentPart_lookup_name : ∀ (σ : List Bool) (k sm m : Nat),
    m < ctTrue σ → PRIME_OFFSET + (k + σ.length) ≤ PRIME.length →
    ∃ j, j < σ.length ∧
      (sentPartAux k sm σ).lookup (sentName (sm + m)) =
        some (primeAt (PRIME_OFFSET + (k + j)) ^ 2) ∧
      ((sentPartAux k sm σ).map Prod.swap).lookup
        (primeAt (PRIME_OFFSET + (k + j)) ^ 2) = some (sentName (sm + m)) := by
  intro σ
  induction σ with
  | nil => intro k sm m hm _; simp [ctTrue] at hm
  | cons b σ ih =>
    intro k sm m hm hb
    have hb' : PRIME_OFFSET + (k + 1 + σ.length) ≤ PRIME.length := by
      simp only [List.length_cons] at hb; omega
    cases b
    · rw [ctTrue_cons_false] at hm
      obtain ⟨j, hj, h1, h2⟩ := ih (k + 1) sm m hm hb'
      refine ⟨j + 1, by simp only [List.length_cons]; omega, ?_, ?_⟩
      · simp only [sentPartAux]
        rw [show k + (j + 1) = k + 1 + j from by omega]
        exact h1
      · simp only [sentPartAux]
        rw [show k + (j + 1) = k + 1 + j from by omega]
        exact h2
    · rcases m with _ | m'
      · refine ⟨0, by simp only [List.length_cons]; omega, ?_, ?_⟩
        · simp only [sentPartAux, Nat.add_zero]
          rw [lookup_cons_eq, if_pos (by simp)]
        · simp only [sentPartAux, Nat.add_zero, List.map_cons, Prod.swap_prod_mk]
          rw [lookup_cons_eq, if_pos (by simp)]
      · rw [ctTrue_cons_true] at hm
        obtain ⟨j, hj, h1, h2⟩ := ih (k + 1) (sm + 1) m' (by omega) hb'
        refine ⟨j + 1, by simp only [List.length_cons]; omega, ?_, ?_⟩
        · simp only [sentPartAux]
          have hne : ¬((sentName (sm + (m' + 1)) == sentName sm) = true) := by
            intro hcl
            have := sentName_inj _ _ (eq_of_beq hcl)
            omega
          rw [lookup_cons_eq, if_neg hne,
            show sm + (m' + 1) = sm + 1 + m' from by omega,
            show k + (j + 1) = k + 1 + j from by omega]
          exact h1
        · simp only [sentPartAux, List.map_cons, Prod.swap_prod_mk]
          have hne : ¬((primeAt (PRIME_OFFSET + (k + (j + 1))) ^ 2 ==
              primeAt (PRIME_OFFSET + k) ^ 2) = true) := by
            intro hcl
            exact absurd (eq_of_beq hcl).symm
              (primeAt_pow_ne (by omega) (by omega) 2 (by omega))
          rw [lookup_cons_eq, if_neg hne,
            show sm + (m' + 1) = sm + 1 + m' from by omega,
            show k + (j + 1) = k + 1 + j from by omega]
          exact h2

theorem predPart_lookup_name : ∀ (σ : List Bool) (k pm m : Nat),
    m < ctFalse σ → PRIME_OFFSET + (k + σ.length) ≤ PRIME.length →
    ∃ j, j < σ.length ∧
      (predPartAux k pm σ).lookup (predName (pm + m)) =
        some (primeAt (PRIME_OFFSET + (k + j)) ^ 3) ∧
      ((predPartAux k pm σ).map Prod.swap).lookup
        (primeAt (PRIME_OFFSET + (k + j)) ^ 3) = some (predName (pm + m)) := by
  intro σ
  induction σ with
  | nil => intro k pm m hm _; simp [ctFalse] at hm
  | cons b σ ih =>
    intro k pm m hm hb
    have hb' : PRIME_OFFSET + (k + 1 + σ.length) ≤ PRIME.length := by
      simp only [List.length_cons] at hb; omega
    cases b
    · rcases m with _ | m'
      · refine ⟨0, by simp only [List.length_cons]; omega, ?_, ?_⟩
        · simp only [predPartAux, Nat.add_zero]
          rw [lookup_cons_eq, if_pos (by simp)]
        · simp only [predPartAux, Nat.add_zero, List.map_cons, Prod.swap_prod_mk]
          rw [lookup_cons_eq, if_pos (by simp)]
      · rw [ctFalse_cons_false] at hm
        obtain ⟨j, hj, h1, h2⟩ := ih (k + 1) (pm + 1) m' (by omega) hb'
        refine ⟨j + 1, by simp only [List.length_cons]; omega, ?_, ?_⟩
        · simp only [predPartAux]
          have hne : ¬((predName (pm + (m' + 1)) == predName pm) = true) := by
            intro hcl
            have := predName_inj _ _ (eq_of_beq hcl)
            omega
          rw [lookup_cons_eq, if_neg hne,
            show pm + (m' + 1) = pm + 1 + m' from by omega,
            show k + (j + 1) = k + 1 + j from by omega]
          exact h1
        · simp only [predPartAux, List.map_cons, Prod.swap_prod_mk]
          have hne : ¬((primeAt (PRIME_OFFSET + (k + (j + 1))) ^ 3 ==
              primeAt (PRIME_OFFSET + k) ^ 3) = true) := by
            intro hcl
            exact absurd (eq_of_beq hcl).symm
              (primeAt_pow_ne (by omega) (by omega) 3 (by omega))
          rw [lookup_cons_eq, if_neg hne,
            show pm + (m' + 1) = pm + 1 + m' from by omega,
            show k + (j + 1) = k + 1 + j from by omega]
          exact h2
    · rw [ctFalse_cons_true] at hm
      obtain ⟨j, hj, h1, h2⟩ := ih (k + 1) pm m hm hb'
      refine ⟨j + 1, by simp only [List.length_cons]; omega, ?_, ?_⟩
      · simp only [predPartAux]
        rw [show k + (j + 1) = k + 1 + j from by omega]
        exact h1
      · simp only [predPartAux]
        rw [show k + (j + 1) = k + 1 + j from by omega]
        exact h2

theorem mix_lookup_sent : ∀ (σ : List Bool) (k sm pm : Nat) (lx : List Char),
    (∀ m, lx ≠ predName m) →
    (mixMapAux k sm pm σ).lookup lx = (sentPartAux k sm σ).lookup lx := by
  intro σ
  induction σ with
  | nil => intro k sm pm lx _; rfl
  | cons b σ ih =>
    intro k sm pm lx hsh
    cases b
    · simp only [mixMapAux, sentPartAux]
      have hne : ¬((lx == predName pm) = true) := fun hcl => hsh pm (eq_of_beq hcl)
      rw [lookup_cons_eq, if_neg hne]
      exact ih (k + 1) sm (pm + 1) lx hsh
    · simp only [mixMapAux, sentPartAux]
      rw [lookup_cons_eq, lookup_cons_eq]
      rcases hbe : lx == sentName sm with _ | _
      · rw [if_neg (by simp [hbe]), if_neg (by simp [hbe])]
        exact ih (k + 1) (sm + 1) pm lx hsh
      · rfl

theorem mix_lookup_pred : ∀ (σ : List Bool) (k sm pm : Nat) (lx : List Char),
    (∀ m, lx ≠ sentName m) →
    (mixMapAux k sm pm σ).lookup lx = (predPartAux k pm σ).lookup lx := by
  intro σ
  induction σ with
  | nil => intro k sm pm lx _; rfl
  | cons b σ ih =>
    intro k sm pm lx hsh
    cases b
    · simp only [mixMapAux, predPartAux]
      rw [lookup_cons_eq, lookup_cons_eq]
      rcases hbe : lx == predName pm with _ | _
      · rw [if_neg (by simp [hbe]), if_neg (by simp [hbe])]
        exact ih (k + 1) sm (pm + 1) lx hsh
      · rfl
    · simp only [mixMapAux, predPartAux]
      have hne : ¬((lx == sentName sm) = true) := fun hcl => hsh sm (eq_of_beq hcl)
      rw [lookup_cons_eq, if_neg hne]
      exact ih (k + 1) (sm + 1) pm lx hsh

/-! ## The canonical-order hypothesis of the round-trip claims -/

/-- The distinct elements of a list in order of first occurrence (after the
already-interned prefix `seen`). -/
def firstOccsAux {α : Type} [DecidableEq α] (seen : List α) : List α → List α
  | [] => []
  | a :: l => if a ∈ seen then firstOccsAux seen l else a :: firstOccsAux (seen ++ [a]) l

def firstOccs {α : Type} [DecidableEq α] (l : List α) : List α := firstOccsAux [] l

/-- The lexemes of the tokens of class `ty`, in order. -/
def classLexemes (ty : TokenType) (ts : List Token) : List (List Char) :=
  (ts.filter fun t => decide (t.1 = ty)).map Prod.snd

/-- Mid-scan canonical-order condition: with the distinct lexemes `seen`
already interned, each later distinct lexeme of class `ty` is the next
generated name from `pool`. -/
def CanonicalFrom (pool : List Char) (ty : TokenType) (seen : List (List Char))
    (ts : List Token) : Prop :=
  ∀ k lx, (firstOccsAux seen (classLexemes ty ts)).get? k = some lx →
    lx = next_var_name (seen.length + k) pool

/-- The canonical-order condition of the round-trip claims: within class `ty`,
the `k`-th distinct lexeme (in order of first occurrence) is the `k`-th name
the decoder would generate from `pool`. -/
def CanonicalFor (pool : List Char) (ty : TokenType) (ts : List Token) : Prop :=
  ∀ k lx, (firstOccs (classLexemes ty ts)).get? k = some lx →
    lx = next_var_name k pool

theorem canonicalFrom_of_canonicalFor {pool : List Char} {ty : TokenType}
    {ts : List Token} (h : CanonicalFor pool ty ts) :
    CanonicalFrom pool ty [] ts := by
  intro k lx hk
  simp only [List.length_nil, Nat.zero_add]
  exact h k lx hk

theorem classLexemes_cons_eq {ty : TokenType} {lx : List Char} (ts : List Token) :
    classLexemes ty ((ty, lx) :: ts) = lx :: classLexemes ty ts := by
  simp [classLexemes, List.filter_cons]

theorem classLexemes_cons_ne {ty : TokenType} {t : Token} (ts : List Token)
    (h : t.1 ≠ ty) : classLexemes ty (t :: ts) = classLexemes ty ts := by
  simp [classLexemes, List.filter_cons, h]

theorem canonicalFrom_skip {pool : List Char} {ty : TokenType}
    {seen : List (List Char)} {t : Token} {ts : List Token}
    (h : CanonicalFrom pool ty seen (t :: ts)) (hne : t.1 ≠ ty) :
    CanonicalFrom pool ty seen ts := by
  intro k lx hk
  apply h k lx
  rwa [classLexemes_cons_ne ts hne]

theorem canonicalFrom_cached {pool : List Char} {ty : TokenType}
    {seen : List (List Char)} {lx : List Char} {ts : List Token}
    (h : CanonicalFrom pool ty seen ((ty, lx) :: ts)) (hmem : lx ∈ seen) :
    CanonicalFrom pool ty seen ts := by
  intro k lx' hk
  apply h k lx'
  rw [classLexemes_cons_eq ts]
  simp only [firstOccsAux]
  rw [if_pos hmem]
  exact hk

theorem canonicalFrom_fresh {pool : List Char} {ty : TokenType}
    {seen : List (List Char)} {lx : List Char} {ts : List Token}
    (h : CanonicalFrom pool ty seen ((ty, lx) :: ts)) (hmem : lx ∉ seen) :
    lx = next_var_name seen.length pool ∧
      CanonicalFrom pool ty (seen ++ [lx]) ts := by
  constructor
  · have h0 : (firstOccsAux seen (classLexemes ty ((ty, lx) :: ts))).get? 0 =
        some lx := by
      rw [classLexemes_cons_eq ts]
      simp only [firstOccsAux]
      rw [if_neg hmem]
      rfl
    have := h 0 lx h0
    simpa using this
  · intro k lx' hk
    have hk' : (firstOccsAux seen (classLexemes ty ((ty, lx) :: ts))).get? (k + 1) =
        some lx' := by
      rw [classLexemes_cons_eq ts]
      simp only [firstOccsAux]
      rw [if_neg hmem]
      exact hk
    have hres := h (k + 1) lx' hk'
    have harith : (seen ++ [lx]).length + k = seen.length + (k + 1) := by
      simp only [List.length_append, List.length_singleton]
      omega
    rw [harith]
    exact hres

/-! ## Step lemmas for the encode and decode loops -/

theorem encodeTokenW_constant {PR : List Int} {off : Nat} {st : State} {c : Char}
    {v : Int} (h : CONSTANT_SIGNS.mapping.lookup c = some v) :
    encodeTokenW PR off st (.constant, [c]) = .ok (v, st) := by
  simp only [encodeTokenW, State.encode_constant_sign, h]

theorem encodeTokenW_numerical {PR : List Int} {off : Nat} {st : State}
    {lx : List Char} {r : Int × State}
    (h : State.encode_numerical_variableW PR off st lx = some r) :
    encodeTokenW PR off st (.numerical, lx) = .ok r := by
  simp only [encodeTokenW, h]

theorem encodeTokenW_sentntial {PR : List Int} {off : Nat} {st : State}
    {lx : List Char} {r : Int × State}
    (h : State.encode_sentntial_variableW PR off st lx = some r) :
    encodeTokenW PR off st (.sentntial, lx) = .ok r := by
  simp only [encodeTokenW, h]

theorem encodeTokenW_predicate {PR : List Int} {off : Nat} {st : State}
    {lx : List Char} {r : Int × State}
    (h : State.encode_predicate_variableW PR off st lx = some r) :
    encodeTokenW PR off st (.predicate, lx) = .ok r := by
  simp only [encodeTokenW, h]

theorem encodeLoopW_cons_ok {PR : List Int} {off : Nat} {st st' : State}
    {t : Token} {gnum : Int} {ts : List Token}
    (h : encodeTokenW PR off st t = .ok (gnum, st')) :
    encodeLoopW PR off st (t :: ts) =
      encodeLoopW PR off { st' with encoding := st'.encoding ++ [gnum] } ts := by
  simp only [encodeLoopW, h]
  rfl

theorem encode_numW_cached {PR : List Int} {off : Nat} {st : State}
    {lx : List Char} {v : Int} (h : st.numerical_variables.lookup lx = some v) :
    State.encode_numerical_variableW PR off st lx = some (v, st) := by
  simp only [State.encode_numerical_variableW, h]

theorem encode_numW_fresh {PR : List Int} {off : Nat} {st : State}
    {lx : List Char} {p : Int} (h : st.numerical_variables.lookup lx = none)
    (hp : PR.get? (off + st.numerical_variables.length) = some p) :
    State.encode_numerical_variableW PR off st lx =
      some (p, { st with numerical_variables :=
        st.numerical_variables ++ [(lx, p)] }) := by
  simp only [State.encode_numerical_variableW, h, hp, Option.map_some']

theorem encode_sentW_cached {PR : List Int} {off : Nat} {st : State}
    {lx : List Char} {v : Int} (h : st.sentntial_variables.lookup lx = some v) :
    State.encode_sentntial_variableW PR off st lx = some (v, st) := by
  simp only [State.encode_sentntial_variableW, h]

theorem encode_sentW_fresh {PR : List Int} {off : Nat} {st : State}
    {lx : List Char} {p : Int} (h : st.sentntial_variables.lookup lx = none)
    (hp : PR.get? (off + st.sentntial_variables.length) = some p) :
    State.encode_sentntial_variableW PR off st lx =
      some (p ^ 2, { st with sentntial_variables :=
        st.sentntial_variables ++ [(lx, p ^ 2)] }) := by
  simp only [State.encode_sentntial_variableW, h, hp, Option.map_some']

theorem encode_predW_cached {PR : List Int} {off : Nat} {st : State}
    {lx : List Char} {v : Int} (h : st.sentntial_variables.lookup lx = some v) :
    State.encode_predicate_variableW PR off st lx = some (v, st) := by
  simp only [State.encode_predicate_variableW, h]

theorem encode_predW_fresh {PR : List Int} {off : Nat} {st : State}
    {lx : List Char} {p : Int} (h : st.sentntial_variables.lookup lx = none)
    (hp : PR.get? (off + st.sentntial_variables.length) = some p) :
    State.encode_predicate_variableW PR off st lx =
      some (p ^ 3, { st with sentntial_variables :=
        st.sentntial_variables ++ [(lx, p ^ 3)] }) := by
  simp only [State.encode_predicate_variableW, h, hp, Option.map_some']

theorem decode_num_cached {st : DecodeState} {g : Int} {sym : List Char}
    (h : st.numerical_variables.lookup g = some sym) :
    st.decode_numerical_variable g = (sym, st) := by
  simp only [DecodeState.decode_numerical_variable, h]

theorem decode_num_fresh {st : DecodeState} {g : Int}
    (h : st.numerical_variables.lookup g = none) :
    st.decode_numerical_variable g =
      (next_var_name st.numerical_variables.length NUMERICAL_VARIABLES,
        { st with numerical_variables := st.numerical_variables ++
          [(g, next_var_name st.numerical_variables.length NUMERICAL_VARIABLES)] }) := by
  simp only [DecodeState.decode_numerical_variable, h]

theorem decode_sent_cached {st : DecodeState} {g : Int} {sym : List Char}
    (h : st.sentntial_variables.lookup g = some sym) :
    st.decode_sentential_variable g = (sym, st) := by
  simp only [DecodeState.decode_sentential_variable, h]

theorem decode_sent_fresh {st : DecodeState} {g : Int}
    (h : st.sentntial_variables.lookup g = none) :
    st.decode_sentential_variable g =
      (next_var_name st.sentntial_variables.length SENTNTIAL_VARIABLES,
        { st with sentntial_variables := st.sentntial_variables ++
          [(g, next_var_name st.sentntial_variables.length SENTNTIAL_VARIABLES)] }) := by
  simp only [DecodeState.decode_sentential_variable, h]

theorem decode_pred_cached {st : DecodeState} {g : Int} {sym : List Char}
    (h : st.predicate_variables.lookup g = some sym) :
    st.decode_predicate_variable g = (sym, st) := by
  simp only [DecodeState.decode_predicate_variable, h]

theorem decode_pred_fresh {st : DecodeState} {g : Int}
    (h : st.predicate_variables.lookup g = none) :
    st.decode_predicate_variable g =
      (next_var_name st.predicate_variables.length PREDICATE_VARIABLES,
        { st with predicate_variables := st.predicate_variables ++
          [(g, next_var_name st.predicate_variables.length PREDICATE_VARIABLES)] }) := by
  simp only [DecodeState.decode_predicate_variable, h]

theorem decodeLoopW_cons_const {PR : List Int} {st : DecodeState} {i : Nat}
    {f gnum : Int} {rest : List (Int × Int)} {symbol : Char}
    (hp : PR.get? i = some f)
    (hinv : CONSTANT_SIGNS.inverse.lookup gnum = some symbol) :
    decodeLoopW PR st i ((f, gnum) :: rest) =
      (decodeLoopW PR st (i + 1) rest).map (fun syms => [symbol] :: syms) := by
  simp only [decodeLoopW, hp, hinv]
  rw [if_neg (fun hc => hc rfl)]

theorem decodeLoopW_cons_numerical {PR : List Int} {st st' : DecodeState} {i : Nat}
    {f gnum : Int} {rest : List (Int × Int)} {symbol : List Char}
    (hp : PR.get? i = some f)
    (hinv : CONSTANT_SIGNS.inverse.lookup gnum = none)
    (hcont : PR.contains gnum = true)
    (hds : st.decode_numerical_variable gnum = (symbol, st')) :
    decodeLoopW PR st i ((f, gnum) :: rest) =
      (decodeLoopW PR st' (i + 1) rest).map (fun syms => symbol :: syms) := by
  simp only [decodeLoopW, hp, hinv, hds]
  rw [if_neg (fun hc => hc rfl), if_pos hcont]

theorem decodeLoopW_cons_sentential {PR : List Int} {st st' : DecodeState} {i : Nat}
    {f gnum : Int} {rest : List (Int × Int)} {symbol : List Char}
    (hp : PR.get? i = some f)
    (hinv : CONSTANT_SIGNS.inverse.lookup gnum = none)
    (hcont : PR.contains gnum = false)
    (hded : (factor gnum).dedup.length = 1)
    (hlen2 : (factor gnum).length = 2)
    (hhead : PR.contains ((factor gnum).headD 0) = true)
    (hds : st.decode_sentential_variable gnum = (symbol, st')) :
    decodeLoopW PR st i ((f, gnum) :: rest) =
      (decodeLoopW PR st' (i + 1) rest).map (fun syms => symbol :: syms) := by
  simp only [decodeLoopW, hp, hinv, hds]
  rw [if_neg (fun hc => hc rfl), if_neg (by rw [hcont]; simp),
    if_neg (by simp [hded]), if_pos ⟨hlen2, hhead⟩]

theorem decodeLoopW_cons_predicate {PR : List Int} {st st' : DecodeState} {i : Nat}
    {f gnum : Int} {rest : List (Int × Int)} {symbol : List Char}
    (hp : PR.get? i = some f)
    (hinv : CONSTANT_SIGNS.inverse.lookup gnum = none)
    (hcont : PR.contains gnum = false)
    (hded : (factor gnum).dedup.length = 1)
    (hlen3 : (factor gnum).length = 3)
    (hhead : PR.contains ((factor gnum).headD 0) = true)
    (hds : st.decode_predicate_variable gnum = (symbol, st')) :
    decodeLoopW PR st i ((f, gnum) :: rest) =
      (decodeLoopW PR st' (i + 1) rest).map (fun syms => symbol :: syms) := by
  simp only [decodeLoopW, hp, hinv, hds]
  rw [if_neg (fun hc => hc rfl), if_neg (by rw [hcont]; simp),
    if_neg (by simp [hded]), if_neg (by simp [hlen3]), if_pos ⟨hlen3, hhead⟩]

theorem encodeLoopW_cons_ok' {PR : List Int} {off : Nat} {e : List Int}
    {nv sv pv nv' sv' pv' : List (List Char × Int)} {t : Token} {gnum : Int}
    {ts : List Token}
    (h : encodeTokenW PR off ⟨e, nv, sv, pv⟩ t = .ok (gnum, ⟨e, nv', sv', pv'⟩)) :
    encodeLoopW PR off ⟨e, nv, sv, pv⟩ (t :: ts) =
      encodeLoopW PR off ⟨e ++ [gnum], nv', sv', pv'⟩ ts := by
  simp only [encodeLoopW, h]
  rfl

theorem encode_numW_fresh' {PR : List Int} {off : Nat} {e : List Int}
    {nv sv pv : List (List Char × Int)} {lx : List Char} {p : Int}
    (h : nv.lookup lx = none) (hp : PR.get? (off + nv.length) = some p) :
    State.encode_numerical_variableW PR off ⟨e, nv, sv, pv⟩ lx =
      some (p, ⟨e, nv ++ [(lx, p)], sv, pv⟩) := by
  simp only [State.encode_numerical_variableW, h, hp, Option.map_some']

theorem encode_numW_cached' {PR : List Int} {off : Nat} {e : List Int}
    {nv sv pv : List (List Char × Int)} {lx : List Char} {v : Int}
    (h : nv.lookup lx = some v) :
    State.encode_numerical_variableW PR off ⟨e, nv, sv, pv⟩ lx =
      some (v, ⟨e, nv, sv, pv⟩) := by
  simp only [State.encode_numerical_variableW, h]

theorem encode_sentW_fresh' {PR : List Int} {off : Nat} {e : List Int}
    {nv sv pv : List (List Char × Int)} {lx : List Char} {p : Int}
    (h : sv.lookup lx = none) (hp : PR.get? (off + sv.length) = some p) :
    State.encode_sentntial_variableW PR off ⟨e, nv, sv, pv⟩ lx =
      some (p ^ 2, ⟨e, nv, sv ++ [(lx, p ^ 2)], pv⟩) := by
  simp only [State.encode_sentntial_variableW, h, hp, Option.map_some']

theorem encode_sentW_cached' {PR : List Int} {off : Nat} {e : List Int}
    {nv sv pv : List (List Char × Int)} {lx : List Char} {v : Int}
    (h : sv.lookup lx = some v) :
    State.encode_sentntial_variableW PR off ⟨e, nv, sv, pv⟩ lx =
      some (v, ⟨e, nv, sv, pv⟩) := by
  simp only [State.encode_sentntial_variableW, h]

theorem encode_predW_fresh' {PR : List Int} {off : Nat} {e : List Int}
    {nv sv pv : List (List Char × Int)} {lx : List Char} {p : Int}
    (h : sv.lookup lx = none) (hp : PR.get? (off + sv.length) = some p) :
    State.encode_predicate_variableW PR off ⟨e, nv, sv, pv⟩ lx =
      some (p ^ 3, ⟨e, nv, sv ++ [(lx, p ^ 3)], pv⟩) := by
  simp only [State.encode_predicate_variableW, h, hp, Option.map_some']

theorem encode_predW_cached' {PR : List Int} {off : Nat} {e : List Int}
    {nv sv pv : List (List Char × Int)} {lx : List Char} {v : Int}
    (h : sv.lookup lx = some v) :
    State.encode_predicate_variableW PR off ⟨e, nv, sv, pv⟩ lx =
      some (v, ⟨e, nv, sv, pv⟩) := by
  simp only [State.encode_predicate_variableW, h]

theorem decode_num_fresh' {nv sv pv : List (Int × List Char)} {g : Int}
    (h : nv.lookup g = none) :
    DecodeState.decode_numerical_variable ⟨nv, sv, pv⟩ g =
      (next_var_name nv.length NUMERICAL_VARIABLES,
        ⟨nv ++ [(g, next_var_name nv.length NUMERICAL_VARIABLES)], sv, pv⟩) := by
  simp only [DecodeState.decode_numerical_variable, h]

theorem decode_num_cached' {nv sv pv : List (Int × List Char)} {g : Int}
    {sym : List Char} (h : nv.lookup g = some sym) :
    DecodeState.decode_numerical_variable ⟨nv, sv, pv⟩ g = (sym, ⟨nv, sv, pv⟩) := by
  simp only [DecodeState.decode_numerical_variable, h]

theorem decode_sent_fresh' {nv sv pv : List (Int × List Char)} {g : Int}
    (h : sv.lookup g = none) :
    DecodeState.decode_sentential_variable ⟨nv, sv, pv⟩ g =
      (next_var_name sv.length SENTNTIAL_VARIABLES,
        ⟨nv, sv ++ [(g, next_var_name sv.length SENTNTIAL_VARIABLES)], pv⟩) := by
  simp only [DecodeState.decode_sentential_variable, h]

theorem decode_sent_cached' {nv sv pv : List (Int × List Char)} {g : Int}
    {sym : List Char} (h : sv.lookup g = some sym) :
    DecodeState.decode_sentential_variable ⟨nv, sv, pv⟩ g = (sym, ⟨nv, sv, pv⟩) := by
  simp only [DecodeState.decode_sentential_variable, h]

theorem decode_pred_fresh' {nv sv pv : List (Int × List Char)} {g : Int}
    (h : pv.lookup g = none) :
    DecodeState.decode_predicate_variable ⟨nv, sv, pv⟩ g =
      (next_var_name pv.length PREDICATE_VARIABLES,
        ⟨nv, sv, pv ++ [(g, next_var_name pv.length PREDICATE_VARIABLES)]⟩) := by
  simp only [DecodeState.decode_predicate_variable, h]

theorem decode_pred_cached' {nv sv pv : List (Int × List Char)} {g : Int}
    {sym : List Char} (h : pv.lookup g = some sym) :
    DecodeState.decode_predicate_variable ⟨nv, sv, pv⟩ g = (sym, ⟨nv, sv, pv⟩) := by
  simp only [DecodeState.decode_predicate_variable, h]

theorem dedup_pair (a : Int) : ([a, a] : List Int).dedup = [a] := by
  rw [List.dedup_cons_of_mem (by simp)]
  simp [List.dedup]

theorem dedup_triple (a : Int) : ([a, a, a] : List Int).dedup = [a] := by
  rw [List.dedup_cons_of_mem (by simp), dedup_pair]

/-- `factor` of the square of a prime. -/
theorem factor_prime_sq {qn : Nat} (hq : Nat.Prime qn) :
    factor ((qn : Int) ^ 2) = [(qn : Int), (qn : Int)] := by
  have h2 : (2 : Int) ≤ (qn : Int) ^ 2 := by
    have := hq.two_le
    have h1 : (2 : Int) ≤ (qn : Int) := by exact_mod_cast this
    have := mul_le_mul h1 h1 (by omega) (by omega)
    rw [pow_two]
    omega
  rw [factor_spec _ h2]
  have htn : ((qn : Int) ^ 2).toNat = qn ^ 2 := by
    rw [show ((qn : Int) ^ 2) = ((qn ^ 2 : Nat) : Int) from by push_cast; ring]
    exact Int.toNat_natCast _
  rw [htn, hq.primeFactorsList_pow]
  rfl

/-- `factor` of the cube of a prime. -/
theorem factor_prime_cube {qn : Nat} (hq : Nat.Prime qn) :
    factor ((qn : Int) ^ 3) = [(qn : Int), (qn : Int), (qn : Int)] := by
  have h1 : (2 : Int) ≤ (qn : Int) := by exact_mod_cast hq.two_le
  have h2 : (2 : Int) ≤ (qn : Int) ^ 3 := by
    have h4 := mul_le_mul h1 h1 (by omega) (by omega)
    have h8 := mul_le_mul h4 h1 (by omega) (by omega)
    rw [show ((qn : Int) ^ 3) = (qn : Int) * (qn : Int) * (qn : Int) from by ring]
    omega
  rw [factor_spec _ h2]
  have htn : ((qn : Int) ^ 3).toNat = qn ^ 3 := by
    rw [show ((qn : Int) ^ 3) = ((qn ^ 3 : Nat) : Int) from by push_cast; ring]
    exact Int.toNat_natCast _
  rw [htn, hq.primeFactorsList_pow]
  rfl

theorem mixMap_append_true (σ : List Bool) :
    mixMap (σ ++ [true]) = mixMap σ ++
      [(sentName (ctTrue σ), primeAt (PRIME_OFFSET + σ.length) ^ 2)] := by
  rw [show mixMap (σ ++ [true]) = mixMapAux 0 0 0 (σ ++ [true]) from rfl,
    mixMapAux_append_true,
    show (0 : Nat) + ctTrue σ = ctTrue σ from by omega,
    show PRIME_OFFSET + 0 + σ.length = PRIME_OFFSET + σ.length from by omega]
  rfl

theorem mixMap_append_false (σ : List Bool) :
    mixMap (σ ++ [false]) = mixMap σ ++
      [(predName (ctFalse σ), primeAt (PRIME_OFFSET + σ.length) ^ 3)] := by
  rw [show mixMap (σ ++ [false]) = mixMapAux 0 0 0 (σ ++ [false]) from rfl,
    mixMapAux_append_false,
    show (0 : Nat) + ctFalse σ = ctFalse σ from by omega,
    show PRIME_OFFSET + 0 + σ.length = PRIME_OFFSET + σ.length from by omega]
  rfl

/-- The joint induction behind the round-trip claims: starting from matching
encoder and decoder states (`nn` distinct numerical lexemes, tag list `σ` for
the shared sentential/predicate map), a well-formed token list whose variables
appear in canonical order encodes to one positive code per token, and decoding
those codes at the matching prime positions recovers exactly the lexemes. -/

theorem roundtrip_loop : ∀ (ts : List Token) (nn : Nat) (σ : List Bool)
    (enc : List Int) (i : Nat),
    (∀ t ∈ ts, TokenWF t) →
    PRIME_OFFSET + nn + ts.length ≤ PRIME.length →
    PRIME_OFFSET + σ.length + ts.length ≤ PRIME.length →
    i + ts.length ≤ PRIME.length →
    CanonicalFrom NUMERICAL_VARIABLES .numerical ((numMap nn).map Prod.fst) ts →
    CanonicalFrom SENTNTIAL_VARIABLES .sentntial ((sentPartAux 0 0 σ).map Prod.fst) ts →
    CanonicalFrom PREDICATE_VARIABLES .predicate ((predPartAux 0 0 σ).map Prod.fst) ts →
    ∃ (codes : List Int) (nn' : Nat) (σ' : List Bool),
      codes.length = ts.length ∧
      (∀ c ∈ codes, 1 ≤ c) ∧
      encodeLoopW PRIME PRIME_OFFSET ⟨enc, numMap nn, mixMap σ, []⟩ ts =
        .ok ⟨enc ++ codes, numMap nn', mixMap σ', []⟩ ∧
      decodeLoopW PRIME
        ⟨(numMap nn).map Prod.swap, (sentPartAux 0 0 σ).map Prod.swap,
          (predPartAux 0 0 σ).map Prod.swap⟩ i
        ((List.enumFrom i codes).map fun jc => (primeAt jc.1, jc.2)) =
        .ok (ts.map Prod.snd) := by
  intro ts
  induction ts with
  | nil =>
    intro nn σ enc i _ _ _ _ _ _ _
    exact ⟨[], nn, σ, rfl, by simp, by simp [encodeLoopW], rfl⟩
  | cons t ts ih =>
    intro nn σ enc i hwf hb1 hb2 hbi hcn hcs hcp
    obtain ⟨ty, lx⟩ := t
    have hwft := hwf (ty, lx) (List.mem_cons_self _ _)
    have hwfr : ∀ u ∈ ts, TokenWF u := fun u hu => hwf u (List.mem_cons_of_mem _ hu)
    simp only [List.length_cons] at hb1 hb2 hbi
    have hiP : i < PRIME.length := by omega
    have hgetI : PRIME.get? i = some (primeAt i) := PRIME_get?_eq hiP
    cases ty with
    | constant =>
      obtain ⟨c, rfl, hconst⟩ := hwft
      have hsome : ∃ v, CONSTANT_SIGNS.mapping.lookup c = some v := by
        rw [isConstantSign] at hconst
        exact Option.isSome_iff_exists.mp hconst
      obtain ⟨v, hv⟩ := hsome
      obtain ⟨hv1, hv12, hvinv⟩ := const_table hv
      obtain ⟨codes, nn', σ', hclen, hcpos, hencIH, hdecIH⟩ :=
        ih nn σ (enc ++ [v]) (i + 1) hwfr (by omega) (by omega) (by omega)
          (canonicalFrom_skip hcn (fun h => TokenType.noConfusion h))
          (canonicalFrom_skip hcs (fun h => TokenType.noConfusion h))
          (canonicalFrom_skip hcp (fun h => TokenType.noConfusion h))
      refine ⟨v :: codes, nn', σ', by simp [hclen], ?_, ?_, ?_⟩
      · intro cc hcc
        rcases List.mem_cons.mp hcc with rfl | hcc'
        · exact hv1
        · exact hcpos cc hcc'
      · rw [encodeLoopW_cons_ok' (encodeTokenW_constant hv),
          show enc ++ v :: codes = (enc ++ [v]) ++ codes from by simp]
        exact hencIH
      · simp only [List.enumFrom, List.map_cons]
        rw [decodeLoopW_cons_const hgetI hvinv, hdecIH]
        rfl
    | numerical =>
      rcases hlk : (numMap nn).lookup lx with _ | v
      · -- fresh numerical variable
        have hnotmem : lx ∉ (numMap nn).map Prod.fst := lookup_eq_none_iff.mp hlk
        obtain ⟨hlx, hcn'⟩ := canonicalFrom_fresh hcn hnotmem
        have hseenlen : ((numMap nn).map Prod.fst).length = nn := by
          rw [List.length_map, numMap_length]
        rw [hseenlen] at hlx
        have hp : PRIME.get? (PRIME_OFFSET + (numMap nn).length) =
            some (primeAt (PRIME_OFFSET + nn)) := by
          rw [numMap_length]
          exact PRIME_get?_eq (by omega)
        have hp13 : 13 ≤ primeAt (PRIME_OFFSET + nn) := by
          apply primeAt_ge_13 _ (by omega)
          rw [PRIME_OFFSET_eq]
          omega
        -- canonical conditions for the tail
        have hcnNext : CanonicalFrom NUMERICAL_VARIABLES .numerical
            ((numMap (nn + 1)).map Prod.fst) ts := by
          rw [numMap_succ, List.map_append]
          simp only [List.map_cons, List.map_nil]
          rw [show numName nn = lx from hlx.symm]
          exact hcn'
        have hcsNext := canonicalFrom_skip hcs (fun h => TokenType.noConfusion h)
        have hcpNext := canonicalFrom_skip hcp (fun h => TokenType.noConfusion h)
        obtain ⟨codes, nn', σ', hclen, hcpos, hencIH, hdecIH⟩ :=
          ih (nn + 1) σ (enc ++ [primeAt (PRIME_OFFSET + nn)]) (i + 1) hwfr
            (by omega) (by omega) (by omega) hcnNext hcsNext hcpNext
        refine ⟨primeAt (PRIME_OFFSET + nn) :: codes, nn', σ', by simp [hclen],
          ?_, ?_, ?_⟩
        · intro cc hcc
          rcases List.mem_cons.mp hcc with rfl | hcc'
          · omega
          · exact hcpos cc hcc'
        · rw [encodeLoopW_cons_ok' (encodeTokenW_numerical (encode_numW_fresh' hlk hp)),
            show numMap nn ++ [(lx, primeAt (PRIME_OFFSET + nn))] =
              numMap (nn + 1) from by
            rw [numMap_succ, show numName nn = lx from hlx.symm],
            show enc ++ primeAt (PRIME_OFFSET + nn) :: codes =
              (enc ++ [primeAt (PRIME_OFFSET + nn)]) ++ codes from by simp]
          exact hencIH
        · simp only [List.enumFrom, List.map_cons]
          have hinv : CONSTANT_SIGNS.inverse.lookup (primeAt (PRIME_OFFSET + nn)) =
              none := const_inverse_none (by omega)
          have hcont : PRIME.contains (primeAt (PRIME_OFFSET + nn)) = true :=
            (contains_iff_mem _ _).mpr (primeAt_mem (by omega))
          have hswlen : ((numMap nn).map Prod.swap).length = nn := by
            rw [List.length_map, numMap_length]
          have hnone : ((numMap nn).map Prod.swap).lookup
              (primeAt (PRIME_OFFSET + nn)) = none := numSwap_lookup_fresh (by omega)
          have hds := @decode_num_fresh' _ ((sentPartAux 0 0 σ).map Prod.swap)
            ((predPartAux 0 0 σ).map Prod.swap) _ hnone
          rw [hswlen] at hds
          rw [decodeLoopW_cons_numerical hgetI hinv hcont hds]
          have hdstep : (numMap (nn + 1)).map Prod.swap =
              (numMap nn).map Prod.swap ++
                [(primeAt (PRIME_OFFSET + nn), next_var_name nn NUMERICAL_VARIABLES)] := by
            rw [numMap_succ, List.map_append]
            simp [numName]
          rw [← hdstep, hdecIH]
          have hlxeq : next_var_name nn NUMERICAL_VARIABLES = lx := hlx.symm
          rw [hlxeq]
          rfl
      · -- cached numerical variable
        obtain ⟨m, hm, hlxm, hvm⟩ := numMap_lookup_some hlk
        have hmemk : lx ∈ (numMap nn).map Prod.fst := by
          apply List.mem_map.mpr
          exact ⟨(lx, v), lookup_mem hlk, rfl⟩
        have hcnNext := canonicalFrom_cached hcn hmemk
        have hcsNext := canonicalFrom_skip hcs (fun h => TokenType.noConfusion h)
        have hcpNext := canonicalFrom_skip hcp (fun h => TokenType.noConfusion h)
        obtain ⟨codes, nn', σ', hclen, hcpos, hencIH, hdecIH⟩ :=
          ih nn σ (enc ++ [v]) (i + 1) hwfr (by omega) (by omega) (by omega)
            hcnNext hcsNext hcpNext
        have hp13 : 13 ≤ v := by
          rw [hvm]
          apply primeAt_ge_13 _ (by omega)
          rw [PRIME_OFFSET_eq]
          omega
        refine ⟨v :: codes, nn', σ', by simp [hclen], ?_, ?_, ?_⟩
        · intro cc hcc
          rcases List.mem_cons.mp hcc with rfl | hcc'
          · omega
          · exact hcpos cc hcc'
        · rw [encodeLoopW_cons_ok' (encodeTokenW_numerical (encode_numW_cached' hlk)),
            show enc ++ v :: codes = (enc ++ [v]) ++ codes from by simp]
          exact hencIH
        · simp only [List.enumFrom, List.map_cons]
          have hinv : CONSTANT_SIGNS.inverse.lookup v = none :=
            const_inverse_none (by omega)
          have hcont : PRIME.contains v = true := by
            apply (contains_iff_mem _ _).mpr
            rw [hvm]
            exact primeAt_mem (by omega)
          have hsw : ((numMap nn).map Prod.swap).lookup v = some lx := by
            rw [hvm, hlxm]
            exact numSwap_lookup_code hm (by omega)
          have hds := @decode_num_cached' _ ((sentPartAux 0 0 σ).map Prod.swap)
            ((predPartAux 0 0 σ).map Prod.swap) _ _ hsw
          rw [decodeLoopW_cons_numerical hgetI hinv hcont hds, hdecIH]
          rfl
    | sentntial =>
      have hshape : ∀ m : Nat, lx ≠ predName m := sent_shaped_ne_predName hwft
      have hbridge : (mixMap σ).lookup lx = (sentPartAux 0 0 σ).lookup lx :=
        mix_lookup_sent σ 0 0 0 lx hshape
      have hseenlen : ((sentPartAux 0 0 σ).map Prod.fst).length = ctTrue σ := by
        rw [List.length_map, sentPartAux_length]
      have hmixlen : (mixMap σ).length = σ.length := mixMapAux_length σ 0 0 0
      rcases hlk : (sentPartAux 0 0 σ).lookup lx with _ | v
      · -- fresh sentential variable
        have hnotmem : lx ∉ (sentPartAux 0 0 σ).map Prod.fst :=
          lookup_eq_none_iff.mp hlk
        obtain ⟨hlx, hcs'⟩ := canonicalFrom_fresh hcs hnotmem
        rw [hseenlen] at hlx
        have hmixnone : (mixMap σ).lookup lx = none := by rw [hbridge]; exact hlk
        have hp : PRIME.get? (PRIME_OFFSET + (mixMap σ).length) =
            some (primeAt (PRIME_OFFSET + σ.length)) := by
          rw [hmixlen]
          exact PRIME_get?_eq (by omega)
        have hp13 : 13 ≤ primeAt (PRIME_OFFSET + σ.length) := by
          apply primeAt_ge_13 _ (by omega)
          rw [PRIME_OFFSET_eq]
          omega
        obtain ⟨qn, hqn, hqe⟩ := primeAt_prime (k := PRIME_OFFSET + σ.length) (by omega)
        have hsq12 : 12 < primeAt (PRIME_OFFSET + σ.length) ^ 2 := by
          rw [pow_two]
          have := mul_le_mul hp13 hp13 (by omega) (by omega)
          omega
        have hsq1 : 1 ≤ primeAt (PRIME_OFFSET + σ.length) ^ 2 := by omega
        -- tail canonical conditions
        have hcsNext : CanonicalFrom SENTNTIAL_VARIABLES .sentntial
            ((sentPartAux 0 0 (σ ++ [true])).map Prod.fst) ts := by
          rw [sentPartAux_append_true, List.map_append]
          simp only [List.map_cons, List.map_nil, Nat.zero_add]
          rw [show sentName (ctTrue σ) = lx from hlx.symm]
          exact hcs'
        have hcnNext := canonicalFrom_skip hcn (fun h => TokenType.noConfusion h)
        have hcpNext : CanonicalFrom PREDICATE_VARIABLES .predicate
            ((predPartAux 0 0 (σ ++ [true])).map Prod.fst) ts := by
          rw [predPartAux_append_true]
          exact canonicalFrom_skip hcp (fun h => TokenType.noConfusion h)
        obtain ⟨codes, nn', σ', hclen, hcpos, hencIH, hdecIH⟩ :=
          ih nn (σ ++ [true]) (enc ++ [primeAt (PRIME_OFFSET + σ.length) ^ 2]) (i + 1)
            hwfr (by omega) (by simp only [List.length_append, List.length_singleton]; omega)
            (by omega) hcnNext hcsNext hcpNext
        refine ⟨primeAt (PRIME_OFFSET + σ.length) ^ 2 :: codes, nn', σ',
          by simp [hclen], ?_, ?_, ?_⟩
        · intro cc hcc
          rcases List.mem_cons.mp hcc with rfl | hcc'
          · exact hsq1
          · exact hcpos cc hcc'
        · rw [encodeLoopW_cons_ok' (encodeTokenW_sentntial (encode_sentW_fresh' hmixnone hp)),
            show mixMap σ ++
              [(lx, primeAt (PRIME_OFFSET + σ.length) ^ 2)] = mixMap (σ ++ [true]) from by
            rw [mixMap_append_true, show sentName (ctTrue σ) = lx from hlx.symm],
            show enc ++ primeAt (PRIME_OFFSET + σ.length) ^ 2 :: codes =
              (enc ++ [primeAt (PRIME_OFFSET + σ.length) ^ 2]) ++ codes from by simp]
          exact hencIH
        · simp only [List.enumFrom, List.map_cons]
          have hinv : CONSTANT_SIGNS.inverse.lookup
              (primeAt (PRIME_OFFSET + σ.length) ^ 2) = none :=
            const_inverse_none hsq12
          have hcont : PRIME.contains (primeAt (PRIME_OFFSET + σ.length) ^ 2) = false := by
            apply Bool.eq_false_iff.mpr
            intro hc
            rw [hqe] at hc
            exact sq_not_mem_PRIME hqn ((contains_iff_mem _ _).mp hc)
          have hfac : factor (primeAt (PRIME_OFFSET + σ.length) ^ 2) =
              [primeAt (PRIME_OFFSET + σ.length), primeAt (PRIME_OFFSET + σ.length)] := by
            rw [hqe]
            exact factor_prime_sq hqn
          have hded : (factor (primeAt (PRIME_OFFSET + σ.length) ^ 2)).dedup.length = 1 := by
            rw [hfac, dedup_pair]
            rfl
          have hlen2 : (factor (primeAt (PRIME_OFFSET + σ.length) ^ 2)).length = 2 := by
            rw [hfac]
            rfl
          have hhead : PRIME.contains
              ((factor (primeAt (PRIME_OFFSET + σ.length) ^ 2)).headD 0) = true := by
            rw [hfac]
            exact (contains_iff_mem _ _).mpr (primeAt_mem (by omega))
          have hswnone : ((sentPartAux 0 0 σ).map Prod.swap).lookup
              (primeAt (PRIME_OFFSET + σ.length) ^ 2) = none := by
            have := sentSwap_lookup_fresh σ 0 0 (by omega)
            simpa using this
          have hswlen : ((sentPartAux 0 0 σ).map Prod.swap).length = ctTrue σ := by
            rw [List.length_map, sentPartAux_length]
          have hds := @decode_sent_fresh' ((numMap nn).map Prod.swap) _
            ((predPartAux 0 0 σ).map Prod.swap) _ hswnone
          rw [hswlen] at hds
          rw [decodeLoopW_cons_sentential hgetI hinv hcont hded hlen2 hhead hds]
          have hdstep : (sentPartAux 0 0 (σ ++ [true])).map Prod.swap =
              (sentPartAux 0 0 σ).map Prod.swap ++
                [(primeAt (PRIME_OFFSET + σ.length) ^ 2,
                  next_var_name (ctTrue σ) SENTNTIAL_VARIABLES)] := by
            rw [sentPartAux_append_true, List.map_append]
            simp [sentName]
          have hpstep : (predPartAux 0 0 (σ ++ [true])).map Prod.swap =
              (predPartAux 0 0 σ).map Prod.swap := by
            rw [predPartAux_append_true]
          rw [hdstep, hpstep] at hdecIH
          rw [hdecIH]
          rw [show next_var_name (ctTrue σ) SENTNTIAL_VARIABLES = lx from hlx.symm]
          rfl
      · -- cached sentential variable
        obtain ⟨m, j, hm, hj, hlxm, hvm⟩ := sentPart_lookup_some hlk
        have hmemk : lx ∈ (sentPartAux 0 0 σ).map Prod.fst := by
          apply List.mem_map.mpr
          exact ⟨(lx, v), lookup_mem hlk, rfl⟩
        have hmixsome : (mixMap σ).lookup lx = some v := by rw [hbridge]; exact hlk
        obtain ⟨j', hj', hname, hswap⟩ :=
          sentPart_lookup_name σ 0 0 m hm (by omega)
        have hveq : v = primeAt (PRIME_OFFSET + j') ^ 2 := by
          rw [hlxm] at hlk
          rw [hlk] at hname
          injection hname with hname'
          simpa using hname'
        have hp13 : 13 ≤ primeAt (PRIME_OFFSET + j') := by
          apply primeAt_ge_13 _ (by omega)
          rw [PRIME_OFFSET_eq]
          omega
        obtain ⟨qn, hqn, hqe⟩ := primeAt_prime (k := PRIME_OFFSET + j') (by omega)
        have hsq12 : 12 < primeAt (PRIME_OFFSET + j') ^ 2 := by
          rw [pow_two]
          have := mul_le_mul hp13 hp13 (by omega) (by omega)
          omega
        have hcsNext := canonicalFrom_cached hcs hmemk
        have hcnNext := canonicalFrom_skip hcn (fun h => TokenType.noConfusion h)
        have hcpNext := canonicalFrom_skip hcp (fun h => TokenType.noConfusion h)
        obtain ⟨codes, nn', σ', hclen, hcpos, hencIH, hdecIH⟩ :=
          ih nn σ (enc ++ [v]) (i + 1) hwfr (by omega) (by omega) (by omega)
            hcnNext hcsNext hcpNext
        refine ⟨v :: codes, nn', σ', by simp [hclen], ?_, ?_, ?_⟩
        · intro cc hcc
          rcases List.mem_cons.mp hcc with rfl | hcc'
          · rw [hveq]; omega
          · exact hcpos cc hcc'
        · rw [encodeLoopW_cons_ok' (encodeTokenW_sentntial (encode_sentW_cached' hmixsome)),
            show enc ++ v :: codes = (enc ++ [v]) ++ codes from by simp]
          exact hencIH
        · simp only [List.enumFrom, List.map_cons]
          have hinv : CONSTANT_SIGNS.inverse.lookup v = none := by
            rw [hveq]
            exact const_inverse_none hsq12
          have hcont : PRIME.contains v = false := by
            apply Bool.eq_false_iff.mpr
            intro hc
            rw [hveq, hqe] at hc
            exact sq_not_mem_PRIME hqn ((contains_iff_mem _ _).mp hc)
          have hfac : factor v = [primeAt (PRIME_OFFSET + j'), primeAt (PRIME_OFFSET + j')] := by
            rw [hveq, hqe]
            exact factor_prime_sq hqn
          have hded : (factor v).dedup.length = 1 := by
            rw [hfac, dedup_pair]
            rfl
          have hlen2 : (factor v).length = 2 := by
            rw [hfac]
            rfl
          have hhead : PRIME.contains ((factor v).headD 0) = true := by
            rw [hfac]
            exact (contains_iff_mem _ _).mpr (primeAt_mem (by omega))
          have hsw : ((sentPartAux 0 0 σ).map Prod.swap).lookup v = some lx := by
            rw [hveq, hlxm]
            simpa using hswap
          have hds := @decode_sent_cached' ((numMap nn).map Prod.swap) _
            ((predPartAux 0 0 σ).map Prod.swap) _ _ hsw
          rw [decodeLoopW_cons_sentential hgetI hinv hcont hded hlen2 hhead hds, hdecIH]
          rfl
    | predicate =>
      have hshape : ∀ m : Nat, lx ≠ sentName m := pred_shaped_ne_sentName hwft
      have hbridge : (mixMap σ).lookup lx = (predPartAux 0 0 σ).lookup lx :=
        mix_lookup_pred σ 0 0 0 lx hshape
      have hseenlen : ((predPartAux 0 0 σ).map Prod.fst).length = ctFalse σ := by
        rw [List.length_map, predPartAux_length]
      have hmixlen : (mixMap σ).length = σ.length := mixMapAux_length σ 0 0 0
      rcases hlk : (predPartAux 0 0 σ).lookup lx with _ | v
      · -- fresh predicate variable
        have hnotmem : lx ∉ (predPartAux 0 0 σ).map Prod.fst :=
          lookup_eq_none_iff.mp hlk
        obtain ⟨hlx, hcp'⟩ := canonicalFrom_fresh hcp hnotmem
        rw [hseenlen] at hlx
        have hmixnone : (mixMap σ).lookup lx = none := by rw [hbridge]; exact hlk
        have hp : PRIME.get? (PRIME_OFFSET + (mixMap σ).length) =
            some (primeAt (PRIME_OFFSET + σ.length)) := by
          rw [hmixlen]
          exact PRIME_get?_eq (by omega)
        have hp13 : 13 ≤ primeAt (PRIME_OFFSET + σ.length) := by
          apply primeAt_ge_13 _ (by omega)
          rw [PRIME_OFFSET_eq]
          omega
        obtain ⟨qn, hqn, hqe⟩ := primeAt_prime (k := PRIME_OFFSET + σ.length) (by omega)
        have hcb12 : 12 < primeAt (PRIME_OFFSET + σ.length) ^ 3 := by
          have h4 := mul_le_mul hp13 hp13 (by omega) (by omega)
          have h8 := mul_le_mul h4 hp13 (by omega) (by omega)
          rw [show primeAt (PRIME_OFFSET + σ.length) ^ 3 =
            primeAt (PRIME_OFFSET + σ.length) * primeAt (PRIME_OFFSET + σ.length) *
              primeAt (PRIME_OFFSET + σ.length) from by ring]
          omega
        have hcb1 : 1 ≤ primeAt (PRIME_OFFSET + σ.length) ^ 3 := by omega
        have hcpNext : CanonicalFrom PREDICATE_VARIABLES .predicate
            ((predPartAux 0 0 (σ ++ [false])).map Prod.fst) ts := by
          rw [predPartAux_append_false, List.map_append]
          simp only [List.map_cons, List.map_nil, Nat.zero_add]
          rw [show predName (ctFalse σ) = lx from hlx.symm]
          exact hcp'
        have hcnNext := canonicalFrom_skip hcn (fun h => TokenType.noConfusion h)
        have hcsNext : CanonicalFrom SENTNTIAL_VARIABLES .sentntial
            ((sentPartAux 0 0 (σ ++ [false])).map Prod.fst) ts := by
          rw [sentPartAux_append_false]
          exact canonicalFrom_skip hcs (fun h => TokenType.noConfusion h)
        obtain ⟨codes, nn', σ', hclen, hcpos, hencIH, hdecIH⟩ :=
          ih nn (σ ++ [false]) (enc ++ [primeAt (PRIME_OFFSET + σ.length) ^ 3]) (i + 1)
            hwfr (by omega) (by simp only [List.length_append, List.length_singleton]; omega)
            (by omega) hcnNext hcsNext hcpNext
        refine ⟨primeAt (PRIME_OFFSET + σ.length) ^ 3 :: codes, nn', σ',
          by simp [hclen], ?_, ?_, ?_⟩
        · intro cc hcc
          rcases List.mem_cons.mp hcc with rfl | hcc'
          · exact hcb1
          · exact hcpos cc hcc'
        · rw [encodeLoopW_cons_ok' (encodeTokenW_predicate (encode_predW_fresh' hmixnone hp)),
            show mixMap σ ++
              [(lx, primeAt (PRIME_OFFSET + σ.length) ^ 3)] = mixMap (σ ++ [false]) from by
            rw [mixMap_append_false, show predName (ctFalse σ) = lx from hlx.symm],
            show enc ++ primeAt (PRIME_OFFSET + σ.length) ^ 3 :: codes =
              (enc ++ [primeAt (PRIME_OFFSET + σ.length) ^ 3]) ++ codes from by simp]
          exact hencIH
        · simp only [List.enumFrom, List.map_cons]
          have hinv : CONSTANT_SIGNS.inverse.lookup
              (primeAt (PRIME_OFFSET + σ.length) ^ 3) = none :=
            const_inverse_none hcb12
          have hcont : PRIME.contains (primeAt (PRIME_OFFSET + σ.length) ^ 3) = false := by
            apply Bool.eq_false_iff.mpr
            intro hc
            rw [hqe] at hc
            exact cube_not_mem_PRIME hqn ((contains_iff_mem _ _).mp hc)
          have hfac : factor (primeAt (PRIME_OFFSET + σ.length) ^ 3) =
              [primeAt (PRIME_OFFSET + σ.length), primeAt (PRIME_OFFSET + σ.length),
                primeAt (PRIME_OFFSET + σ.length)] := by
            rw [hqe]
            exact factor_prime_cube hqn
          have hded : (factor (primeAt (PRIME_OFFSET + σ.length) ^ 3)).dedup.length = 1 := by
            rw [hfac, dedup_triple]
            rfl
          have hlen3 : (factor (primeAt (PRIME_OFFSET + σ.length) ^ 3)).length = 3 := by
            rw [hfac]
            rfl
          have hhead : PRIME.contains
              ((factor (primeAt (PRIME_OFFSET + σ.length) ^ 3)).headD 0) = true := by
            rw [hfac]
            exact (contains_iff_mem _ _).mpr (primeAt_mem (by omega))
          have hswnone : ((predPartAux 0 0 σ).map Prod.swap).lookup
              (primeAt (PRIME_OFFSET + σ.length) ^ 3) = none := by
            have := predSwap_lookup_fresh σ 0 0 (by omega)
            simpa using this
          have hswlen : ((predPartAux 0 0 σ).map Prod.swap).length = ctFalse σ := by
            rw [List.length_map, predPartAux_length]
          have hds := @decode_pred_fresh' ((numMap nn).map Prod.swap)
            ((sentPartAux 0 0 σ).map Prod.swap) _ _ hswnone
          rw [hswlen] at hds
          rw [decodeLoopW_cons_predicate hgetI hinv hcont hded hlen3 hhead hds]
          have hdstep : (predPartAux 0 0 (σ ++ [false])).map Prod.swap =
              (predPartAux 0 0 σ).map Prod.swap ++
                [(primeAt (PRIME_OFFSET + σ.length) ^ 3,
                  next_var_name (ctFalse σ) PREDICATE_VARIABLES)] := by
            rw [predPartAux_append_false, List.map_append]
            simp [predName]
          have hsstep : (sentPartAux 0 0 (σ ++ [false])).map Prod.swap =
              (sentPartAux 0 0 σ).map Prod.swap := by
            rw [sentPartAux_append_false]
          rw [hdstep, hsstep] at hdecIH
          rw [hdecIH]
          rw [show next_var_name (ctFalse σ) PREDICATE_VARIABLES = lx from hlx.symm]
          rfl
      · -- cached predicate variable
        obtain ⟨m, j, hm, hj, hlxm, hvm⟩ := predPart_lookup_some hlk
        have hmemk : lx ∈ (predPartAux 0 0 σ).map Prod.fst := by
          apply List.mem_map.mpr
          exact ⟨(lx, v), lookup_mem hlk, rfl⟩
        have hmixsome : (mixMap σ).lookup lx = some v := by rw [hbridge]; exact hlk
        obtain ⟨j', hj', hname, hswap⟩ :=
          predPart_lookup_name σ 0 0 m hm (by omega)
        have hveq : v = primeAt (PRIME_OFFSET + j') ^ 3 := by
          rw [hlxm] at hlk
          rw [hlk] at hname
          injection hname with hname'
          simpa using hname'
        have hp13 : 13 ≤ primeAt (PRIME_OFFSET + j') := by
          apply primeAt_ge_13 _ (by omega)
          rw [PRIME_OFFSET_eq]
          omega
        obtain ⟨qn, hqn, hqe⟩ := primeAt_prime (k := PRIME_OFFSET + j') (by omega)
        have hcb12 : 12 < primeAt (PRIME_OFFSET + j') ^ 3 := by
          have h4 := mul_le_mul hp13 hp13 (by omega) (by omega)
          have h8 := mul_le_mul h4 hp13 (by omega) (by omega)
          rw [show primeAt (PRIME_OFFSET + j') ^ 3 =
            primeAt (PRIME_OFFSET + j') * primeAt (PRIME_OFFSET + j') *
              primeAt (PRIME_OFFSET + j') from by ring]
          omega
        have hcpNext := canonicalFrom_cached hcp hmemk
        have hcnNext := canonicalFrom_skip hcn (fun h => TokenType.noConfusion h)
        have hcsNext := canonicalFrom_skip hcs (fun h => TokenType.noConfusion h)
        obtain ⟨codes, nn', σ', hclen, hcpos, hencIH, hdecIH⟩ :=
          ih nn σ (enc ++ [v]) (i + 1) hwfr (by omega) (by omega) (by omega)
            hcnNext hcsNext hcpNext
        refine ⟨v :: codes, nn', σ', by simp [hclen], ?_, ?_, ?_⟩
        · intro cc hcc
          rcases List.mem_cons.mp hcc with rfl | hcc'
          · rw [hveq]; omega
          · exact hcpos cc hcc'
        · rw [encodeLoopW_cons_ok' (encodeTokenW_predicate (encode_predW_cached' hmixsome)),
            show enc ++ v :: codes = (enc ++ [v]) ++ codes from by simp]
          exact hencIH
        · simp only [List.enumFrom, List.map_cons]
          have hinv : CONSTANT_SIGNS.inverse.lookup v = none := by
            rw [hveq]
            exact const_inverse_none hcb12
          have hcont : PRIME.contains v = false := by
            apply Bool.eq_false_iff.mpr
            intro hc
            rw [hveq, hqe] at hc
            exact cube_not_mem_PRIME hqn ((contains_iff_mem _ _).mp hc)
          have hfac : factor v = [primeAt (PRIME_OFFSET + j'), primeAt (PRIME_OFFSET + j'),
              primeAt (PRIME_OFFSET + j')] := by
            rw [hveq, hqe]
            exact factor_prime_cube hqn
          have hded : (factor v).dedup.length = 1 := by
            rw [hfac, dedup_triple]
            rfl
          have hlen3 : (factor v).length = 3 := by
            rw [hfac]
            rfl
          have hhead : PRIME.contains ((factor v).headD 0) = true := by
            rw [hfac]
            exact (contains_iff_mem _ _).mpr (primeAt_mem (by omega))
          have hsw : ((predPartAux 0 0 σ).map Prod.swap).lookup v = some lx := by
            rw [hveq, hlxm]
            simpa using hswap
          have hds := @decode_pred_cached' ((numMap nn).map Prod.swap)
            ((sentPartAux 0 0 σ).map Prod.swap) _ _ _ hsw
          rw [decodeLoopW_cons_predicate hgetI hinv hcont hded hlen3 hhead hds, hdecIH]
          rfl

/-! ## From the code list to the Goedel number and back: product facts -/

theorem mapM_powers : ∀ (codes : List Int) (i : Nat), i + codes.length ≤ PRIME.length →
    (List.enumFrom i codes).mapM (fun ig =>
      match PRIME.get? ig.1 with
      | some p => Except.ok (p ^ ig.2.toNat)
      | none => Except.error EncodeError.indexError) =
    Except.ok ((List.enumFrom i codes).map fun ig => primeAt ig.1 ^ ig.2.toNat) := by
  intro codes
  induction codes with
  | nil => intro i _; rfl
  | cons c cs ihc =>
    intro i hbound
    simp only [List.length_cons] at hbound
    have hg : PRIME.get? i = some (primeAt i) := PRIME_get?_eq (by omega)
    simp only [List.enumFrom, List.mapM_cons, List.map_cons, hg,
      ihc (i + 1) (by omega)]
    rfl

theorem one_le_prod_int : ∀ (l : List Int), (∀ x ∈ l, 1 ≤ x) → 1 ≤ l.prod := by
  intro l
  induction l with
  | nil => intro _; simp
  | cons a t iht =>
    intro h
    rw [List.prod_cons]
    have ha := h a (by simp)
    have ht := iht (fun x hx => h x (by simp [hx]))
    nlinarith

theorem prod_eq_list_prod (l : List Int) : prod l = l.prod := by
  simp only [prod]
  rw [List.prod_eq_foldl]

theorem pairwise_replicate_le (n : Nat) (a : Nat) :
    (List.replicate n a).Pairwise (· ≤ ·) := by
  induction n with
  | zero => simp
  | succ n ihn =>
    rw [List.replicate_succ]
    exact List.Pairwise.cons (fun b hb => (List.eq_of_mem_replicate hb).ge) ihn

theorem sorted_flatten_reps : ∀ (ps : List (Nat × Nat)),
    List.Pairwise (fun a b => a.1 < b.1) ps →
    List.Sorted (· ≤ ·) ((ps.map (fun e => List.replicate e.2 e.1)).flatten) := by
  intro ps
  induction ps with
  | nil => intro _; simp [List.Sorted]
  | cons e ps ihp =>
    intro hpw
    rw [List.map_cons, List.flatten_cons]
    apply List.pairwise_append.mpr
    refine ⟨pairwise_replicate_le _ _, ihp (List.pairwise_cons.mp hpw).2, ?_⟩
    intro a ha b hb
    have ha' : a = e.1 := List.eq_of_mem_replicate ha
    obtain ⟨l', hl', hb'⟩ := List.mem_flatten.mp hb
    obtain ⟨e', he', rfl⟩ := List.mem_map.mp hl'
    have hb'' : b = e'.1 := List.eq_of_mem_replicate hb'
    have hlt := (List.pairwise_cons.mp hpw).1 e' he'
    omega

theorem prod_flatten_reps : ∀ (ps : List (Nat × Nat)),
    ((ps.map (fun e => List.replicate e.2 e.1)).flatten).prod =
      (ps.map (fun e => e.1 ^ e.2)).prod := by
  intro ps
  induction ps with
  | nil => rfl
  | cons e ps ihp =>
    rw [List.map_cons, List.flatten_cons, List.prod_append, ihp, List.map_cons,
      List.prod_cons, List.prod_replicate]

theorem pfl_prod_pows (ps : List (Nat × Nat))
    (hpr : ∀ e ∈ ps, Nat.Prime e.1)
    (hpw : List.Pairwise (fun a b => a.1 < b.1) ps) :
    Nat.primeFactorsList ((ps.map (fun e => e.1 ^ e.2)).prod) =
      (ps.map (fun e => List.replicate e.2 e.1)).flatten := by
  have hperm : List.Perm ((ps.map (fun e => List.replicate e.2 e.1)).flatten)
      (Nat.primeFactorsList ((ps.map (fun e => e.1 ^ e.2)).prod)) := by
    apply Nat.primeFactorsList_unique
    · exact prod_flatten_reps ps
    · intro p hp
      obtain ⟨l', hl', hp'⟩ := List.mem_flatten.mp hp
      obtain ⟨e', he', rfl⟩ := List.mem_map.mp hl'
      rw [List.eq_of_mem_replicate hp']
      exact hpr e' he'
  exact (List.eq_of_perm_of_sorted hperm (sorted_flatten_reps ps hpw)
    (Nat.primeFactorsList_sorted _)).symm

theorem groupConsec_head : ∀ (l : List Int) (a : Int),
    ∃ k r, groupConsec (a :: l) = (a, k) :: r ∧ 1 ≤ k := by
  intro l
  induction l with
  | nil => intro a; exact ⟨1, [], rfl, by omega⟩
  | cons b l ihl =>
    intro a
    obtain ⟨k, r, hg, hk⟩ := ihl b
    have hc : groupConsec (a :: b :: l) = match groupConsec (b :: l) with
      | [] => [(a, 1)]
      | (bb, kk) :: rr => if a = bb then (bb, kk + 1) :: rr
        else (a, 1) :: (bb, kk) :: rr := rfl
    by_cases hab : a = b
    · refine ⟨k + 1, r, ?_, by omega⟩
      rw [hc, hg]
      show (if a = b then (b, k + 1) :: r else (a, 1) :: (b, k) :: r) = (a, k + 1) :: r
      rw [if_pos hab, hab]
    · refine ⟨1, (b, k) :: r, ?_, by omega⟩
      rw [hc, hg]
      show (if a = b then (b, k + 1) :: r else (a, 1) :: (b, k) :: r) =
        (a, 1) :: (b, k) :: r
      rw [if_neg hab]

theorem groupConsec_replicate : ∀ (m : Nat) (a : Int) (rest : List Int),
    1 ≤ m → (∀ x, rest.head? = some x → x ≠ a) →
    groupConsec (List.replicate m a ++ rest) = (a, (m : Int)) :: groupConsec rest := by
  intro m
  induction m with
  | zero => intro a rest h _; omega
  | succ m ihm =>
    intro a rest _ hhead
    rcases Nat.eq_zero_or_pos m with rfl | hm
    · rw [List.replicate_one, List.singleton_append]
      cases rest with
      | nil => rfl
      | cons b l =>
        obtain ⟨k, r, hg, hk⟩ := groupConsec_head l b
        have hba : b ≠ a := hhead b rfl
        have hc : groupConsec (a :: b :: l) = match groupConsec (b :: l) with
          | [] => [(a, 1)]
          | (bb, kk) :: rr => if a = bb then (bb, kk + 1) :: rr
            else (a, 1) :: (bb, kk) :: rr := rfl
        rw [hc, hg]
        show (if a = b then (b, k + 1) :: r else (a, 1) :: (b, k) :: r) =
          (a, ((0 + 1 : Nat) : Int)) :: (b, k) :: r
        rw [if_neg (fun h => hba h.symm)]
        rfl
    · rw [List.replicate_succ, List.cons_append]
      have hrec := ihm a rest hm hhead
      have hc : groupConsec (a :: (List.replicate m a ++ rest)) =
        match groupConsec (List.replicate m a ++ rest) with
        | [] => [(a, 1)]
        | (bb, kk) :: rr => if a = bb then (bb, kk + 1) :: rr
          else (a, 1) :: (bb, kk) :: rr := rfl
      rw [hc, hrec]
      show (if a = a then (a, (m : Int) + 1) :: groupConsec rest
        else (a, 1) :: (a, (m : Int)) :: groupConsec rest) =
        (a, ((m + 1 : Nat) : Int)) :: groupConsec rest
      rw [if_pos rfl, show ((m : Int) + 1) = ((m + 1 : Nat) : Int) from by push_cast; ring]

theorem groupConsec_flatten : ∀ (pcs : List (Int × Int)),
    (∀ e ∈ pcs, 1 ≤ e.2) →
    List.Chain' (fun a b => a.1 ≠ b.1) pcs →
    groupConsec ((pcs.map (fun e => List.replicate e.2.toNat e.1)).flatten) = pcs := by
  intro pcs
  induction pcs with
  | nil => intro _ _; rfl
  | cons e pcs ihp =>
    intro hpos hch
    rw [List.map_cons, List.flatten_cons]
    have he2 : 1 ≤ e.2.toNat := by
      have := hpos e (by simp)
      omega
    have hhead : ∀ x,
        ((pcs.map (fun e => List.replicate e.2.toNat e.1)).flatten).head? = some x →
        x ≠ e.1 := by
      intro x hx
      cases pcs with
      | nil => simp at hx
      | cons e' pcs' =>
        rw [List.map_cons, List.flatten_cons] at hx
        have he2' : e'.2.toNat ≠ 0 := by
          have := hpos e' (by simp)
          omega
        obtain ⟨n, hn⟩ := Nat.exists_eq_succ_of_ne_zero he2'
        rw [hn, List.replicate_succ, List.cons_append] at hx
        simp only [List.head?_cons, Option.some.injEq] at hx
        subst hx
        exact fun h => (List.chain'_cons.mp hch).1 h.symm
    rw [groupConsec_replicate e.2.toNat e.1 _ he2 hhead,
      ihp (fun x hx => hpos x (by simp [hx])) (List.Chain'.tail hch),
      show ((e.2.toNat : Nat) : Int) = e.2 from Int.toNat_of_nonneg
        (by have := hpos e (by simp); omega)]

theorem enumFrom_mem_bounds : ∀ (l : List Int) (n : Nat) (x : Nat × Int),
    x ∈ List.enumFrom n l → n ≤ x.1 ∧ x.1 < n + l.length ∧ x.2 ∈ l := by
  intro l
  induction l with
  | nil => intro n x hx; simp [List.enumFrom] at hx
  | cons a t iht =>
    intro n x hx
    simp only [List.enumFrom] at hx
    rcases List.mem_cons.mp hx with rfl | hx'
    · simp only [List.length_cons]
      exact ⟨le_refl n, by omega, by simp⟩
    · obtain ⟨h1, h2, h3⟩ := iht (n + 1) x hx'
      simp only [List.length_cons]
      exact ⟨by omega, by omega, by simp [h3]⟩

theorem pairsChain : ∀ (codes : List Int) (i : Nat), i + codes.length ≤ PRIME.length →
    List.Chain' (fun a b => a.1 ≠ b.1)
      ((List.enumFrom i codes).map fun jc => (primeAt jc.1, jc.2)) := by
  intro codes
  induction codes with
  | nil => intro i _; simp
  | cons c cs ihc =>
    intro i hb
    simp only [List.length_cons] at hb
    cases cs with
    | nil => simp [List.enumFrom]
    | cons c' cs' =>
      simp only [List.enumFrom, List.map_cons]
      rw [List.chain'_cons]
      constructor
      · simp only [List.length_cons] at hb
        exact ne_of_lt (primeAt_lt_primeAt (by omega) (by omega))
      · have := ihc (i + 1) (by simp only [List.length_cons] at hb ⊢; omega)
        simpa [List.enumFrom, List.map_cons] using this

theorem map_flatten_cast : ∀ (L : List (List Nat)),
    (L.flatten).map (fun m : Nat => (m : Int)) =
      (L.map (fun l => l.map (fun m : Nat => (m : Int)))).flatten := by
  intro L
  induction L with
  | nil => rfl
  | cons l L ihL =>
    rw [List.flatten_cons, List.map_append, ihL, List.map_cons, List.flatten_cons]

theorem enumFrom_pairwise_fst : ∀ (l : List Int) (n : Nat),
    List.Pairwise (fun (x y : Nat × Int) => x.1 < y.1) (List.enumFrom n l) := by
  intro l
  induction l with
  | nil => intro n; simp [List.enumFrom]
  | cons a t iht =>
    intro n
    simp only [List.enumFrom]
    refine List.Pairwise.cons ?_ (iht (n + 1))
    intro y hy
    have h1 := (enumFrom_mem_bounds t (n + 1) y hy).1
    show n < y.1
    omega

theorem pows_cast (codes : List Int) (i : Nat) (hb : i + codes.length ≤ PRIME.length) :
    (List.enumFrom i codes).map (fun ig => primeAt ig.1 ^ ig.2.toNat) =
      (((List.enumFrom i codes).map (fun jc => (primeNat jc.1, jc.2.toNat))).map
        (fun e => e.1 ^ e.2)).map (fun m : Nat => (m : Int)) := by
  rw [List.map_map, List.map_map]
  apply List.map_congr_left
  intro x hx
  obtain ⟨h1, h2, _⟩ := enumFrom_mem_bounds codes i x hx
  simp only [Function.comp]
  rw [primeAt_eq_cast (by omega)]
  push_cast
  rfl

theorem ps_pairwise (codes : List Int) (i : Nat) (hb : i + codes.length ≤ PRIME.length) :
    List.Pairwise (fun a b => a.1 < b.1)
      ((List.enumFrom i codes).map (fun jc => (primeNat jc.1, jc.2.toNat))) := by
  rw [List.pairwise_map]
  apply List.Pairwise.imp_of_mem ?_ (enumFrom_pairwise_fst codes i)
  intro a b ha hb' hab
  obtain ⟨_, ha2, _⟩ := enumFrom_mem_bounds codes i a ha
  obtain ⟨_, hb2, _⟩ := enumFrom_mem_bounds codes i b hb'
  have hlt := primeAt_lt_primeAt hab (by omega)
  rw [primeAt_eq_cast (by omega), primeAt_eq_cast (by omega)] at hlt
  exact_mod_cast hlt

theorem groupConsec_factor_pows_of_two_le (codes : List Int) (i : Nat)
    (hb : i + codes.length ≤ PRIME.length)
    (hpos : ∀ c ∈ codes, 1 ≤ c)
    (hN2 : 2 ≤ ((List.enumFrom i codes).map (fun ig => primeAt ig.1 ^ ig.2.toNat)).prod) :
    groupConsec (factor (((List.enumFrom i codes).map
        (fun ig => primeAt ig.1 ^ ig.2.toNat)).prod)) =
      (List.enumFrom i codes).map fun jc => (primeAt jc.1, jc.2) := by
  have hcast := pows_cast codes i hb
  have hppw := ps_pairwise codes i hb
  have hprime : ∀ e ∈ (List.enumFrom i codes).map
      (fun jc => (primeNat jc.1, jc.2.toNat)), Nat.Prime e.1 := by
    intro e he
    obtain ⟨jc, hjc, rfl⟩ := List.mem_map.mp he
    obtain ⟨h1, h2, _⟩ := enumFrom_mem_bounds codes i jc hjc
    exact primeNat_prime (by omega)
  have hNcast : ((List.enumFrom i codes).map (fun ig => primeAt ig.1 ^ ig.2.toNat)).prod =
      (((((List.enumFrom i codes).map (fun jc => (primeNat jc.1, jc.2.toNat))).map
        (fun e => e.1 ^ e.2)).prod : Nat) : Int) := by
    rw [hcast]
    exact (Nat.cast_list_prod _).symm
  have htoNat : (((List.enumFrom i codes).map
      (fun ig => primeAt ig.1 ^ ig.2.toNat)).prod).toNat =
      ((((List.enumFrom i codes).map (fun jc => (primeNat jc.1, jc.2.toNat))).map
        (fun e => e.1 ^ e.2)).prod) := by
    rw [hNcast]
    exact Int.toNat_natCast _
  rw [factor_spec _ hN2, htoNat, pfl_prod_pows _ hprime hppw, map_flatten_cast,
    List.map_map, List.map_map]
  have hlists : (List.enumFrom i codes).map
      (((fun l => List.map (fun m : Nat => (m : Int)) l) ∘
        fun e => List.replicate e.2 e.1) ∘ fun jc => (primeNat jc.1, jc.2.toNat)) =
      ((List.enumFrom i codes).map (fun jc => (primeAt jc.1, jc.2))).map
        (fun e => List.replicate e.2.toNat e.1) := by
    rw [List.map_map]
    apply List.map_congr_left
    intro x hx
    obtain ⟨h1, h2, _⟩ := enumFrom_mem_bounds codes i x hx
    simp only [Function.comp]
    rw [List.map_replicate, primeAt_eq_cast (by omega)]
  rw [hlists]
  refine groupConsec_flatten _ ?_ (pairsChain codes i hb)
  intro e he
  obtain ⟨jc, hjc, rfl⟩ := List.mem_map.mp he
  obtain ⟨_, _, h3⟩ := enumFrom_mem_bounds codes i jc hjc
  exact hpos _ h3

theorem groupConsec_factor_pows (codes : List Int) (i : Nat)
    (hb : i + codes.length ≤ PRIME.length)
    (hpos : ∀ c ∈ codes, 1 ≤ c) :
    1 ≤ ((List.enumFrom i codes).map (fun ig => primeAt ig.1 ^ ig.2.toNat)).prod ∧
    groupConsec (factor (((List.enumFrom i codes).map
        (fun ig => primeAt ig.1 ^ ig.2.toNat)).prod)) =
      (List.enumFrom i codes).map fun jc => (primeAt jc.1, jc.2) := by
  have hge1 : ∀ x ∈ (List.enumFrom i codes).map
      (fun ig => primeAt ig.1 ^ ig.2.toNat), 1 ≤ x := by
    intro x hx
    obtain ⟨ig, hig, rfl⟩ := List.mem_map.mp hx
    obtain ⟨h1, h2, h3⟩ := enumFrom_mem_bounds codes i ig hig
    have hp2 : 2 ≤ primeAt ig.1 := primeAt_two_le (by omega)
    calc (1 : Int) = 1 ^ ig.2.toNat := (one_pow _).symm
    _ ≤ primeAt ig.1 ^ ig.2.toNat := pow_le_pow_left₀ (by omega) (by omega) _
  refine ⟨one_le_prod_int _ hge1, ?_⟩
  cases codes with
  | nil =>
    simp only [List.enumFrom, List.map_nil, List.prod_nil]
    rw [show factor 1 = [] from by decide]
    rfl
  | cons c0 cs0 =>
    apply groupConsec_factor_pows_of_two_le _ _ hb hpos
    simp only [List.enumFrom, List.map_cons, List.prod_cons]
    have h1 : ∀ x ∈ (List.enumFrom (i + 1) cs0).map
        (fun ig => primeAt ig.1 ^ ig.2.toNat), 1 ≤ x := by
      intro x hx
      apply hge1
      simp only [List.enumFrom, List.map_cons]
      exact List.mem_cons_of_mem _ hx
    have h2 := one_le_prod_int _ h1
    have hp2 : 2 ≤ primeAt i :=
      primeAt_two_le (by simp only [List.length_cons] at hb; omega)
    have hc1 : 1 ≤ c0 := hpos c0 (by simp)
    have hpw : 2 ≤ primeAt i ^ c0.toNat := by
      calc (2 : Int) ≤ primeAt i := hp2
      _ ≤ primeAt i ^ c0.toNat := le_self_pow₀ (by omega) (by omega)
    nlinarith

theorem except_bind_ok {ε α β : Type} (a : α) (f : α → Except ε β) :
    (Except.ok a >>= f : Except ε β) = f a := rfl

/-- Full round trip under canonical naming: a scannable string whose
variables appear in canonical per-class order, with enough primes for its
token count, encodes successfully and decodes back to itself. -/
theorem roundtrip_canonical (s : List Char) (ts : List Token)
    (hscan : scanAux s.length s = (ts, []))
    (hlen : ts.length + PRIME_OFFSET ≤ PRIME.length)
    (hcn : CanonicalFor NUMERICAL_VARIABLES .numerical ts)
    (hcs : CanonicalFor SENTNTIAL_VARIABLES .sentntial ts)
    (hcp : CanonicalFor PREDICATE_VARIABLES .predicate ts) :
    ∃ N : Int, encode s = .ok N ∧ decode N = .ok s := by
  by_cases hs : s = []
  · subst hs
    exact ⟨0, rfl, rfl⟩
  · have hflat0 := scanAux_flatten s.length s ts [] le_rfl hscan
    rw [List.append_nil] at hflat0
    have hwf := scanAux_shapes s.length s ts [] hscan
    have hcn0 : CanonicalFrom NUMERICAL_VARIABLES .numerical
        ((numMap 0).map Prod.fst) ts := canonicalFrom_of_canonicalFor hcn
    have hcs0 : CanonicalFrom SENTNTIAL_VARIABLES .sentntial
        ((sentPartAux 0 0 []).map Prod.fst) ts := canonicalFrom_of_canonicalFor hcs
    have hcp0 : CanonicalFrom PREDICATE_VARIABLES .predicate
        ((predPartAux 0 0 []).map Prod.fst) ts := canonicalFrom_of_canonicalFor hcp
    have hb1 : PRIME_OFFSET + 0 + ts.length ≤ PRIME.length := by omega
    have hb2 : PRIME_OFFSET + ([] : List Bool).length + ts.length ≤ PRIME.length := by
      rw [List.length_nil]
      exact hb1
    have hb3 : 0 + ts.length ≤ PRIME.length := by omega
    obtain ⟨codes, nn', σ', hclen, hcpos, henc, hdec⟩ :=
      roundtrip_loop ts 0 [] [] 0 hwf hb1 hb2 hb3 hcn0 hcs0 hcp0
    rw [show (numMap 0 : List (List Char × Int)) = [] from rfl,
      show (mixMap [] : List (List Char × Int)) = [] from rfl,
      List.nil_append] at henc
    rw [show (numMap 0 : List (List Char × Int)) = [] from rfl,
      show (sentPartAux 0 0 [] : List (List Char × Int)) = [] from rfl,
      show (predPartAux 0 0 [] : List (List Char × Int)) = [] from rfl] at hdec
    simp only [List.map_nil] at hdec
    have hscan' : Lexer.scan s = .ok ts := by
      simp [Lexer.scan, hscan]
    refine ⟨((List.enumFrom 0 codes).map
      (fun ig => primeAt ig.1 ^ ig.2.toNat)).prod, ?_, ?_⟩
    · show encodeW PRIME PRIME_OFFSET s = _
      simp only [encodeW, if_neg hs, hscan', except_bind_ok, henc]
      rw [show codes.enum = List.enumFrom 0 codes from rfl,
        mapM_powers codes 0 (by omega)]
      simp only [except_bind_ok]
      rw [prod_eq_list_prod]
      rfl
    · obtain ⟨hN1, hgr⟩ := groupConsec_factor_pows codes 0 (by omega) hcpos
      show decodeW PRIME _ = _
      simp only [decodeW]
      rw [if_neg (by omega), hgr, hdec,
        show (Except.ok (ts.map Prod.snd) :
          Except DecodeError (List (List Char))).map List.flatten =
          Except.ok ((ts.map Prod.snd).flatten) from rfl, hflat0]

/-! ## Claims C1 and C10: the round trip -/

/-- A checkable sufficient condition for `CanonicalFor`: the distinct lexemes
of the class are exactly the first `n` generated names, in order. -/
theorem canonicalFor_of_eq {pool : List Char} {ty : TokenType} {ts : List Token}
    (n : Nat)
    (h : firstOccs (classLexemes ty ts) =
      (List.range n).map (fun k => next_var_name k pool)) :
    CanonicalFor pool ty ts := by
  intro k lx hk
  rw [h, List.get?_eq_getElem?, List.getElem?_map] at hk
  rcases hr : (List.range n)[k]? with _ | m
  · rw [hr] at hk
    simp at hk
  · rw [hr] at hk
    obtain ⟨hkn, hval⟩ := List.getElem?_eq_some.mp hr
    rw [List.getElem_range] at hval
    subst hval
    exact (Option.some.inj hk).symm

/-- C1 as amended: `decode (encode s) = s` holds for every scannable string
whose variables appear in canonical per-class order (the k-th distinct
variable of each class is the k-th name the decoder generates from that
class's pool) and whose token count fits the prime pool
(`|tokens| + PRIME_OFFSET <= |PRIME|`). -/
theorem encode_decode_canonical_roundtrip (s : List Char) (ts : List Token)
    (hscan : scanAux s.length s = (ts, []))
    (hlen : ts.length + PRIME_OFFSET ≤ PRIME.length)
    (hcn : CanonicalFor NUMERICAL_VARIABLES .numerical ts)
    (hcs : CanonicalFor SENTNTIAL_VARIABLES .sentntial ts)
    (hcp : CanonicalFor PREDICATE_VARIABLES .predicate ts) :
    ∃ N : Int, encode s = .ok N ∧ decode N = .ok s :=
  roundtrip_canonical s ts hscan hlen hcn hcs hcp

/-- Witness for the amended C1, at the input "x=x". -/
theorem encode_decode_canonical_roundtrip_witness :
    scanAux (['x', '=', 'x'] : List Char).length ['x', '=', 'x'] =
      ([(TokenType.numerical, ['x']), (TokenType.constant, ['=']),
        (TokenType.numerical, ['x'])], []) ∧
    ([(TokenType.numerical, ['x']), (TokenType.constant, ['=']),
        (TokenType.numerical, ['x'])] : List Token).length + PRIME_OFFSET ≤
      PRIME.length ∧
    (∃ N : Int, encode ['x', '=', 'x'] = .ok N ∧ decode N = .ok ['x', '=', 'x']) :=
  ⟨by decide,
   by rw [PRIME_OFFSET_eq]; exact le_trans (by decide) PRIME_length_ge8,
   encode_decode_canonical_roundtrip ['x', '=', 'x']
     [(TokenType.numerical, ['x']), (TokenType.constant, ['=']),
       (TokenType.numerical, ['x'])] (by decide)
     (by rw [PRIME_OFFSET_eq]; exact le_trans (by decide) PRIME_length_ge8)
     (canonicalFor_of_eq 1 (by decide))
     (canonicalFor_of_eq 0 (by decide))
     (canonicalFor_of_eq 0 (by decide))⟩

/-- Counterexample to C1: the one-token string "y" is composed of valid
tokens, yet it encodes to `2^13` and decodes back to "x" — the decoder names
the first fresh numerical variable from the pool regardless of the original
lexeme, so the unconditional round trip fails. -/
theorem roundtrip_fails_on_y :
    encode ['y'] = .ok 8192 ∧ decode 8192 = .ok ['x'] ∧
      (['x'] : List Char) ≠ ['y'] := by
  refine ⟨?_, ?_, by decide⟩
  · simp only [encode]
    rw [PRIME_eq, PRIME_OFFSET_eq]
    decide
  · simp only [decode]
    rw [PRIME_eq]
    decide


theorem numName_isVarLexeme (k : Nat) :
    IsVarLexeme NUMERICAL_VARIABLES (numName k) := by
  refine ⟨NUMERICAL_VARIABLES.getD (k % NUMERICAL_VARIABLES.length) TICK,
    List.replicate (k / NUMERICAL_VARIABLES.length) TICK, rfl, ?_, ?_⟩
  · exact getD_mem_of_lt (Nat.mod_lt _ (by decide))
  · intro d hd
    exact List.eq_of_mem_replicate hd

theorem takeTicks_ticks_append : ∀ (t r : List Char), (∀ d ∈ t, d = TICK) →
    (∀ c, r.head? = some c → c ≠ TICK) →
    takeTicks (t ++ r) = (t, r) := by
  intro t
  induction t with
  | nil =>
    intro r _ hr
    cases r with
    | nil => rfl
    | cons c r' =>
      simp only [List.nil_append, takeTicks]
      rw [if_neg (hr c rfl)]
  | cons d t iht =>
    intro r ht hr
    have hd : d = TICK := ht d (by simp)
    simp only [List.cons_append, List.append_eq, takeTicks]
    rw [if_pos hd, iht r (fun x hx => ht x (by simp [hx])) hr]

theorem flatten_head_not_tick : ∀ (names : List (List Char)),
    (∀ nm ∈ names, IsVarLexeme NUMERICAL_VARIABLES nm) →
    ∀ cc, (names.flatten).head? = some cc → cc ≠ TICK := by
  intro names
  induction names with
  | nil => intro _ cc h; simp at h
  | cons nm names ihn =>
    intro h cc hcc
    obtain ⟨c, t, rfl, hc, _⟩ := h nm (by simp)
    simp only [List.flatten_cons, List.cons_append, List.head?_cons,
      Option.some.injEq] at hcc
    subst hcc
    simp [NUMERICAL_VARIABLES] at hc
    rcases hc with rfl | rfl | rfl <;> decide

theorem scanAux_numNames : ∀ (names : List (List Char)) (fuel : Nat),
    (∀ nm ∈ names, IsVarLexeme NUMERICAL_VARIABLES nm) →
    names.flatten.length ≤ fuel →
    scanAux fuel names.flatten =
      (names.map (fun nm => ((TokenType.numerical : TokenType), nm)), []) := by
  intro names
  induction names with
  | nil =>
    intro fuel _ _
    cases fuel <;> rfl
  | cons nm names ihn =>
    intro fuel hwf hlen
    obtain ⟨c, t, hnm, hc, ht⟩ := hwf nm (by simp)
    subst hnm
    simp only [List.flatten_cons, List.length_append, List.length_cons] at hlen
    cases fuel with
    | zero => exact absurd hlen (by omega)
    | succ f =>
      have hcc : isConstantSign c = false := by
        have hc' := hc
        simp [NUMERICAL_VARIABLES] at hc'
        rcases hc' with rfl | rfl | rfl <;> decide
      have htt : takeTicks (t ++ names.flatten) = (t, names.flatten) :=
        takeTicks_ticks_append t names.flatten ht
          (flatten_head_not_tick names (fun u hu => hwf u (by simp [hu])))
      have hrec := ihn f (fun u hu => hwf u (by simp [hu])) (by omega)
      simp only [List.flatten_cons, List.cons_append, List.append_eq, scanAux]
      rw [if_neg (by rw [hcc]; simp), if_pos hc, htt, hrec]
      rfl

theorem encodeTokenW_numerical_none {PR : List Int} {off : Nat} {st : State}
    {lx : List Char}
    (h : State.encode_numerical_variableW PR off st lx = none) :
    encodeTokenW PR off st (.numerical, lx) = .error .indexError := by
  simp only [encodeTokenW, h]

theorem encode_numW_none' {PR : List Int} {off : Nat} {e : List Int}
    {nv sv pv : List (List Char × Int)} {lx : List Char}
    (h : nv.lookup lx = none) (hg : PR.get? (off + nv.length) = none) :
    State.encode_numerical_variableW PR off ⟨e, nv, sv, pv⟩ lx = none := by
  simp only [State.encode_numerical_variableW, h, hg, Option.map_none']

theorem encodeLoopW_cons_err {PR : List Int} {off : Nat} {st : State}
    {t : Token} {err : EncodeError} {ts : List Token}
    (h : encodeTokenW PR off st t = .error err) :
    encodeLoopW PR off st (t :: ts) = .error err := by
  simp only [encodeLoopW, h]
  rfl

theorem numMap_lookup_fresh_none (nn : Nat) :
    (numMap nn).lookup (numName nn) = none := by
  apply lookup_eq_none_iff.mpr
  intro hmem
  obtain ⟨e, he, hf⟩ := List.mem_map.mp hmem
  obtain ⟨j, hj, rfl⟩ := numMap_mem he
  exact absurd (numName_inj _ _ hf) (by omega)

/-- Feeding fresh canonical numerical variables eventually exhausts the prime
pool: if the pool overflows within `m` tokens, the encode loop raises
`IndexError`. -/
theorem encodeLoop_overflow : ∀ (m nn : Nat) (enc : List Int) (σ : List Bool),
    1 ≤ m → PRIME.length < PRIME_OFFSET + nn + m →
    encodeLoopW PRIME PRIME_OFFSET ⟨enc, numMap nn, mixMap σ, []⟩
      ((List.range' nn m).map (fun k =>
        ((TokenType.numerical : TokenType), numName k))) =
      .error .indexError := by
  intro m
  induction m with
  | zero => intro nn enc σ hm _; omega
  | succ m ih =>
    intro nn enc σ _ hov
    rw [List.range'_succ, List.map_cons]
    rcases Nat.lt_or_ge (PRIME_OFFSET + nn) PRIME.length with hin | hout
    · -- the current token still gets a prime; recurse
      have hm' : 1 ≤ m := by omega
      have hp : PRIME.get? (PRIME_OFFSET + (numMap nn).length) =
          some (primeAt (PRIME_OFFSET + nn)) := by
        rw [numMap_length]
        exact PRIME_get?_eq hin
      rw [encodeLoopW_cons_ok' (encodeTokenW_numerical
          (encode_numW_fresh' (numMap_lookup_fresh_none nn) hp)),
        show numMap nn ++ [(numName nn, primeAt (PRIME_OFFSET + nn))] =
          numMap (nn + 1) from (numMap_succ nn).symm]
      exact ih (nn + 1) (enc ++ [primeAt (PRIME_OFFSET + nn)]) σ hm' (by omega)
    · -- the pool is exhausted: IndexError now
      have hg : PRIME.get? (PRIME_OFFSET + (numMap nn).length) = none := by
        rw [numMap_length]
        exact List.get?_eq_none.mpr hout
      exact encodeLoopW_cons_err (encodeTokenW_numerical_none
        (encode_numW_none' (numMap_lookup_fresh_none nn) hg))

theorem firstOccsAux_of_nodup : ∀ (l seen : List (List Char)), l.Nodup →
    (∀ a ∈ l, a ∉ seen) → firstOccsAux seen l = l := by
  intro l
  induction l with
  | nil => intro seen _ _; rfl
  | cons a l ihl =>
    intro seen hnd hdis
    simp only [firstOccsAux]
    have h2 : firstOccsAux (seen ++ [a]) l = l := by
      apply ihl _ (List.nodup_cons.mp hnd).2
      intro b hb hbs
      rcases List.mem_append.mp hbs with h | h
      · exact hdis b (by simp [hb]) h
      · rw [List.mem_singleton] at h
        subst h
        exact (List.nodup_cons.mp hnd).1 hb
    rw [if_neg (hdis a (by simp)), h2]

/-- The first `n` canonical numerical names. -/
def monsterNames (n : Nat) : List (List Char) := (List.range n).map numName

def monsterTokens (n : Nat) : List Token :=
  (monsterNames n).map (fun nm => ((TokenType.numerical : TokenType), nm))

/-- A no-predicate canonical string of `n` distinct numerical variables. -/
def monsterString (n : Nat) : List Char := (monsterNames n).flatten

theorem monster_wf (n : Nat) :
    ∀ nm ∈ monsterNames n, IsVarLexeme NUMERICAL_VARIABLES nm := by
  intro nm hnm
  obtain ⟨k, _, rfl⟩ := List.mem_map.mp hnm
  exact numName_isVarLexeme k

theorem monster_scan (n : Nat) :
    scanAux (monsterString n).length (monsterString n) = (monsterTokens n, []) :=
  scanAux_numNames (monsterNames n) (monsterString n).length (monster_wf n) le_rfl

theorem monster_tokens_length (n : Nat) : (monsterTokens n).length = n := by
  unfold monsterTokens monsterNames
  simp

theorem monster_ne_nil (n : Nat) (h1 : 1 ≤ n) : monsterString n ≠ [] := by
  intro h
  have hs := monster_scan n
  rw [h] at hs
  have hpair : (([], []) : List Token × List Char) = (monsterTokens n, []) := by
    rw [← hs]
    rfl
  injection hpair with hfst _
  have hlen := monster_tokens_length n
  rw [← hfst] at hlen
  simp at hlen
  omega

theorem monster_no_pred (n : Nat) :
    ∀ t ∈ monsterTokens n, t.1 ≠ TokenType.predicate := by
  intro t ht
  obtain ⟨nm, _, rfl⟩ := List.mem_map.mp ht
  intro h
  exact TokenType.noConfusion h

theorem monster_class_num (n : Nat) :
    classLexemes .numerical (monsterTokens n) = monsterNames n := by
  unfold classLexemes monsterTokens
  rw [List.filter_map]
  have hall : (monsterNames n).filter
      ((fun t : Token => decide (t.1 = TokenType.numerical)) ∘
        (fun nm => ((TokenType.numerical : TokenType), nm))) = monsterNames n := by
    apply List.filter_eq_self.mpr
    intro a _
    rfl
  rw [hall, List.map_map]
  rw [show (Prod.snd ∘ fun nm : List Char =>
    ((TokenType.numerical : TokenType), nm)) = id from rfl, List.map_id]

theorem monster_nodup (n : Nat) : (monsterNames n).Nodup := by
  apply List.Nodup.map
  · exact fun a b h => numName_inj a b h
  · exact List.nodup_range n

theorem monster_canon_num (n : Nat) :
    CanonicalFor NUMERICAL_VARIABLES .numerical (monsterTokens n) := by
  apply canonicalFor_of_eq n
  unfold firstOccs
  rw [monster_class_num,
    firstOccsAux_of_nodup (monsterNames n) [] (monster_nodup n) (by simp)]
  rfl

theorem monster_canon_sent (n : Nat) :
    CanonicalFor SENTNTIAL_VARIABLES .sentntial (monsterTokens n) := by
  apply canonicalFor_of_eq 0
  have hcl : classLexemes .sentntial (monsterTokens n) = [] := by
    unfold classLexemes monsterTokens
    rw [List.filter_map]
    have hnone : (monsterNames n).filter
        ((fun t : Token => decide (t.1 = TokenType.sentntial)) ∘
          (fun nm => ((TokenType.numerical : TokenType), nm))) = [] := by
      apply List.filter_eq_nil_iff.mpr
      intro a _
      simp
    rw [hnone]
    rfl
  rw [hcl]
  rfl

theorem monster_encode (n : Nat) (h1 : 1 ≤ n)
    (hov : PRIME.length < PRIME_OFFSET + n) :
    encode (monsterString n) = .error .indexError := by
  show encodeW PRIME PRIME_OFFSET (monsterString n) = _
  have hscan' : Lexer.scan (monsterString n) = .ok (monsterTokens n) := by
    unfold Lexer.scan
    rw [monster_scan n]
    rfl
  simp only [encodeW, if_neg (monster_ne_nil n h1), hscan', except_bind_ok]
  have htok : monsterTokens n = (List.range' 0 n).map
      (fun k => ((TokenType.numerical : TokenType), numName k)) := by
    unfold monsterTokens monsterNames
    rw [List.map_map, List.range_eq_range']
    rfl
  rw [htok]
  have hover := encodeLoop_overflow n 0 [] [] h1 (by omega)
  rw [show (numMap 0 : List (List Char × Int)) = [] from rfl,
    show (mixMap [] : List (List Char × Int)) = [] from rfl] at hover
  rw [hover]
  rfl

/-- Counterexample to C10: the canonical no-predicate string of
`|PRIME| - PRIME_OFFSET + 1` distinct numerical variables tokenizes into at
most `|PRIME|` tokens and satisfies the canonical-naming condition, yet
`encode` raises `IndexError` — the pool only serves
`|PRIME| - PRIME_OFFSET` fresh variables — so the round trip fails. -/
theorem prime_pool_exhaustion :
    ∃ n : Nat, n = PRIME.length - PRIME_OFFSET + 1 ∧
      scanAux (monsterString n).length (monsterString n) = (monsterTokens n, []) ∧
      (monsterTokens n).length ≤ PRIME.length ∧
      (∀ t ∈ monsterTokens n, t.1 ≠ TokenType.predicate) ∧
      CanonicalFor NUMERICAL_VARIABLES .numerical (monsterTokens n) ∧
      CanonicalFor SENTNTIAL_VARIABLES .sentntial (monsterTokens n) ∧
      encode (monsterString n) = .error .indexError ∧
      ¬∃ N : Int, encode (monsterString n) = .ok N ∧
        decode N = .ok (monsterString n) := by
  have h8 := PRIME_length_ge8
  have h5 := PRIME_OFFSET_eq
  have h1 : 1 ≤ PRIME.length - PRIME_OFFSET + 1 := by omega
  have hov : PRIME.length < PRIME_OFFSET + (PRIME.length - PRIME_OFFSET + 1) := by
    omega
  have hE := monster_encode _ h1 hov
  refine ⟨PRIME.length - PRIME_OFFSET + 1, rfl, monster_scan _, ?_,
    monster_no_pred _, monster_canon_num _, monster_canon_sent _, hE, ?_⟩
  · rw [monster_tokens_length]
    omega
  · rintro ⟨N, hN, _⟩
    rw [hE] at hN
    exact Except.noConfusion hN

/-- C10 as amended: the implicit round trip holds for canonically named,
predicate-free strings of at most `|PRIME| - PRIME_OFFSET` tokens. -/
theorem no_predicate_canonical_roundtrip (s : List Char) (ts : List Token)
    (hscan : scanAux s.length s = (ts, []))
    (hlen : ts.length + PRIME_OFFSET ≤ PRIME.length)
    (hnp : ∀ t ∈ ts, t.1 ≠ TokenType.predicate)
    (hcn : CanonicalFor NUMERICAL_VARIABLES .numerical ts)
    (hcs : CanonicalFor SENTNTIAL_VARIABLES .sentntial ts) :
    ∃ N : Int, encode s = .ok N ∧ decode N = .ok s := by
  apply roundtrip_canonical s ts hscan hlen hcn hcs
  intro k lx hk
  have hcl : classLexemes .predicate ts = [] := by
    unfold classLexemes
    have hnil : ts.filter (fun t => decide (t.1 = TokenType.predicate)) = [] := by
      apply List.filter_eq_nil_iff.mpr
      intro t ht
      simp [hnp t ht]
    rw [hnil]
    rfl
  rw [hcl] at hk
  simp [firstOccs, firstOccsAux] at hk

/-- Witness for the amended C10, at the input "p∨q". -/
theorem no_predicate_canonical_roundtrip_witness :
    scanAux (['p', '∨', 'q'] : List Char).length ['p', '∨', 'q'] =
      ([(TokenType.sentntial, ['p']), (TokenType.constant, ['∨']),
        (TokenType.sentntial, ['q'])], []) ∧
    ([(TokenType.sentntial, ['p']), (TokenType.constant, ['∨']),
        (TokenType.sentntial, ['q'])] : List Token).length + PRIME_OFFSET ≤
      PRIME.length ∧
    (∀ t ∈ ([(TokenType.sentntial, ['p']), (TokenType.constant, ['∨']),
        (TokenType.sentntial, ['q'])] : List Token), t.1 ≠ TokenType.predicate) ∧
    (∃ N : Int, encode ['p', '∨', 'q'] = .ok N ∧ decode N = .ok ['p', '∨', 'q']) :=
  ⟨by decide,
   by rw [PRIME_OFFSET_eq]; exact le_trans (by decide) PRIME_length_ge8,
   by decide,
   no_predicate_canonical_roundtrip ['p', '∨', 'q']
     [(TokenType.sentntial, ['p']), (TokenType.constant, ['∨']),
       (TokenType.sentntial, ['q'])] (by decide)
     (by rw [PRIME_OFFSET_eq]; exact le_trans (by decide) PRIME_length_ge8)
     (by decide)
     (canonicalFor_of_eq 0 (by decide))
     (canonicalFor_of_eq 2 (by decide))⟩
